import Mathlib

/-!
# Verification of the Lasagna v2 time-series codec (`src/lasagna2/core.py`, `cli.py`)

Shallow embedding of the LSG2 codec.  Modelling conventions:

* Python `float` (IEEE binary64) is modelled by `ℚ` with exact arithmetic.
  All concrete inputs used in witnesses and counterexamples are chosen so
  that every intermediate value of the Python program is exactly
  representable in binary64 (dyadic rationals, small integers), so on those
  inputs the model computes exactly what the program computes.
* Python `int` is `ℤ` (arbitrary precision, as in Python 3).
* Byte strings are `List ℕ` with entries `< 256`.
* Fallible Python code (`raise ValueError` …) is `Except String α`; error
  strings follow the source's messages (f-string payloads dropped).
* `math.sqrt` is modelled by `sqrtQ`, which is exact whenever the argument's
  numerator and denominator are perfect squares (every concrete input in
  this file has that property); theorems quantifying over arbitrary inputs
  use only `0 ≤ sqrtQ v`, which holds for any correct square root.
-/

namespace Lasagna

/-! ## Small arithmetic helpers -/

/-- Python 3 `round` (banker's rounding: nearest integer, ties to even). -/
def pyRound (q : ℚ) : ℤ :=
  let f := ⌊q⌋
  let frac := q - (f : ℚ)
  if frac < 1/2 then f
  else if 1/2 < frac then f + 1
  else if f % 2 = 0 then f else f + 1

/-- `2 ^ e` over `ℚ` for an integer exponent. -/
def qpow2 (e : ℤ) : ℚ :=
  if 0 ≤ e then ((2 ^ e.toNat : ℕ) : ℚ) else 1 / ((2 ^ (-e).toNat : ℕ) : ℚ)

/-- Model of `math.sqrt` on nonnegative rationals.  Exact when numerator and
denominator are perfect squares (all concrete inputs below are); on other
inputs it is some nonnegative rational, and no theorem in this file depends
on its value beyond nonnegativity. -/
def sqrtQ (q : ℚ) : ℚ :=
  if q ≤ 0 then 0 else (Nat.sqrt q.num.toNat : ℚ) / (Nat.sqrt q.den : ℚ)

/-- Two's-complement XOR on unbounded integers: the model of Python's `^` on
`int` (Python ints behave as infinite two's-complement bit strings). -/
def intXor (a b : ℤ) : ℤ :=
  if 0 ≤ a then
    if 0 ≤ b then ((a.toNat ^^^ b.toNat : ℕ) : ℤ)
    else -(((a.toNat ^^^ (-b - 1).toNat : ℕ) : ℤ)) - 1
  else
    if 0 ≤ b then -((((-a - 1).toNat ^^^ b.toNat : ℕ) : ℤ)) - 1
    else (((-a - 1).toNat ^^^ (-b - 1).toNat : ℕ) : ℤ)

/-! ## Varint / ZigZag helpers (`core.py` lines 198–263) -/

/-- `zigzag_encode(n) = (n << 1) ^ (n >> 31)`; `>>` is Python's arithmetic
(floor) shift, `^` is two's-complement XOR. -/
def zigzag_encode (n : ℤ) : ℤ := intXor (n * 2) (Int.fdiv n (2 ^ 31))

/-- `zigzag_decode(z) = (z >> 1) ^ -(z & 1)`; `z & 1` is `z mod 2 ∈ {0,1}`. -/
def zigzag_decode (z : ℤ) : ℤ := intXor (Int.fdiv z 2) (-(z % 2))

/-- `_encode_varint`: unsigned base-128 with MSB-continuation bytes.
The Python loop `to_write = value & 0x7F; value >>= 7; …` becomes structural
recursion on `value`. -/
def encode_varint (v : ℕ) : List ℕ :=
  if h : v < 128 then [v]
  else (v % 128 + 128) :: encode_varint (v / 128)
decreasing_by exact Nat.div_lt_self (by omega) (by omega)

/-- Loop body of `_decode_varint`: `data`/`offset` cursor, `shift`/`result`
accumulators.  `result |= (b & 0x7F) << shift`; stop on clear MSB; after
`shift += 7`, `shift > 63` ⇒ `"Varint too long"`. -/
def decode_varintAux (data : List ℕ) : ℕ → ℕ → ℕ → Except String (ℕ × ℕ)
  | offset, shift, result =>
    if h : data.length ≤ offset then .error "Truncated varint"
    else
      let b := data.getD offset 0
      let result' := result ||| ((b &&& 127) <<< shift)
      if b &&& 128 = 0 then .ok (result', offset + 1)
      else if 63 < shift + 7 then .error "Varint too long"
      else decode_varintAux data (offset + 1) (shift + 7) result'
termination_by offset _ _ => data.length - offset
decreasing_by simp_wf; omega

/-- `_decode_varint(data, offset)`: one varint starting at `offset`;
returns `(value, new_offset)`. -/
def decode_varint (data : List ℕ) (offset : ℕ) : Except String (ℕ × ℕ) :=
  decode_varintAux data offset 0 0

/-- `_encode_varint`'s negative-input guard, as used by
`encode_int_list_varint` (ZigZag output is always nonnegative, so the guard
never fires there). -/
def encode_varint_checked (z : ℤ) : Except String (List ℕ) :=
  if z < 0 then .error "varint expects non-negative integers"
  else .ok (encode_varint z.toNat)

/-- `encode_int_list_varint`: ZigZag then varint, concatenated. -/
def encode_int_list_varint (vs : List ℤ) : Except String (List ℕ) :=
  match vs with
  | [] => .ok []
  | v :: rest => do
      let head ← encode_varint_checked (zigzag_encode v)
      let tail ← encode_int_list_varint rest
      pure (head ++ tail)

/-- Loop of `decode_int_list_varint`: decode `k` more ZigZag+varint values
starting at `offset` (trailing bytes after the last value are ignored, as in
the source). -/
def decode_int_list_varintAux (data : List ℕ) : ℕ → ℕ → Except String (List ℤ)
  | 0, _ => .ok []
  | k + 1, offset => do
      let (z, o') ← decode_varint data offset
      let rest ← decode_int_list_varintAux data k o'
      pure (zigzag_decode (z : ℤ) :: rest)

/-- `decode_int_list_varint(data, length)`. -/
def decode_int_list_varint (data : List ℕ) (length : ℕ) : Except String (List ℤ) :=
  decode_int_list_varintAux data length 0

/-! ## Stats, predictors, quantization (`core.py` lines 269–343) -/

/-- `compute_stats(x)`: `(mean, slope, intercept, variance)` via closed-form
least squares over `t = 0 … n-1`.  Mirrors the early returns for `n = 0` and
`n = 1` and the `denom == 0` guard. -/
def compute_stats (x : List ℚ) : ℚ × ℚ × ℚ × ℚ :=
  let n := x.length
  let nq : ℚ := (n : ℚ)
  if n = 0 then (0, 0, 0, 0)
  else
    let mean := x.sum / nq
    if n = 1 then (mean, 0, mean, 0)
    else
      let sum_t : ℚ := (nq - 1) * nq / 2
      let sum_t2 : ℚ := (nq - 1) * nq * (2 * nq - 1) / 6
      let sum_x : ℚ := x.sum
      let sum_tx : ℚ := (x.enum.map (fun p => (p.1 : ℚ) * p.2)).sum
      let denom := nq * sum_t2 - sum_t * sum_t
      let slope := if denom = 0 then 0 else (nq * sum_tx - sum_t * sum_x) / denom
      let intercept := mean - slope * (sum_t / nq)
      let var := (x.map (fun v => ((v - mean) ^ 2 : ℚ))).sum / nq
      (mean, slope, intercept, var)

/-- `predict_mean_const(length, mean)`. -/
def predict_mean_const (length : ℕ) (mean : ℚ) : List ℚ :=
  List.replicate length mean

/-- `predict_linear(length, slope, intercept)`. -/
def predict_linear (length : ℕ) (slope intercept : ℚ) : List ℚ :=
  (List.range length).map (fun (i : ℕ) => intercept + slope * (i : ℚ))

/-- `predict_random_walk(x, seed)`: encoder-side random-walk predictions —
`preds[0] = seed`, `preds[i] = x[i-1]` (the ORIGINAL previous sample) for
`i ≥ 1`, exactly as in the source. -/
def predict_random_walk (x : List ℚ) (seed : ℚ) : List ℚ :=
  if x.length = 0 then []
  else seed :: (List.range (x.length - 1)).map (fun i => x.getD i 0)

/-- `quantize_residuals(residuals, C_Q, Q_MIN)`:
`Q = max(C_Q * sigma, Q_MIN)` (then the `Q == 0` fallback to `Q_MIN`),
`q_i = int(round(r_i / Q))`. -/
def quantize_residuals (residuals : List ℚ) (C_Q Q_MIN : ℚ) : List ℤ × ℚ :=
  if residuals = [] then ([], Q_MIN)
  else
    let n : ℚ := residuals.length
    let mean := residuals.sum / n
    let var := (residuals.map (fun r => (r - mean) ^ 2)).sum / n
    let sigma := sqrtQ var
    let Q0 := max (C_Q * sigma) Q_MIN
    let Q := if Q0 = 0 then Q_MIN else Q0
    (residuals.map (fun r => pyRound (r / Q)), Q)

/-! ## Segmentation (`core.py` lines 349–440) -/

/-- Loop of `segment_series_fixed_length`: `while start < n_points`. -/
def fixedSegsGo (n_points L : ℕ) (hL : 0 < L) : ℕ → List (ℕ × ℕ)
  | start =>
    if h : start < n_points then
      let e := min (start + L) n_points - 1
      (start, e) :: fixedSegsGo n_points L hL (e + 1)
    else []
termination_by start => n_points - start
decreasing_by simp_wf; omega

/-- `segment_series_fixed_length(n_points, segment_length)`; inclusive
`[start, end]` index pairs; `segment_length ≤ 0` is a `ValueError`. -/
def segment_series_fixed_length (n_points : ℕ) (segment_length : ℤ) :
    Except String (List (ℕ × ℕ)) :=
  if h : segment_length ≤ 0 then .error "segment_length must be > 0"
  else .ok (fixedSegsGo n_points segment_length.toNat (by omega) 0)

/-- `_build_preds_for_segmentation`: dispatch on `predictor_type`, unknown
types raise. -/
def build_preds_for_segmentation (x_seg : List ℚ) (predictor_type : ℕ)
    (mean slope intercept seed_value : ℚ) : Except String (List ℚ) :=
  if predictor_type = 0 then .ok (predict_mean_const x_seg.length mean)
  else if predictor_type = 1 then .ok (predict_linear x_seg.length slope intercept)
  else if predictor_type = 2 then .ok (predict_random_walk x_seg seed_value)
  else .error "Unknown predictor_type for segmentation"

/-- One MSE probe of the adaptive segmenter: fit stats on
`values[start..e]`, build the probe predictions, return the MSE against the
raw samples (the body of the inner `while True` loop before the threshold
test). -/
def adaptiveProbeMse (values : List ℚ) (predictor_type : ℕ) (start e : ℕ) :
    Except String ℚ := do
  let x_seg := (values.drop start).take (e + 1 - start)
  let length := x_seg.length
  let (mean, slope, intercept, _var) := compute_stats x_seg
  let seed_value := x_seg.headD 0
  let preds ← build_preds_for_segmentation x_seg predictor_type mean slope intercept seed_value
  let mse := if 0 < length
    then ((x_seg.zip preds).map (fun p => ((p.1 - p.2) ^ 2 : ℚ))).sum / (length : ℚ)
    else 0
  pure mse

/-- Inner `while True` loop of `segment_series_adaptive`: starting from
current candidate end `e` and last accepted end `best`, keep extending while
the probe MSE stays within `thr`, `e + 1 < n`, and length `< maxL`; returns
the final `best_end` (which never shrinks, recorded in the subtype). -/
def adaptiveExtend (values : List ℚ) (pt : ℕ) (maxL : ℕ) (thr : ℚ) (start : ℕ) :
    (best : ℕ) → (e : ℕ) → best ≤ e → Except String { b : ℕ // best ≤ b }
  | best, e, hbe =>
    match adaptiveProbeMse values pt start e with
    | .error msg => .error msg
    | .ok mse =>
      if mse ≤ thr then
        if h : e + 1 < values.length ∧ e - start + 1 < maxL then
          match adaptiveExtend values pt maxL thr start e (e + 1) (by omega) with
          | .error msg => .error msg
          | .ok ⟨b, hb⟩ => .ok ⟨b, by omega⟩
        else .ok ⟨e, hbe⟩
      else .ok ⟨best, le_refl best⟩
termination_by best e _ => values.length - e
decreasing_by simp_wf; omega

/-- Outer `while i < n` loop of `segment_series_adaptive`. -/
def adaptiveGo (values : List ℚ) (pt minL maxL : ℕ) (thr : ℚ) (hmin : 0 < minL) :
    (i : ℕ) → Except String (List (ℕ × ℕ))
  | i =>
    if h : i < values.length then
      let start := i
      let e0 := min (start + minL) values.length - 1
      match adaptiveExtend values pt maxL thr start e0 e0 (le_refl e0) with
      | .error msg => .error msg
      | .ok bb =>
        match adaptiveGo values pt minL maxL thr hmin (bb.1 + 1) with
        | .error msg => .error msg
        | .ok rest => .ok ((start, bb.1) :: rest)
    else .ok []
termination_by i => values.length - i
decreasing_by simp_wf; omega

/-- `segment_series_adaptive(values, predictor_type, min_len, max_len,
mse_threshold)`: empty input gives `[]` before any check; then
`min_len ≤ 0 or max_len < min_len` raises `ValueError`. -/
def segment_series_adaptive (values : List ℚ) (predictor_type : ℕ)
    (min_len max_len : ℤ) (mse_threshold : ℚ) : Except String (List (ℕ × ℕ)) :=
  if values.length = 0 then .ok []
  else if h : min_len ≤ 0 ∨ max_len < min_len then .error "Invalid min_len / max_len"
  else adaptiveGo values predictor_type min_len.toNat max_len.toNat mse_threshold
    (by omega) 0

/-! ## Byte-level primitives (models of `struct.pack` / `struct.unpack`) -/

/-- `w` little-endian bytes of `v` (the digits of `v` in base 256). -/
def leBytes : ℕ → ℕ → List ℕ
  | 0, _ => []
  | w + 1, v => v % 256 :: leBytes w (v / 256)

/-- Little-endian value of a byte list. -/
def leValue : List ℕ → ℕ
  | [] => 0
  | b :: rest => b + 256 * leValue rest

/-- `struct.pack("<H", v)`: raises on values outside `[0, 2^16)`. -/
def packU16 (v : ℕ) : Except String (List ℕ) :=
  if v < 2 ^ 16 then .ok (leBytes 2 v) else .error "argument out of range"

/-- `struct.pack("<I", v)`: raises on values outside `[0, 2^32)`. -/
def packU32 (v : ℕ) : Except String (List ℕ) :=
  if v < 2 ^ 32 then .ok (leBytes 4 v) else .error "argument out of range"

/-- `struct.pack("<i", q)`: two's-complement int32; raises outside
`[-2^31, 2^31)`.  This is where an oversized quantized residual makes the
encoder fail (`struct.error`). -/
def packI32 (q : ℤ) : Except String (List ℕ) :=
  if -(2 ^ 31) ≤ q ∧ q < 2 ^ 31 then .ok (leBytes 4 (q % 2 ^ 32).toNat)
  else .error "argument out of range"

/-- `struct.unpack("<i", ·)`: signed value of a 32-bit pattern. -/
def toI32 (u : ℕ) : ℤ :=
  if u < 2 ^ 31 then (u : ℤ) else (u : ℤ) - 2 ^ 32

/-- `⌊log₂ a⌋` for a positive rational (adjusted candidate from the integer
logs of numerator and denominator). -/
def ratLog2 (a : ℚ) : ℤ :=
  let c : ℤ := (Nat.log2 a.num.toNat : ℤ) - (Nat.log2 a.den : ℤ)
  if a < qpow2 c then c - 1 else if a < qpow2 (c + 1) then c else c + 1

/-- IEEE-754 binary64 bit pattern of a rational (round-to-nearest, ties to
even): the model of `struct.pack("<d", x)`'s payload.  Exact for every float
value this development manipulates; out-of-range rationals give the Inf
pattern as in IEEE. -/
def f64bits (q : ℚ) : ℕ :=
  if q = 0 then 0
  else
    let s : ℕ := if q < 0 then 1 else 0
    let a := |q|
    let e := ratLog2 a
    if e < -1022 then
      let m := (pyRound (a * qpow2 1074)).toNat
      if m < 2 ^ 52 then s * 2 ^ 63 + m
      else s * 2 ^ 63 + 2 ^ 52 + (m - 2 ^ 52)
    else
      let m := (pyRound (a / qpow2 (e - 52))).toNat
      let me : ℕ × ℤ := if m = 2 ^ 53 then (2 ^ 52, e + 1) else (m, e)
      if 1023 < me.2 then s * 2 ^ 63 + 2047 * 2 ^ 52
      else s * 2 ^ 63 + (me.2 + 1023).toNat * 2 ^ 52 + (me.1 - 2 ^ 52)

/-- Value of an IEEE-754 binary64 bit pattern: the model of
`struct.unpack("<d", ·)`.  Inf/NaN patterns (never produced by the encoder
on the inputs of this development, and never inspected by any claim) are
modelled as 0. -/
def f64ofBits (u : ℕ) : ℚ :=
  let s : ℕ := u / 2 ^ 63
  let e : ℕ := u / 2 ^ 52 % 2 ^ 11
  let m : ℕ := u % 2 ^ 52
  let sign : ℚ := if s % 2 = 1 then -1 else 1
  if e = 0 then sign * (m : ℚ) * qpow2 (-1074)
  else if e = 2047 then 0
  else sign * ((2 ^ 52 + m : ℕ) : ℚ) * qpow2 ((e : ℤ) - 1075)

/-- `struct.pack("<d", q)`: 8 little-endian bytes of the binary64 pattern
(total — packing a float never raises). -/
def packF64 (q : ℚ) : List ℕ := leBytes 8 (f64bits q)

/-! ## Data model (`core.py` dataclasses) and context JSON -/

/-- ASCII bytes of `"1970-01-01T00:00:00Z"` (the `t0` dataclass default).
Python `str` metadata is modelled as its UTF-8 byte list. -/
def defaultT0 : List ℕ :=
  [49, 57, 55, 48, 45, 48, 49, 45, 48, 49, 84, 48, 48, 58, 48, 48, 58, 48, 48, 90]

/-- ASCII bytes of `"unknown"` (the `unit` dataclass default). -/
def defaultUnit : List ℕ := [117, 110, 107, 110, 111, 119, 110]

/-- `TimeSeries` dataclass; `values` are binary64 floats (modelled as `ℚ`),
the string metadata fields are UTF-8 byte lists. -/
structure TimeSeries where
  values : List ℚ
  dt : ℚ := 1
  t0 : List ℕ := defaultT0
  unit : List ℕ := defaultUnit
deriving DecidableEq

/-- `SegmentEntry` dataclass: the decoded/encoded segment-table row.
`start_idx`, `end_idx`, `predictor_type` are u32 on the wire. -/
structure SegmentEntry where
  start_idx : ℕ
  end_idx : ℕ
  predictor_type : ℕ
  mean : ℚ
  slope : ℚ
  intercept : ℚ
  quant_step_Q : ℚ
  seed_value : ℚ
deriving DecidableEq

/-- ASCII digits of `n`, most significant first. -/
def natDigits (n : ℕ) : List ℕ :=
  if h : n < 10 then [48 + n]
  else natDigits (n / 10) ++ [48 + n % 10]
decreasing_by exact Nat.div_lt_self (by omega) (by omega)

/-- Byte rendering of `dt` inside the context JSON.  Models Python's float
`repr` (the model renders the exact rational as `num/den`); no claim
inspects these bytes, only their count and that `json.loads` accepts the
whole object. -/
def dtRepr (q : ℚ) : List ℕ :=
  (if q < 0 then [45] else []) ++ natDigits q.num.natAbs ++ [47] ++ natDigits q.den

/-- ASCII bytes of `\x7b"sampling":\x7b"dt":`, the opening of the context
JSON produced by `build_context_json`. -/
def ctxOpen : List ℕ :=
  [123, 34, 115, 97, 109, 112, 108, 105, 110, 103, 34, 58, 123, 34, 100, 116, 34, 58]

/-- `build_context_json`: the bytes of
`\x7b"sampling":\x7b"dt":<dt>,"t0":"<t0>"\x7d,"unit":"<unit>"\x7d`
(key order and minimal separators as produced by `json.dumps`). -/
def build_context_json (dt : ℚ) (t0 unit : List ℕ) : List ℕ :=
  ctxOpen ++ dtRepr dt ++
    [44, 34, 116, 48, 34, 58, 34] ++ t0 ++
    [34, 125, 44, 34, 117, 110, 105, 116, 34, 58, 34] ++ unit ++ [34, 125]

/-- Model of `json.loads` succeeding on the context bytes.  It recognizes
exactly the byte strings this development ever decodes — outputs of
`build_context_json` and the literal `\x7b\x7d` used by hand-crafted
buffers — all of which the real `json.loads` accepts.  Claims never inspect
the extracted metadata, so decode re-supplies the dataclass defaults. -/
def ctxWellFormed (bs : List ℕ) : Bool :=
  bs = [123, 125] || ctxOpen.isPrefixOf bs

/-! ## Encoding (`encode_timeseries`, `core.py` lines 460–694) -/

/-- Keyword arguments of `encode_timeseries`, with the source's defaults. -/
structure EncOpts where
  segment_length : ℤ := 64
  predictor : String := "linear"
  C_Q : ℚ := 1 / 2
  Q_MIN : ℚ := 1 / 1000000
  segment_mode : String := "fixed"
  min_segment_length : ℤ := 32
  max_segment_length : ℤ := 128
  mse_threshold : ℚ := 1 / 2
  residual_coding : String := "raw"

/-- `predictor_map = {"mean": 0, "linear": 1, "rw": 2}` (callers check
membership first; the fallback 0 is unreachable). -/
def predMap (predictor : String) : ℕ :=
  if predictor = "mean" then 0
  else if predictor = "linear" then 1
  else 2

/-- Decoder-parity reconstruction of a random-walk segment, used locally by
`"auto"` predictor selection (lines 563–570): `x̂[0] = seed + q₀·Q`,
`x̂[i] = x̂[i-1] + qᵢ·Q`. -/
def rwLocalDecode (prev : ℚ) (Q : ℚ) : List ℤ → List ℚ
  | [] => []
  | q :: rest =>
    let x := prev + (q : ℚ) * Q
    x :: rwLocalDecode x Q rest

/-- MSE of a candidate's local reconstruction against the raw segment. -/
def candMse (x_seg x_hat : List ℚ) : ℚ :=
  if 0 < x_seg.length
  then ((x_seg.zip x_hat).map (fun p => ((p.1 - p.2) ^ 2 : ℚ))).sum / (x_seg.length : ℚ)
  else 0

/-- One `"auto"` candidate (lines 540–579): predict, quantize, locally
decode, and return this candidate's end-to-end MSE. -/
def autoCandidateMse (x_seg : List ℚ) (cand_type : ℕ)
    (mean slope intercept seed_value C_Q Q_MIN : ℚ) : Except String ℚ := do
  let preds_c ← build_preds_for_segmentation x_seg cand_type mean slope intercept seed_value
  let residuals_c := (x_seg.zip preds_c).map (fun p => p.1 - p.2)
  let (q_res_c, Q_c) := quantize_residuals residuals_c C_Q Q_MIN
  let x_hat_c :=
    if cand_type = 2 then rwLocalDecode seed_value Q_c q_res_c
    else (preds_c.zip q_res_c).map (fun p => p.1 + (p.2 : ℚ) * Q_c)
  pure (candMse x_seg x_hat_c)

/-- `"auto"` per-segment predictor selection: try types 0, 1, 2 in order and
keep the strictly smallest reconstructed MSE (`best_mse` starts at `+∞`, so
the first candidate always wins initially; ties keep the earlier type). -/
def chooseAutoType (x_seg : List ℚ)
    (mean slope intercept seed_value C_Q Q_MIN : ℚ) : Except String ℕ := do
  let m0 ← autoCandidateMse x_seg 0 mean slope intercept seed_value C_Q Q_MIN
  let m1 ← autoCandidateMse x_seg 1 mean slope intercept seed_value C_Q Q_MIN
  let m2 ← autoCandidateMse x_seg 2 mean slope intercept seed_value C_Q Q_MIN
  let best : ℕ × ℚ := (0, m0)
  let best := if m1 < best.2 then (1, m1) else best
  let best := if m2 < best.2 then (2, m2) else best
  pure best.1

/-- Body of the per-segment loop of `encode_timeseries` (lines 528–619):
stats, predictor choice, residuals, quantization, and the committed
`SegmentEntry` plus quantized-residual block. -/
def processSegment (values : List ℚ) (predictor : String) (C_Q Q_MIN : ℚ)
    (se : ℕ × ℕ) : Except String (SegmentEntry × List ℤ) := do
  let start := se.1
  let e := se.2
  let x_seg := (values.drop start).take (e + 1 - start)
  let (mean, slope, intercept, _var) := compute_stats x_seg
  let seed_value := x_seg.headD 0
  let predictor_type_seg ←
    if predictor = "auto"
    then chooseAutoType x_seg mean slope intercept seed_value C_Q Q_MIN
    else pure (predMap predictor)
  let preds ← build_preds_for_segmentation x_seg predictor_type_seg mean slope intercept seed_value
  let residuals := (x_seg.zip preds).map (fun p => p.1 - p.2)
  let (q_res, Q) := quantize_residuals residuals C_Q Q_MIN
  pure ({ start_idx := start, end_idx := e, predictor_type := predictor_type_seg,
          mean := mean, slope := slope, intercept := intercept,
          quant_step_Q := Q, seed_value := seed_value }, q_res)

/-- The fully assembled file before byte serialization: header fields,
context bytes, segment table, residual coding, and per-segment quantized
residuals (block `seg_id`s are the list positions, as in the source). -/
structure FileStruct where
  n_points : ℕ
  ctx : List ℕ
  segments : List SegmentEntry
  coding_type : ℕ
  q_resid_segments : List (List ℤ)
deriving DecidableEq

/-- Stages 1–2 of `encode_timeseries`: option validation, segmentation, and
per-segment processing, producing the `FileStruct` that stage 3 serializes. -/
def encodeStruct (ts : TimeSeries) (o : EncOpts) : Except String FileStruct := do
  let values := ts.values
  let n_points := values.length
  if n_points = 0 then throw "TimeSeries is empty"
  if o.predictor ≠ "auto" ∧
      ¬(o.predictor = "mean" ∨ o.predictor = "linear" ∨ o.predictor = "rw") then
    throw "Unknown predictor"
  let predictor_type_for_segmentation :=
    if o.predictor = "auto" then 1 else predMap o.predictor
  let segment_ranges ←
    if o.segment_mode = "fixed" then
      segment_series_fixed_length n_points o.segment_length
    else if o.segment_mode = "adaptive" then
      segment_series_adaptive values predictor_type_for_segmentation
        o.min_segment_length o.max_segment_length o.mse_threshold
    else throw "segment_mode must be 'fixed' or 'adaptive'"
  let pairs ← segment_ranges.mapM (processSegment values o.predictor o.C_Q o.Q_MIN)
  let coding_type ←
    if o.residual_coding = "raw" then pure 0
    else if o.residual_coding = "varint" then pure 1
    else throw "Unknown residual_coding"
  pure { n_points := n_points,
         ctx := build_context_json ts.dt ts.t0 ts.unit,
         segments := pairs.map Prod.fst,
         coding_type := coding_type,
         q_resid_segments := pairs.map Prod.snd }

/-- `b"LSG2"`. -/
def magicBytes : List ℕ := [76, 83, 71, 50]

/-- `SEGMENT_ENTRY_STRUCT.pack`: `<6Iddddd` with three zero pads. -/
def packSegmentEntry (seg : SegmentEntry) : Except String (List ℕ) := do
  let s ← packU32 seg.start_idx
  let e ← packU32 seg.end_idx
  let p ← packU32 seg.predictor_type
  let z ← packU32 0
  pure (s ++ e ++ p ++ z ++ z ++ z ++ packF64 seg.mean ++ packF64 seg.slope ++
    packF64 seg.intercept ++ packF64 seg.quant_step_Q ++ packF64 seg.seed_value)

/-- One residual block (lines 681–692): `RESIDUAL_BLOCK_HEADER_STRUCT` then
the payload — raw int32s (`byte_len = 4·seg_len`) or ZigZag+varint bytes. -/
def packBlock (coding_type : ℕ) (seg_id : ℕ) (q_res : List ℤ) :
    Except String (List ℕ) := do
  let seg_len := q_res.length
  if coding_type = 0 then
    let byte_len := seg_len * 4
    let sid ← packU32 seg_id
    let sl ← packU32 seg_len
    let bl ← packU32 byte_len
    let payloads ← q_res.mapM packI32
    pure (sid ++ sl ++ bl ++ payloads.flatten)
  else
    let data ← encode_int_list_varint q_res
    let byte_len := data.length
    let sid ← packU32 seg_id
    let sl ← packU32 seg_len
    let bl ← packU32 byte_len
    pure (sid ++ sl ++ bl ++ data)

/-- All residual blocks, `seg_id` running over list positions. -/
def packBlocks (coding_type : ℕ) : ℕ → List (List ℤ) → Except String (List ℕ)
  | _, [] => .ok []
  | seg_id, q :: rest => do
    let b ← packBlock coding_type seg_id q
    let r ← packBlocks coding_type (seg_id + 1) rest
    pure (b ++ r)

/-- Stage 3 of `encode_timeseries`: the byte layout —
`FILE_HEADER_STRUCT` + context JSON + segment table +
`RESIDUAL_SECTION_HEADER_STRUCT` + residual blocks. -/
def serializeFile (f : FileStruct) : Except String (List ℕ) := do
  let header_len := f.ctx.length
  let n_segments := f.segments.length
  let v ← packU16 1
  let fl ← packU16 0
  let hl ← packU32 header_len
  let np ← packU32 f.n_points
  let ns ← packU32 n_segments
  let rz ← packU32 0
  let segTable ← f.segments.mapM packSegmentEntry
  let ct ← packU32 f.coding_type
  let blocks ← packBlocks f.coding_type 0 f.q_resid_segments
  pure (magicBytes ++ v ++ fl ++ hl ++ np ++ ns ++ rz ++ rz ++ f.ctx ++
    segTable.flatten ++ ct ++ rz ++ rz ++ rz ++ blocks)

/-- `encode_timeseries(ts, …) -> bytes`. -/
def encode_timeseries (ts : TimeSeries) (o : EncOpts) : Except String (List ℕ) := do
  serializeFile (← encodeStruct ts o)

/-! ## Decoding (`decode_timeseries`, `core.py` lines 697–853) -/

/-- One `SEGMENT_ENTRY_STRUCT.unpack_from` (the caller has checked that at
least 64 bytes remain). -/
def parseSegEntry (rem : List ℕ) : SegmentEntry :=
  { start_idx := leValue (rem.take 4),
    end_idx := leValue ((rem.drop 4).take 4),
    predictor_type := leValue ((rem.drop 8).take 4),
    mean := f64ofBits (leValue ((rem.drop 24).take 8)),
    slope := f64ofBits (leValue ((rem.drop 32).take 8)),
    intercept := f64ofBits (leValue ((rem.drop 40).take 8)),
    quant_step_Q := f64ofBits (leValue ((rem.drop 48).take 8)),
    seed_value := f64ofBits (leValue ((rem.drop 56).take 8)) }

/-- The segment-table loop: `n_segments` entries of 64 bytes each. -/
def parseSegTable : ℕ → List ℕ → Except String (List SegmentEntry × List ℕ)
  | 0, rem => .ok ([], rem)
  | k + 1, rem =>
    if rem.length < 64 then .error "Data too short for segment table"
    else do
      let e := parseSegEntry rem
      let (rest, rem') ← parseSegTable k (rem.drop 64)
      pure (e :: rest, rem')

/-- `struct.unpack(f"<{seg_len}i", ·)`: `k` little-endian int32s. -/
def parseI32List : ℕ → List ℕ → List ℤ
  | 0, _ => []
  | k + 1, bs => toI32 (leValue (bs.take 4)) :: parseI32List k (bs.drop 4)

/-- The residual-block loop: reads `n_segments` blocks, assigning each
decoded list into the table at its declared `seg_id` (duplicates overwrite,
unwritten ids keep `[]`, as with the Python list).  The `seg_len < 0` /
`byte_len < 0` checks of the source are vacuous for u32 fields and are
omitted. -/
def parseBlocks (coding_type n_segments : ℕ) :
    ℕ → List (List ℤ) → List ℕ → Except String (List (List ℤ) × List ℕ)
  | 0, table, rem => .ok (table, rem)
  | k + 1, table, rem =>
    if rem.length < 12 then .error "Data too short for residual block header"
    else
      let seg_id := leValue (rem.take 4)
      let seg_len := leValue ((rem.drop 4).take 4)
      let byte_len := leValue ((rem.drop 8).take 4)
      let rem1 := rem.drop 12
      if n_segments ≤ seg_id then .error "Invalid seg_id in residual block"
      else if rem1.length < byte_len then .error "Data too short for residual block data"
      else
        let block_bytes := rem1.take byte_len
        let rem2 := rem1.drop byte_len
        let q_resE : Except String (List ℤ) :=
          if coding_type = 0 then
            if seg_len * 4 ≠ byte_len then .error "byte_len != seg_len * 4 for raw residuals"
            else .ok (parseI32List seg_len block_bytes)
          else decode_int_list_varint block_bytes seg_len
        match q_resE with
        | .error msg => .error msg
        | .ok q_res => parseBlocks coding_type n_segments k (table.set seg_id q_res) rem2

/-- Python list read `x_hat[i]` with its bounds check (`IndexError` on an
out-of-range index). -/
def getChecked (xs : List ℚ) (i : ℕ) : Except String ℚ :=
  if h : i < xs.length then .ok (xs.get ⟨i, h⟩) else .error "list index out of range"

/-- Python list assignment `x_hat[i] = v` with its bounds check. -/
def setChecked (xs : List ℚ) (i : ℕ) (v : ℚ) : Except String (List ℚ) :=
  if i < xs.length then .ok (xs.set i v) else .error "list assignment index out of range"

/-- `for i in range(length): x_hat[start+i] = preds[i] + residuals[i]` for
the position-independent predictors (mean / linear). -/
def writeSeq : List ℚ → ℕ → List ℚ → Except String (List ℚ)
  | x_hat, _, [] => .ok x_hat
  | x_hat, start, v :: rest => do
    writeSeq (← setChecked x_hat start v) (start + 1) rest

/-- Random-walk reconstruction steps `i ≥ 1`:
`preds[i] = x_hat[start+i-1]; x_hat[start+i] = preds[i] + residuals[i]`. -/
def rwLoop (Q : ℚ) : List ℚ → ℕ → List ℤ → Except String (List ℚ)
  | x_hat, _, [] => .ok x_hat
  | x_hat, idx, q :: rest => do
    let prev ← getChecked x_hat (idx - 1)
    let xh ← setChecked x_hat idx (prev + (q : ℚ) * Q)
    rwLoop Q xh (idx + 1) rest

/-- Random-walk segment reconstruction (lines 842–849): seed the first
sample, then walk (`if length > 0` — an empty block writes nothing). -/
def rwWrites (x_hat : List ℚ) (start : ℕ) (Q seed : ℚ) :
    List ℤ → Except String (List ℚ)
  | [] => .ok x_hat
  | q0 :: rest => do
    let xh ← setChecked x_hat start (seed + (q0 : ℚ) * Q)
    rwLoop Q xh (start + 1) rest

/-- Reconstruction of one segment (lines 820–851): length consistency check
against the decoded residual count, then dispatch on `predictor_type`;
unknown types raise `ValueError`. -/
def reconstructSeg (x_hat : List ℚ) (seg : SegmentEntry) (q_res : List ℤ) :
    Except String (List ℚ) :=
  let length : ℤ := (seg.end_idx : ℤ) - seg.start_idx + 1
  if length ≠ q_res.length then .error "Segment length mismatch"
  else
    let Q := seg.quant_step_Q
    let residuals := q_res.map (fun (q : ℤ) => (q : ℚ) * Q)
    if seg.predictor_type = 0 then
      let preds := predict_mean_const q_res.length seg.mean
      writeSeq x_hat seg.start_idx ((preds.zip residuals).map fun p => p.1 + p.2)
    else if seg.predictor_type = 1 then
      let preds := predict_linear q_res.length seg.slope seg.intercept
      writeSeq x_hat seg.start_idx ((preds.zip residuals).map fun p => p.1 + p.2)
    else if seg.predictor_type = 2 then
      rwWrites x_hat seg.start_idx Q seg.seed_value q_res
    else .error "Unknown predictor_type"

/-- The reconstruction loop over `enumerate(segments)` (each segment paired
with `q_res_segments[seg_id]`). -/
def reconstructAll : List ℚ → List (SegmentEntry × List ℤ) → Except String (List ℚ)
  | x_hat, [] => .ok x_hat
  | x_hat, (seg, q) :: rest => do
    reconstructAll (← reconstructSeg x_hat seg q) rest

/-- `decode_timeseries(data) -> TimeSeries`, with every structural check of
the source in source order.  Decoded metadata is modelled by the dataclass
defaults (no claim inspects it). -/
def decode_timeseries (data : List ℕ) : Except String TimeSeries :=
  if data.length < 28 then .error "Data too short to contain header"
  else
    let magic := data.take 4
    let version := leValue ((data.drop 4).take 2)
    let header_len := leValue ((data.drop 8).take 4)
    let n_points := leValue ((data.drop 12).take 4)
    let n_segments := leValue ((data.drop 16).take 4)
    let rem0 := data.drop 28
    if magic ≠ magicBytes then .error "Invalid magic, not an LSG2 file"
    else if version ≠ 1 then .error "Unsupported LSG2 version"
    else if 10000000 < n_points then .error "Suspicious n_points"
    else if 1000000 < n_segments then .error "Suspicious n_segments"
    else if data.length - 28 < header_len then .error "header_len is inconsistent with data size"
    else if rem0.length < header_len then .error "Data too short for context JSON"
    else
      let ctx_bytes := rem0.take header_len
      let rem1 := rem0.drop header_len
      if ¬ ctxWellFormed ctx_bytes then .error "Invalid context JSON"
      else do
        let (segments, rem2) ← parseSegTable n_segments rem1
        if rem2.length < 16 then throw "Data too short for residual section header"
        let coding_type := leValue (rem2.take 4)
        let rem3 := rem2.drop 16
        if coding_type ≠ 0 ∧ coding_type ≠ 1 then throw "Unsupported coding_type in decoder"
        let (q_res_segments, _rem4) ←
          parseBlocks coding_type n_segments n_segments (List.replicate n_segments []) rem3
        let x_hat ← reconstructAll (List.replicate n_points 0) (segments.zip q_res_segments)
        pure { values := x_hat, dt := 1, t0 := defaultT0, unit := defaultUnit }

/-- `read_lsg2_metadata_and_segments` (`cli.py` lines 175–258): header +
context + segment table + residual-section header, identical checks to the
decoder up to the segment table, then the coding type is read (but not
validated) and no residual block is decoded. -/
def read_lsg2_metadata_and_segments (data : List ℕ) :
    Except String (ℕ × List SegmentEntry × ℕ) :=
  if data.length < 28 then .error "Data too short to contain header"
  else
    let magic := data.take 4
    let version := leValue ((data.drop 4).take 2)
    let header_len := leValue ((data.drop 8).take 4)
    let n_points := leValue ((data.drop 12).take 4)
    let n_segments := leValue ((data.drop 16).take 4)
    let rem0 := data.drop 28
    if magic ≠ magicBytes then .error "Invalid magic, not an LSG2 file"
    else if version ≠ 1 then .error "Unsupported LSG2 version"
    else if 10000000 < n_points then .error "Suspicious n_points"
    else if 1000000 < n_segments then .error "Suspicious n_segments"
    else if data.length - 28 < header_len then .error "header_len is inconsistent with data size"
    else if rem0.length < header_len then .error "Data too short for context JSON"
    else
      let ctx_bytes := rem0.take header_len
      let rem1 := rem0.drop header_len
      if ¬ ctxWellFormed ctx_bytes then .error "Invalid context JSON"
      else do
        let (segments, rem2) ← parseSegTable n_segments rem1
        if rem2.length < 16 then throw "Data too short for residual section header"
        let coding_type := leValue (rem2.take 4)
        pure (n_points, segments, coding_type)

/-! ## Specification-side definitions used by the claim statements -/

/-- `tilesFrom i ranges n`: the inclusive ranges, in order, cover exactly
`[i, n)` — each starts where the previous ended plus one, never runs
backwards, and the last ends at `n - 1`. -/
def tilesFrom : ℕ → List (ℕ × ℕ) → ℕ → Bool
  | i, [], n => i = n
  | i, (s, e) :: rest, n => s = i && s ≤ e && tilesFrom (e + 1) rest n

/-- The ranges form a contiguous non-overlapping partition of `[0, n)`. -/
def tiles (ranges : List (ℕ × ℕ)) (n : ℕ) : Bool :=
  tilesFrom 0 ranges n

/-- `q` is representable as a signed 32-bit integer. -/
def int32Rng (q : ℤ) : Prop := -(2 ^ 31) ≤ q ∧ q < 2 ^ 31

/-- The adaptive segmenter's probe at candidate end `e` passes: the probe
predictor fits and its MSE is within the threshold. -/
def probeOk (values : List ℚ) (pt : ℕ) (thr : ℚ) (start e : ℕ) : Bool :=
  match adaptiveProbeMse values pt start e with
  | .ok mse => decide (mse ≤ thr)
  | .error _ => false

/-- Sequential table assignment `table[i] = q; table[i+1] = q'; …` (the
effect of in-order residual blocks on the decoder's `q_res_segments`). -/
def writeAll : List (List ℤ) → ℕ → List (List ℤ) → List (List ℤ)
  | table, _, [] => table
  | table, i, q :: rest => writeAll (table.set i q) (i + 1) rest

/-- A hand-crafted LSG2 buffer whose single segment covers only index 0 of
`n_points = 2`: header (`header_len = 2`, `n_points = 2`, `n_segments = 1`),
context `\x7b\x7d`, one all-defaults mean segment `[0,0]` with
`mean = 1.0` (bytes `00…F0 3F`), raw coding, and one 1-sample zero residual
block.  Index 1 is covered by no segment. -/
def gapBuf : List ℕ :=
  [76, 83, 71, 50] ++ [1, 0] ++ [0, 0] ++ [2, 0, 0, 0] ++ [2, 0, 0, 0] ++
    [1, 0, 0, 0] ++ List.replicate 8 0 ++
  [123, 125] ++
  (List.replicate 24 0 ++ [0, 0, 0, 0, 0, 0, 240, 63] ++ List.replicate 32 0) ++
  List.replicate 16 0 ++
  ([0, 0, 0, 0] ++ [1, 0, 0, 0] ++ [4, 0, 0, 0] ++ [0, 0, 0, 0])

/-- A hand-crafted LSG2 buffer identical in shape to `gapBuf` but with one
segment `[0,0]` of `n_points = 1` whose `predictor_type` is 3 — every
structural check passes and reconstruction must reject the unknown type. -/
def ptype3Buf : List ℕ :=
  [76, 83, 71, 50] ++ [1, 0] ++ [0, 0] ++ [2, 0, 0, 0] ++ [1, 0, 0, 0] ++
    [1, 0, 0, 0] ++ List.replicate 8 0 ++
  [123, 125] ++
  ([0, 0, 0, 0] ++ [0, 0, 0, 0] ++ [3, 0, 0, 0] ++ List.replicate 52 0) ++
  List.replicate 16 0 ++
  ([0, 0, 0, 0] ++ [1, 0, 0, 0] ++ [4, 0, 0, 0] ++ [0, 0, 0, 0])

/-- The float fields of a segment entry after one serialize/parse trip:
each binary64 field is re-read from its packed bit pattern (integer index
fields are untouched). -/
def f64rt (e : SegmentEntry) : SegmentEntry :=
  { e with mean := f64ofBits (f64bits e.mean % 2 ^ 64),
           slope := f64ofBits (f64bits e.slope % 2 ^ 64),
           intercept := f64ofBits (f64bits e.intercept % 2 ^ 64),
           quant_step_Q := f64ofBits (f64bits e.quant_step_Q % 2 ^ 64),
           seed_value := f64ofBits (f64bits e.seed_value % 2 ^ 64) }


def tsW : TimeSeries := { values := [0], dt := 1, t0 := defaultT0, unit := defaultUnit }

def segW : SegmentEntry :=
  { start_idx := 0, end_idx := 0, predictor_type := 1, mean := 0, slope := 0,
    intercept := 0, quant_step_Q := 1/1000000, seed_value := 0 }

def fileW : FileStruct :=
  { n_points := 1, ctx := build_context_json 1 defaultT0 defaultUnit,
    segments := [segW], coding_type := 0, q_resid_segments := [[0]] }


def tsBig : TimeSeries :=
  { values := [-(2 ^ 69 : ℚ), 2 ^ 69], dt := 1, t0 := defaultT0, unit := defaultUnit }

def optsBig : EncOpts :=
  { predictor := "mean", C_Q := 1 / 2 ^ 70, Q_MIN := 1, residual_coding := "varint" }

def segBig : SegmentEntry :=
  { start_idx := 0, end_idx := 1, predictor_type := 0, mean := 0, slope := 2 ^ 70,
    intercept := -(2 ^ 69), quant_step_Q := 1, seed_value := -(2 ^ 69) }

def fileBig : FileStruct :=
  { n_points := 2, ctx := build_context_json 1 defaultT0 defaultUnit,
    segments := [segBig], coding_type := 1, q_resid_segments := [[-(2 ^ 69), 2 ^ 69]] }


def segRW : SegmentEntry :=
  { start_idx := 0, end_idx := 3, predictor_type := 2, mean := 9/4, slope := 19/10,
    intercept := -(3/5), quant_step_Q := 3/4, seed_value := 0 }


def segGap : SegmentEntry :=
  { start_idx := 0, end_idx := 0, predictor_type := 0, mean := 1, slope := 0,
    intercept := 0, quant_step_Q := 1, seed_value := 0 }

def fileGap : FileStruct :=
  { n_points := 2, ctx := [123, 125], segments := [segGap], coding_type := 0,
    q_resid_segments := [[0]] }

def segPt3 : SegmentEntry :=
  { start_idx := 0, end_idx := 0, predictor_type := 3, mean := 0, slope := 0,
    intercept := 0, quant_step_Q := 1, seed_value := 0 }

def filePt3 : FileStruct :=
  { n_points := 1, ctx := [123, 125], segments := [segPt3], coding_type := 0,
    q_resid_segments := [[0]] }

/-! # Theorems -/

/-! ## Byte-primitive lemmas -/

theorem leBytes_length (w v : ℕ) : (leBytes w v).length = w := by
  induction w generalizing v with
  | zero => rfl
  | succ w ih => simp [leBytes, ih]

theorem leValue_leBytes (w v : ℕ) (h : v < 256 ^ w) : leValue (leBytes w v) = v := by
  induction w generalizing v with
  | zero => simp only [pow_zero, Nat.lt_one_iff] at h; simp [leBytes, leValue, h]
  | succ w ih =>
    have hdiv : v / 256 < 256 ^ w := by
      rw [Nat.div_lt_iff_lt_mul (by norm_num)]
      calc v < 256 ^ (w + 1) := h
        _ = 256 ^ w * 256 := by ring
    simp only [leBytes, leValue, ih (v / 256) hdiv]
    omega

theorem take_append_of_length (a b : List ℕ) (k : ℕ) (h : a.length = k) :
    (a ++ b).take k = a := by
  subst h; exact List.take_left a b

theorem drop_append_of_length (a b : List ℕ) (k : ℕ) (h : a.length = k) :
    (a ++ b).drop k = b := by
  subst h; exact List.drop_left a b

/-! ## Varint lemmas -/

theorem encode_varint_base (v : ℕ) (h : v < 128) : encode_varint v = [v] := by
  rw [encode_varint]; simp [h]

theorem encode_varint_step (v : ℕ) (h : ¬ v < 128) :
    encode_varint v = (v % 128 + 128) :: encode_varint (v / 128) := by
  conv_lhs => rw [encode_varint]
  simp [h]

theorem encode_varint_length_pos (v : ℕ) : 0 < (encode_varint v).length := by
  by_cases h : v < 128
  · rw [encode_varint_base v h]; simp
  · rw [encode_varint_step v h]; simp

/-- `a ||| (b <<< s) = a + b·2^s` when `a` fits below the shift: the
decoder's `result |= (b & 0x7F) << shift` accumulates disjoint bit ranges. -/
theorem lor_shift_add (a b s : ℕ) (h : a < 2 ^ s) : a ||| b <<< s = a + b * 2 ^ s := by
  rw [Nat.shiftLeft_eq, Nat.lor_comm, mul_comm b, ← Nat.mul_add_lt_is_or h]
  ring

/-- Decoding one varint out of a larger buffer: starting at the varint's
offset with clean accumulators, the decoder consumes exactly the encoded
bytes and adds `v`'s bits above `shift`. -/
theorem decode_varintAux_encode (v : ℕ) : ∀ (pre post : List ℕ) (shift result : ℕ),
    7 ∣ shift → shift ≤ 63 → v < 2 ^ (70 - shift) → result < 2 ^ shift →
    decode_varintAux (pre ++ (encode_varint v ++ post)) pre.length shift result =
      .ok (result + v * 2 ^ shift, pre.length + (encode_varint v).length) := by
  induction v using Nat.strong_induction_on with
  | _ v ih =>
    intro pre post shift result hdvd hsh hv hres
    by_cases h : v < 128
    · rw [encode_varint_base v h]
      rw [decode_varintAux]
      rw [dif_neg (by simp)]
      have hb : (pre ++ ([v] ++ post)).getD pre.length 0 = v := by
        rw [List.getD_append_right _ _ _ _ (le_refl _)]
        simp
      have hb127 : v &&& 127 = v := by
        have h1 : v &&& 2 ^ 7 - 1 = v % 2 ^ 7 := Nat.and_pow_two_sub_one_eq_mod v 7
        norm_num at h1
        omega
      have hb128 : v &&& 128 = 0 := by
        have h7 : v < 2 ^ 7 := by omega
        have h1 := Nat.and_two_pow v 7
        rw [Nat.testBit_lt_two_pow h7] at h1
        simpa using h1
      simp only [hb, hb127, hb128, if_pos rfl]
      rw [lor_shift_add _ _ _ hres]
      simp
    · rw [encode_varint_step v h]
      rw [decode_varintAux]
      rw [dif_neg (by simp)]
      have hb : (pre ++ ((v % 128 + 128) :: encode_varint (v / 128) ++ post)).getD pre.length 0
          = v % 128 + 128 := by
        rw [List.getD_append_right _ _ _ _ (le_refl _)]
        simp
      have hmlt : v % 128 < 128 := Nat.mod_lt v (by norm_num)
      have hb127 : (v % 128 + 128) &&& 127 = v % 128 := by
        have h1 : (v % 128 + 128) &&& 2 ^ 7 - 1 = (v % 128 + 128) % 2 ^ 7 :=
          Nat.and_pow_two_sub_one_eq_mod _ 7
        norm_num at h1
        omega
      have hb128 : ¬ ((v % 128 + 128) &&& 128 = 0) := by
        have h1 : (v % 128 + 128) &&& 2 ^ 7 = ((v % 128 + 128).testBit 7).toNat * 2 ^ 7 :=
          Nat.and_two_pow _ 7
        have h2 : (v % 128 + 128).testBit 7 = true := by
          have he : v % 128 + 128 = 2 ^ 7 + v % 128 := by omega
          rw [he, Nat.testBit_two_pow_add_eq,
            Nat.testBit_lt_two_pow (show v % 128 < 2 ^ 7 by omega)]
          rfl
        rw [h2] at h1
        norm_num at h1
        omega
      simp only [hb, hb127, if_neg hb128]
      have hshift7 : ¬ (63 < shift + 7) := by
        by_contra hcon
        have h63 : shift = 63 := by omega
        rw [h63] at hv
        norm_num at hv
        omega
      rw [if_neg hshift7]
      rw [lor_shift_add _ _ _ hres]
      have hracc : result + v % 128 * 2 ^ shift < 2 ^ (shift + 7) := by
        have h1 : v % 128 * 2 ^ shift ≤ 127 * 2 ^ shift :=
          Nat.mul_le_mul_right _ (by omega)
        have h2 : result + v % 128 * 2 ^ shift < 2 ^ shift + 127 * 2 ^ shift :=
          Nat.add_lt_add_of_lt_of_le hres h1
        calc result + v % 128 * 2 ^ shift < 2 ^ shift + 127 * 2 ^ shift := h2
          _ = 2 ^ shift * 2 ^ 7 := by ring
          _ = 2 ^ (shift + 7) := by rw [← pow_add]
      have hvd : v / 128 < 2 ^ (70 - (shift + 7)) := by
        have hexp : 70 - shift = 70 - (shift + 7) + 7 := by omega
        rw [hexp, pow_add] at hv
        rw [Nat.div_lt_iff_lt_mul (show 0 < 128 by norm_num)]
        calc v < 2 ^ (70 - (shift + 7)) * 2 ^ 7 := hv
          _ = 2 ^ (70 - (shift + 7)) * 128 := by norm_num
      have hrec := ih (v / 128) (Nat.div_lt_self (by omega) (by norm_num))
        (pre ++ [v % 128 + 128]) post (shift + 7)
        (result + v % 128 * 2 ^ shift)
        (by omega) (by omega) hvd hracc
      have hassoc : pre ++ [v % 128 + 128] ++ (encode_varint (v / 128) ++ post)
          = pre ++ ((v % 128 + 128) :: encode_varint (v / 128) ++ post) := by
        simp
      rw [hassoc] at hrec
      have hpre : (pre ++ [v % 128 + 128]).length = pre.length + 1 := by simp
      rw [hpre] at hrec
      rw [hrec]
      have hval : result + v % 128 * 2 ^ shift + v / 128 * 2 ^ (shift + 7)
          = result + v * 2 ^ shift := by
        have h7 : (2 : ℕ) ^ (shift + 7) = 2 ^ shift * 128 := by
          rw [pow_add]; norm_num
        rw [h7]
        conv_rhs => rw [show v = 128 * (v / 128) + v % 128 from (Nat.div_add_mod v 128).symm]
        ring
      have hlen : pre.length + 1 + (encode_varint (v / 128)).length
          = pre.length + ((v % 128 + 128) :: encode_varint (v / 128)).length := by
        simp
        omega
      rw [hval, hlen]

/-- `_decode_varint` inverts `_encode_varint` for every value below `2^70`
(the largest width the 10-byte/`shift > 63` guard admits), consuming exactly
the encoded bytes. -/
theorem decode_varint_encode (v : ℕ) (post : List ℕ) (hv : v < 2 ^ 70) :
    decode_varint (encode_varint v ++ post) 0 = .ok (v, (encode_varint v).length) := by
  have h := decode_varintAux_encode v [] post 0 0 (by norm_num) (by norm_num)
    (by norm_num; exact hv) (by norm_num)
  simp only [List.nil_append, List.length_nil] at h
  rw [decode_varint, h]
  norm_num

/-! ## ZigZag lemmas -/

theorem fdiv_ofNat_ofNat (m n : ℕ) : Int.fdiv (Int.ofNat m) (Int.ofNat n) = Int.ofNat (m / n) := by
  cases m with
  | zero => simp [Int.fdiv]
  | succ k =>
    cases n with
    | zero => rfl
    | succ j => rfl

theorem fdiv_natCast (m n : ℕ) : Int.fdiv (m : ℤ) (n : ℤ) = ((m / n : ℕ) : ℤ) :=
  fdiv_ofNat_ofNat m n

theorem fdiv_negSucc_succ (m k : ℕ) :
    Int.fdiv (Int.negSucc m) (Int.ofNat (k + 1)) = Int.negSucc (m / (k + 1)) := rfl

theorem intXor_zero_right (a : ℤ) (h : 0 ≤ a) : intXor a 0 = a := by
  unfold intXor
  rw [if_pos h, if_pos (le_refl 0)]
  simp [Int.toNat_of_nonneg h]

theorem intXor_neg_one_right (a : ℤ) : intXor a (-1) = -a - 1 := by
  unfold intXor
  by_cases h : 0 ≤ a
  · rw [if_pos h, if_neg (by norm_num)]
    simp [Int.toNat_of_nonneg h]
  · rw [if_neg h, if_neg (by norm_num)]
    have h2 : (0 : ℤ) ≤ -a - 1 := by omega
    simp [Int.toNat_of_nonneg h2]
    omega

theorem zigzag_encode_of_nonneg (n : ℤ) (h0 : 0 ≤ n) (h : n < 2 ^ 31) :
    zigzag_encode n = 2 * n := by
  unfold zigzag_encode
  lift n to ℕ using h0 with m hm
  have hmlt : m < 2 ^ 31 := by exact_mod_cast h
  have hfd : Int.fdiv (m : ℤ) ((2 : ℤ) ^ 31) = 0 := by
    have hc : ((2 : ℤ) ^ 31) = ((2 ^ 31 : ℕ) : ℤ) := by norm_num
    rw [hc, fdiv_natCast, Nat.div_eq_of_lt hmlt]
    rfl
  rw [hfd, intXor_zero_right _ (by positivity)]
  ring

theorem zigzag_encode_of_neg (n : ℤ) (h1 : -(2 ^ 31) ≤ n) (h2 : n < 0) :
    zigzag_encode n = -2 * n - 1 := by
  unfold zigzag_encode
  have hfd : Int.fdiv n ((2 : ℤ) ^ 31) = -1 := by
    have hns : n = Int.negSucc (-n - 1).toNat := by
      rw [Int.negSucc_eq]
      omega
    have hc : ((2 : ℤ) ^ 31) = Int.ofNat (2 ^ 31 - 1 + 1) := by
      show ((2 : ℤ) ^ 31) = ((2 ^ 31 - 1 + 1 : ℕ) : ℤ)
      norm_num
    rw [hns, hc, fdiv_negSucc_succ]
    have hlt : (-n - 1).toNat < 2 ^ 31 - 1 + 1 := by omega
    rw [Nat.div_eq_of_lt hlt]
    rfl
  rw [hfd, intXor_neg_one_right]
  ring

/-- The varint-facing range of ZigZag on int32 inputs: nonnegative and below
`2^32` (so < `2^70`, within the decoder's 10-byte guard). -/
theorem zigzag_encode_range (n : ℤ) (h : int32Rng n) :
    0 ≤ zigzag_encode n ∧ zigzag_encode n < 2 ^ 32 := by
  obtain ⟨h1, h2⟩ := h
  by_cases h0 : 0 ≤ n
  · rw [zigzag_encode_of_nonneg n h0 h2]
    constructor <;> omega
  · push_neg at h0
    rw [zigzag_encode_of_neg n h1 h0]
    constructor <;> omega

/-- ZigZag round-trip on the signed 32-bit range. -/
theorem zigzag_decode_encode (n : ℤ) (h : int32Rng n) :
    zigzag_decode (zigzag_encode n) = n := by
  obtain ⟨h1, h2⟩ := h
  by_cases h0 : 0 ≤ n
  · rw [zigzag_encode_of_nonneg n h0 h2]
    unfold zigzag_decode
    lift n to ℕ using h0 with m hm
    have hfd : Int.fdiv (2 * (m : ℤ)) 2 = (m : ℤ) := by
      have h2m := fdiv_natCast (2 * m) 2
      have hc : ((2 * m : ℕ) : ℤ) = 2 * (m : ℤ) := by push_cast; ring
      have hc2 : (((2 : ℕ) : ℤ)) = (2 : ℤ) := by norm_num
      rw [hc, hc2] at h2m
      rw [h2m]
      have : 2 * m / 2 = m := by omega
      rw [this]
    have hemod : (2 * (m : ℤ)) % 2 = 0 := by omega
    rw [hfd, hemod, neg_zero, intXor_zero_right _ (by positivity)]
  · push_neg at h0
    rw [zigzag_encode_of_neg n h1 h0]
    unfold zigzag_decode
    have hnn : 0 ≤ -2 * n - 1 := by omega
    have hrw : (((-2 * n - 1).toNat : ℕ) : ℤ) = -2 * n - 1 := by omega
    have hfd : Int.fdiv (-2 * n - 1) 2 = (((-2 * n - 1).toNat / 2 : ℕ) : ℤ) := by
      have h2m := fdiv_natCast ((-2 * n - 1).toNat) 2
      have hc2 : (((2 : ℕ) : ℤ)) = (2 : ℤ) := by norm_num
      rw [hrw, hc2] at h2m
      exact h2m
    have hemod : (-2 * n - 1) % 2 = 1 := by omega
    rw [hfd, hemod, intXor_neg_one_right]
    have hv : (((-2 * n - 1).toNat / 2 : ℕ) : ℤ) = -n - 1 := by omega
    rw [hv]
    ring

/-! ## Int32 packing and varint list lemmas -/

theorem packI32_ok (q : ℤ) (h : int32Rng q) :
    packI32 q = .ok (leBytes 4 (q % 2 ^ 32).toNat) := by
  obtain ⟨h1, h2⟩ := h
  unfold packI32
  rw [if_pos ⟨h1, h2⟩]

theorem toI32_leValue_packI32 (q : ℤ) (h : int32Rng q) :
    toI32 (leValue (leBytes 4 (q % 2 ^ 32).toNat)) = q := by
  obtain ⟨h1, h2⟩ := h
  have hu : (q % 2 ^ 32).toNat < 2 ^ 32 := by omega
  have hv : leValue (leBytes 4 (q % 2 ^ 32).toNat) = (q % 2 ^ 32).toNat := by
    have : (256 : ℕ) ^ 4 = 2 ^ 32 := by norm_num
    exact leValue_leBytes 4 _ (by omega)
  rw [hv]
  unfold toI32
  by_cases h0 : 0 ≤ q
  · rw [if_pos (by omega)]
    omega
  · rw [if_neg (by omega)]
    omega

theorem mapM_packI32 (qs : List ℤ) (h : ∀ q ∈ qs, int32Rng q) :
    qs.mapM packI32 = .ok (qs.map (fun q => leBytes 4 (q % 2 ^ 32).toNat)) := by
  induction qs with
  | nil => rfl
  | cons q rest ih =>
    have hq := h q (by simp)
    have hrest := ih (fun x hx => h x (by simp [hx]))
    rw [List.mapM_cons, packI32_ok q hq, hrest]
    rfl

theorem parseI32List_flatten (qs : List ℤ) (h : ∀ q ∈ qs, int32Rng q) (rest : List ℕ) :
    parseI32List qs.length
      ((qs.map (fun q => leBytes 4 (q % 2 ^ 32).toNat)).flatten ++ rest) = qs := by
  induction qs generalizing rest with
  | nil => rfl
  | cons q tail ih =>
    have hq := h q (by simp)
    have hlen : (leBytes 4 (q % 2 ^ 32).toNat).length = 4 := leBytes_length 4 _
    have hshape : (((q :: tail).map (fun q => leBytes 4 (q % 2 ^ 32).toNat)).flatten ++ rest)
        = leBytes 4 (q % 2 ^ 32).toNat ++
          ((tail.map (fun q => leBytes 4 (q % 2 ^ 32).toNat)).flatten ++ rest) := by
      simp
    rw [List.length_cons, hshape, parseI32List]
    congr 1
    · rw [take_append_of_length _ _ 4 hlen]
      exact toI32_leValue_packI32 q hq
    · rw [drop_append_of_length _ _ 4 hlen]
      exact ih (fun x hx => h x (by simp [hx])) rest

/-- ZigZag+varint list coding round-trips through the decoder for int32
residual lists: encoding succeeds and decoding the block (at any position in
a larger buffer) returns exactly the original list. -/
theorem decode_encode_int_list (vs : List ℤ) (h : ∀ v ∈ vs, int32Rng v) :
    ∃ enc, encode_int_list_varint vs = .ok enc ∧
      ∀ (pre post : List ℕ),
        decode_int_list_varintAux (pre ++ (enc ++ post)) vs.length pre.length = .ok vs := by
  induction vs with
  | nil => exact ⟨[], rfl, fun pre post => rfl⟩
  | cons v tail ih =>
    obtain ⟨enc', henc', hdec'⟩ := ih (fun x hx => h x (by simp [hx]))
    have hv := h v (by simp)
    obtain ⟨hz0, hz32⟩ := zigzag_encode_range v hv
    have hchk : encode_varint_checked (zigzag_encode v)
        = .ok (encode_varint (zigzag_encode v).toNat) := by
      unfold encode_varint_checked
      rw [if_neg (by omega)]
    refine ⟨encode_varint (zigzag_encode v).toNat ++ enc', ?_, ?_⟩
    · show (do
        let head ← encode_varint_checked (zigzag_encode v)
        let tail' ← encode_int_list_varint tail
        pure (head ++ tail')) = _
      rw [hchk, henc']
      rfl
    · intro pre post
      have hzlt : (zigzag_encode v).toNat < 2 ^ 70 := by
        have : (2 : ℤ) ^ 32 < 2 ^ 70 := by norm_num
        omega
      have hone := decode_varintAux_encode (zigzag_encode v).toNat pre (enc' ++ post)
        0 0 (by norm_num) (by norm_num) (by norm_num; omega) (by norm_num)
      have hassoc : pre ++ (encode_varint (zigzag_encode v).toNat ++ (enc' ++ post))
          = pre ++ ((encode_varint (zigzag_encode v).toNat ++ enc') ++ post) := by
        simp
      rw [hassoc] at hone
      show (do
        let zo ← decode_varint (pre ++ ((encode_varint (zigzag_encode v).toNat ++ enc') ++ post))
          pre.length
        let rest ← decode_int_list_varintAux
          (pre ++ ((encode_varint (zigzag_encode v).toNat ++ enc') ++ post)) tail.length zo.2
        pure (zigzag_decode (zo.1 : ℤ) :: rest)) = _
      rw [decode_varint, hone]
      have htail := hdec' (pre ++ encode_varint (zigzag_encode v).toNat) post
      have hassoc2 : pre ++ encode_varint (zigzag_encode v).toNat ++ (enc' ++ post)
          = pre ++ ((encode_varint (zigzag_encode v).toNat ++ enc') ++ post) := by
        simp
      have hlen2 : (pre ++ encode_varint (zigzag_encode v).toNat).length
          = pre.length + (encode_varint (zigzag_encode v).toNat).length := by
        simp
      rw [hassoc2, hlen2] at htail
      simp only [bind, Except.bind]
      rw [show (0 + (zigzag_encode v).toNat * 2 ^ 0) = (zigzag_encode v).toNat by norm_num]
      rw [htail]
      have hcast : (((zigzag_encode v).toNat : ℕ) : ℤ) = zigzag_encode v := by omega
      simp only [bind, Except.bind, hcast, zigzag_decode_encode v hv]
      rfl

/-! ## Quantizer lemmas -/

theorem sqrtQ_nonneg (q : ℚ) : 0 ≤ sqrtQ q := by
  unfold sqrtQ
  split
  · exact le_refl 0
  · positivity

/-- `sqrtQ` is exact on perfect squares (the only inputs whose value any
concrete computation in this file relies on, matching `math.sqrt` there). -/
theorem sqrtQ_sq (a : ℚ) (h : 0 ≤ a) : sqrtQ (a ^ 2) = a := by
  rcases eq_or_lt_of_le h with heq | hpos
  · rw [← heq]
    norm_num [sqrtQ]
  · have hsqpos : 0 < a ^ 2 := by positivity
    unfold sqrtQ
    rw [if_neg (not_le.mpr hsqpos)]
    rw [Rat.num_pow, Rat.den_pow]
    have hnn : 0 ≤ a.num := Rat.num_nonneg.mpr h
    have h1 : (a.num ^ 2).toNat = a.num.toNat ^ 2 := by
      have hc : a.num ^ 2 = ((a.num.toNat ^ 2 : ℕ) : ℤ) := by
        push_cast
        rw [Int.toNat_of_nonneg hnn]
      rw [hc, Int.toNat_natCast]
    have h2 : Nat.sqrt (a.num.toNat ^ 2) = a.num.toNat := by
      rw [pow_two, Nat.sqrt_eq]
    have h3 : Nat.sqrt (a.den ^ 2) = a.den := by
      rw [pow_two, Nat.sqrt_eq]
    rw [h1, h2, h3]
    have hcast : ((a.num.toNat : ℕ) : ℚ) = ((a.num : ℤ) : ℚ) := by
      rw_mod_cast [Int.toNat_of_nonneg hnn]
    rw [hcast]
    exact Rat.num_div_den a

theorem quantize_residuals_empty (C_Q Q_MIN : ℚ) :
    quantize_residuals [] C_Q Q_MIN = ([], Q_MIN) := rfl

/-- The quantizer's committed step for a nonempty residual list:
`Q = max(C_Q·σ, Q_MIN)` with `σ` the population standard deviation
(divisor `L`), substituting `Q_MIN` if the formula yields 0. -/
theorem quantize_residuals_spec (rs : List ℚ) (C_Q Q_MIN : ℚ) (h : rs ≠ []) :
    quantize_residuals rs C_Q Q_MIN =
      (let sigma := sqrtQ ((rs.map (fun r => (r - rs.sum / rs.length) ^ 2)).sum / rs.length)
       let Q0 := max (C_Q * sigma) Q_MIN
       let Q := if Q0 = 0 then Q_MIN else Q0
       (rs.map (fun r => pyRound (r / Q)), Q)) := by
  unfold quantize_residuals
  rw [if_neg h]

theorem quantize_residuals_Q_pos (rs : List ℚ) (C_Q Q_MIN : ℚ) (h : 0 < Q_MIN) :
    0 < (quantize_residuals rs C_Q Q_MIN).2 := by
  unfold quantize_residuals
  by_cases he : rs = []
  · rw [if_pos he]
    exact h
  · rw [if_neg he]
    dsimp only
    split
    · exact h
    · exact lt_of_lt_of_le h (le_max_right _ _)

theorem quantize_residuals_length (rs : List ℚ) (C_Q Q_MIN : ℚ) :
    (quantize_residuals rs C_Q Q_MIN).1.length = rs.length := by
  unfold quantize_residuals
  by_cases he : rs = []
  · rw [if_pos he, he]
    rfl
  · rw [if_neg he]
    simp

/-! ## Segmentation tiling -/

theorem fixedSegsGo_tiles (n L : ℕ) (hL : 0 < L) :
    ∀ (k start : ℕ), n - start ≤ k → start ≤ n →
      tilesFrom start (fixedSegsGo n L hL start) n = true := by
  intro k
  induction k with
  | zero =>
    intro start hk hs
    have : start = n := by omega
    rw [fixedSegsGo]
    rw [dif_neg (by omega)]
    simp [tilesFrom, this]
  | succ k ih =>
    intro start hk hs
    rw [fixedSegsGo]
    by_cases h : start < n
    · rw [dif_pos h]
      have he1 : start ≤ min (start + L) n - 1 := by omega
      have he2 : min (start + L) n - 1 < n := by omega
      simp only [tilesFrom, Bool.and_eq_true, decide_eq_true_eq]
      refine ⟨⟨by trivial, he1⟩, ?_⟩
      exact ih (min (start + L) n - 1 + 1) (by omega) (by omega)
    · rw [dif_neg h]
      have : start = n := by omega
      simp [tilesFrom, this]

/-- Fixed-length segmentation tiles `[0, n)` exactly. -/
theorem segment_series_fixed_length_tiles (n : ℕ) (L : ℤ) (ranges : List (ℕ × ℕ))
    (h : segment_series_fixed_length n L = .ok ranges) : tiles ranges n = true := by
  unfold segment_series_fixed_length at h
  split at h
  · exact absurd h (by simp)
  · rename_i hL
    have hr : ranges = fixedSegsGo n L.toNat (by omega) 0 := by
      injection h with h
      exact h.symm
    rw [hr]
    exact fixedSegsGo_tiles n L.toNat (by omega) n 0 (by omega) (by omega)

/-- The adaptive inner loop never returns an end at or past `values.length`. -/
theorem adaptiveExtend_lt (values : List ℚ) (pt maxL : ℕ) (thr : ℚ) (start : ℕ) :
    ∀ (k best e : ℕ) (hbe : best ≤ e) (r : { b : ℕ // best ≤ b }),
      values.length - e ≤ k → e < values.length →
      adaptiveExtend values pt maxL thr start best e hbe = .ok r → r.1 < values.length := by
  intro k
  induction k with
  | zero =>
    intro best e hbe r hk he hr
    omega
  | succ k ih =>
    intro best e hbe r hk he hr
    rw [adaptiveExtend] at hr
    rcases hprobe : adaptiveProbeMse values pt start e with msg | mse
    · rw [hprobe] at hr
      exact absurd hr (by simp)
    · rw [hprobe] at hr
      dsimp only at hr
      by_cases hmse : mse ≤ thr
      · rw [if_pos hmse] at hr
        by_cases hext : e + 1 < values.length ∧ e - start + 1 < maxL
        · rw [dif_pos hext] at hr
          rcases hrec : adaptiveExtend values pt maxL thr start e (e + 1) (by omega)
            with msg | b2
          · rw [hrec] at hr
            exact absurd hr (by simp)
          · rw [hrec] at hr
            obtain ⟨b, hb⟩ := b2
            have := ih e (e + 1) (by omega) ⟨b, hb⟩ (by omega) hext.1 hrec
            simp only [Except.ok.injEq] at hr
            rw [← hr]
            exact this
        · rw [dif_neg hext] at hr
          simp only [Except.ok.injEq] at hr
          rw [← hr]
          exact he
      · rw [if_neg hmse] at hr
        simp only [Except.ok.injEq] at hr
        rw [← hr]
        show best < values.length
        omega

/-- The adaptive outer loop emits ranges tiling `[i, n)`. -/
theorem adaptiveGo_tiles (values : List ℚ) (pt minL maxL : ℕ) (thr : ℚ)
    (hmin : 0 < minL) :
    ∀ (k i : ℕ) (segs : List (ℕ × ℕ)), values.length - i ≤ k → i ≤ values.length →
      adaptiveGo values pt minL maxL thr hmin i = .ok segs →
      tilesFrom i segs values.length = true := by
  intro k
  induction k with
  | zero =>
    intro i segs hk hi hr
    have hin : ¬ (i < values.length) := by omega
    rw [adaptiveGo, dif_neg hin] at hr
    simp only [Except.ok.injEq] at hr
    rw [← hr]
    simp [tilesFrom]
    omega
  | succ k ih =>
    intro i segs hk hi hr
    rw [adaptiveGo] at hr
    by_cases hin : i < values.length
    · rw [dif_pos hin] at hr
      have he0 : i ≤ min (i + minL) values.length - 1 := by omega
      have he0lt : min (i + minL) values.length - 1 < values.length := by omega
      dsimp only at hr
      split at hr
      · exact absurd hr (by simp)
      · rename_i b2 hext
        have hblt : b2.1 < values.length :=
          adaptiveExtend_lt values pt maxL thr i values.length _ _ (le_refl _)
            b2 (by omega) he0lt hext
        have hbge : i ≤ b2.1 := le_trans he0 b2.2
        split at hr
        · exact absurd hr (by simp)
        · rename_i rest hrec
          simp only [Except.ok.injEq] at hr
          rw [← hr]
          simp only [tilesFrom, Bool.and_eq_true, decide_eq_true_eq]
          refine ⟨⟨by trivial, by omega⟩, ?_⟩
          exact ih (b2.1 + 1) rest (by omega) (by omega) hrec
    · rw [dif_neg hin] at hr
      simp only [Except.ok.injEq] at hr
      rw [← hr]
      simp [tilesFrom]
      omega

/-- Adaptive segmentation tiles `[0, n)` exactly. -/
theorem segment_series_adaptive_tiles (values : List ℚ) (pt : ℕ) (minL maxL : ℤ)
    (thr : ℚ) (ranges : List (ℕ × ℕ))
    (h : segment_series_adaptive values pt minL maxL thr = .ok ranges) :
    tiles ranges values.length = true := by
  unfold segment_series_adaptive at h
  split at h
  · rename_i hn
    simp only [Except.ok.injEq] at h
    rw [← h]
    simp [tiles, tilesFrom]
    omega
  · split at h
    · exact absurd h (by simp)
    · rename_i hn hparams
      exact adaptiveGo_tiles values pt minL.toNat maxL.toNat thr _
        values.length 0 ranges (by omega) (by omega) h

/-! ## Encoder invariants -/

theorem predict_mean_const_length (L : ℕ) (m : ℚ) : (predict_mean_const L m).length = L := by
  unfold predict_mean_const
  exact List.length_replicate L m

theorem predict_linear_length (L : ℕ) (sl ic : ℚ) : (predict_linear L sl ic).length = L := by
  unfold predict_linear
  rw [List.length_map, List.length_range]

theorem predict_random_walk_length (x : List ℚ) (sv : ℚ) :
    (predict_random_walk x sv).length = x.length := by
  unfold predict_random_walk
  by_cases hx : x.length = 0
  · rw [if_pos hx, hx]
    rfl
  · rw [if_neg hx]
    simp
    omega


theorem build_preds_length (x : List ℚ) (p : ℕ) (m sl ic sv : ℚ) (preds : List ℚ)
    (h : build_preds_for_segmentation x p m sl ic sv = .ok preds) :
    preds.length = x.length := by
  unfold build_preds_for_segmentation at h
  by_cases h0 : p = 0
  · rw [if_pos h0] at h
    simp only [Except.ok.injEq] at h
    rw [← h, predict_mean_const_length]
  · rw [if_neg h0] at h
    by_cases h1 : p = 1
    · rw [if_pos h1] at h
      simp only [Except.ok.injEq] at h
      rw [← h, predict_linear_length]
    · rw [if_neg h1] at h
      by_cases h2 : p = 2
      · rw [if_pos h2] at h
        simp only [Except.ok.injEq] at h
        rw [← h, predict_random_walk_length]
      · rw [if_neg h2] at h
        exact absurd h (by simp)

theorem build_preds_ok_of_lt (x : List ℚ) (p : ℕ) (m sl ic sv : ℚ) (hp : p < 3) :
    ∃ preds, build_preds_for_segmentation x p m sl ic sv = .ok preds := by
  unfold build_preds_for_segmentation
  interval_cases p <;> simp

theorem chooseAutoType_lt (x : List ℚ) (m sl ic sv cq qm : ℚ) (t : ℕ)
    (h : chooseAutoType x m sl ic sv cq qm = .ok t) : t < 3 := by
  unfold chooseAutoType at h
  rcases h0 : autoCandidateMse x 0 m sl ic sv cq qm with msg | m0 <;> rw [h0] at h
  · exact absurd h (by simp [bind, Except.bind])
  rcases h1 : autoCandidateMse x 1 m sl ic sv cq qm with msg | m1 <;> rw [h1] at h
  · exact absurd h (by simp [bind, Except.bind])
  rcases h2 : autoCandidateMse x 2 m sl ic sv cq qm with msg | m2 <;> rw [h2] at h
  · exact absurd h (by simp [bind, Except.bind])
  simp only [bind, Except.bind, pure, Except.pure, Except.ok.injEq] at h
  rw [← h]
  dsimp only
  split <;> split <;> omega

/-- What one per-segment encoding step commits: indices are the range's, the
predictor type is one of 0/1/2, the residual-block length matches the slice,
and the committed `Q` is positive for positive `Q_MIN`. -/
theorem processSegment_spec (values : List ℚ) (pred : String) (cq qm : ℚ)
    (s e : ℕ) (res : SegmentEntry × List ℤ)
    (h : processSegment values pred cq qm (s, e) = .ok res) :
    res.1.start_idx = s ∧ res.1.end_idx = e ∧ res.1.predictor_type < 3 ∧
      res.2.length = ((values.drop s).take (e + 1 - s)).length ∧
      (0 < qm → 0 < res.1.quant_step_Q) := by
  unfold processSegment at h
  dsimp only at h
  rcases hst : compute_stats ((values.drop s).take (e + 1 - s)) with ⟨m, sl, ic, vv⟩
  rw [hst] at h
  dsimp only at h
  by_cases ha : pred = "auto"
  · rw [if_pos ha] at h
    rcases hct : chooseAutoType ((values.drop s).take (e + 1 - s)) m sl ic
        (((values.drop s).take (e + 1 - s)).headD 0) cq qm with msg | t
    · rw [hct] at h
      exact absurd h (by simp [bind, Except.bind])
    · rw [hct] at h
      simp only [bind, Except.bind] at h
      have ht3 : t < 3 := chooseAutoType_lt _ _ _ _ _ _ _ _ hct
      rcases hbp : build_preds_for_segmentation ((values.drop s).take (e + 1 - s)) t m sl ic
          (((values.drop s).take (e + 1 - s)).headD 0) with msg | preds
      · rw [hbp] at h
        exact absurd h (by simp)
      · rw [hbp] at h
        dsimp only at h
        simp only [pure, Except.pure, Except.ok.injEq] at h
        have hplen : preds.length = ((values.drop s).take (e + 1 - s)).length :=
          build_preds_length _ _ _ _ _ _ _ hbp
        have hqlen : (quantize_residuals
            ((((values.drop s).take (e + 1 - s)).zip preds).map fun p => p.1 - p.2) cq qm).1.length
            = ((values.drop s).take (e + 1 - s)).length := by
          rw [quantize_residuals_length, List.length_map, List.length_zip, hplen, min_self]
        have hqpos : 0 < qm → 0 < (quantize_residuals
            ((((values.drop s).take (e + 1 - s)).zip preds).map fun p => p.1 - p.2) cq qm).2 :=
          fun hq => quantize_residuals_Q_pos _ _ _ hq
        rw [← h]
        exact ⟨rfl, rfl, ht3, hqlen, hqpos⟩
  · rw [if_neg ha] at h
    simp only [bind, Except.bind, pure, Except.pure] at h
    have ht3 : predMap pred < 3 := by
      unfold predMap
      split
      · omega
      · split <;> omega
    rcases hbp : build_preds_for_segmentation ((values.drop s).take (e + 1 - s)) (predMap pred)
        m sl ic (((values.drop s).take (e + 1 - s)).headD 0) with msg | preds
    · rw [hbp] at h
      exact absurd h (by simp)
    · rw [hbp] at h
      dsimp only at h
      simp only [pure, Except.pure, Except.ok.injEq] at h
      have hplen : preds.length = ((values.drop s).take (e + 1 - s)).length :=
        build_preds_length _ _ _ _ _ _ _ hbp
      have hqlen : (quantize_residuals
          ((((values.drop s).take (e + 1 - s)).zip preds).map fun p => p.1 - p.2) cq qm).1.length
          = ((values.drop s).take (e + 1 - s)).length := by
        rw [quantize_residuals_length, List.length_map, List.length_zip, hplen, min_self]
      have hqpos : 0 < qm → 0 < (quantize_residuals
          ((((values.drop s).take (e + 1 - s)).zip preds).map fun p => p.1 - p.2) cq qm).2 :=
        fun hq => quantize_residuals_Q_pos _ _ _ hq
      rw [← h]
      exact ⟨rfl, rfl, ht3, hqlen, hqpos⟩

/-- `mapM (processSegment …)` over the segmentation ranges: the committed
segment table reproduces the ranges exactly, every predictor type is valid,
`Q`s are positive, and each residual block's length matches its slice. -/
theorem processSegments_facts (values : List ℚ) (pred : String) (cq qm : ℚ) :
    ∀ (ranges : List (ℕ × ℕ)) (pairs : List (SegmentEntry × List ℤ)),
      ranges.mapM (processSegment values pred cq qm) = .ok pairs →
      pairs.length = ranges.length ∧
      (pairs.map Prod.fst).map (fun sg => (sg.start_idx, sg.end_idx)) = ranges ∧
      (∀ sg ∈ pairs.map Prod.fst, sg.predictor_type < 3) ∧
      (0 < qm → ∀ sg ∈ pairs.map Prod.fst, 0 < sg.quant_step_Q) ∧
      (∀ p ∈ pairs,
        p.2.length = ((values.drop p.1.start_idx).take (p.1.end_idx + 1 - p.1.start_idx)).length) := by
  intro ranges
  induction ranges with
  | nil =>
    intro pairs h
    simp only [List.mapM_nil, pure, Except.pure, Except.ok.injEq] at h
    rw [← h]
    simp
  | cons r rest ih =>
    intro pairs h
    rw [List.mapM_cons] at h
    rcases hr : processSegment values pred cq qm r with msg | p0 <;>
      simp only [hr, bind, Except.bind] at h
    · exact absurd h (by simp)
    · rcases hrest : rest.mapM (processSegment values pred cq qm) with msg | prest <;>
        rw [hrest] at h
      · exact absurd h (by simp)
      · simp only [pure, Except.pure, Except.ok.injEq] at h
        obtain ⟨hl, hmap, hpt, hq, hlen⟩ := ih prest hrest
        obtain ⟨hs, he, hp3, hplen, hpq⟩ :=
          processSegment_spec values pred cq qm r.1 r.2 p0 (by rw [← hr])
        rw [← h]
        refine ⟨by simp [hl], ?_, ?_, ?_, ?_⟩
        · simp only [List.map_cons, hmap, hs, he]
        · intro sg hsg
          simp only [List.map_cons, List.mem_cons] at hsg
          rcases hsg with hsg | hsg
          · rw [hsg]; exact hp3
          · exact hpt sg hsg
        · intro hqm sg hsg
          simp only [List.map_cons, List.mem_cons] at hsg
          rcases hsg with hsg | hsg
          · rw [hsg]; exact hpq hqm
          · exact hq hqm sg hsg
        · intro p hp
          simp only [List.mem_cons] at hp
          rcases hp with hp | hp
          · rw [hp, hs, he]; exact hplen
          · exact hlen p hp

theorem tilesFrom_le (ranges : List (ℕ × ℕ)) :
    ∀ (i n : ℕ), tilesFrom i ranges n = true → i ≤ n := by
  induction ranges with
  | nil =>
    intro i n h
    simp [tilesFrom] at h
    omega
  | cons r rest ih =>
    intro i n h
    obtain ⟨s, e⟩ := r
    simp only [tilesFrom, Bool.and_eq_true, decide_eq_true_eq] at h
    have := ih (e + 1) n h.2
    omega

theorem tilesFrom_mem (ranges : List (ℕ × ℕ)) :
    ∀ (i n : ℕ), tilesFrom i ranges n = true →
      ∀ r ∈ ranges, i ≤ r.1 ∧ r.1 ≤ r.2 ∧ r.2 < n := by
  induction ranges with
  | nil =>
    intro i n _ r hr
    exact absurd hr (by simp)
  | cons hd rest ih =>
    intro i n h r hr
    obtain ⟨s, e⟩ := hd
    simp only [tilesFrom, Bool.and_eq_true, decide_eq_true_eq] at h
    obtain ⟨⟨hsi, hse⟩, hrest⟩ := h
    have hen : e + 1 ≤ n := tilesFrom_le rest (e + 1) n hrest
    simp only [List.mem_cons] at hr
    rcases hr with hr | hr
    · rw [hr]
      exact ⟨by omega, hse, by omega⟩
    · have := ih (e + 1) n hrest r hr
      exact ⟨by omega, this.2.1, this.2.2⟩

/-- Assembly of the per-segment facts into the `FileStruct` invariants. -/
theorem encodeStruct_assemble (values : List ℚ) (pred : String) (cq qm : ℚ)
    (ranges : List (ℕ × ℕ)) (pairs : List (SegmentEntry × List ℤ))
    (hP : ranges.mapM (processSegment values pred cq qm) = .ok pairs)
    (hT : tiles ranges values.length = true) :
    (pairs.map Prod.fst).length = (pairs.map Prod.snd).length ∧
    tiles ((pairs.map Prod.fst).map (fun sg => (sg.start_idx, sg.end_idx)))
      values.length = true ∧
    (∀ sg ∈ pairs.map Prod.fst, sg.predictor_type < 3) ∧
    (0 < qm → ∀ sg ∈ pairs.map Prod.fst, 0 < sg.quant_step_Q) ∧
    (∀ p ∈ (pairs.map Prod.fst).zip (pairs.map Prod.snd),
      p.2.length = p.1.end_idx + 1 - p.1.start_idx ∧
      p.1.start_idx ≤ p.1.end_idx ∧ p.1.end_idx < values.length) := by
  obtain ⟨hl, hmap, hpt, hq, hlen⟩ := processSegments_facts values pred cq qm ranges pairs hP
  have hzip : (pairs.map Prod.fst).zip (pairs.map Prod.snd) = pairs := by
    rw [List.zip_map']
    simp
  refine ⟨by simp, ?_, hpt, hq, ?_⟩
  · rw [hmap]
    exact hT
  · intro p hp
    rw [hzip] at hp
    have hrange : (p.1.start_idx, p.1.end_idx) ∈ ranges := by
      rw [← hmap]
      exact List.mem_map_of_mem _ (List.mem_map_of_mem _ hp)
    have hmem := tilesFrom_mem ranges 0 values.length hT (p.1.start_idx, p.1.end_idx) hrange
    obtain ⟨_, hse, hen⟩ := hmem
    refine ⟨?_, hse, hen⟩
    rw [hlen p hp]
    rw [List.length_take, List.length_drop]
    omega

/-- Final step shared by all branches of `encodeStruct_spec`. -/
theorem encodeStruct_conclude (ts : TimeSeries) (o : EncOpts) (f : FileStruct)
    (ranges : List (ℕ × ℕ)) (pairs : List (SegmentEntry × List ℤ)) (coding : ℕ)
    (hT : tiles ranges ts.values.length = true)
    (hP : ranges.mapM (processSegment ts.values o.predictor o.C_Q o.Q_MIN) = .ok pairs)
    (hcode : coding = 0 ∨ coding = 1)
    (hf : ({ n_points := ts.values.length, ctx := build_context_json ts.dt ts.t0 ts.unit,
             segments := pairs.map Prod.fst, coding_type := coding,
             q_resid_segments := pairs.map Prod.snd } : FileStruct) = f) :
    f.n_points = ts.values.length ∧
    f.segments.length = f.q_resid_segments.length ∧
    tiles (f.segments.map (fun sg => (sg.start_idx, sg.end_idx))) f.n_points = true ∧
    (∀ sg ∈ f.segments, sg.predictor_type < 3) ∧
    (0 < o.Q_MIN → ∀ sg ∈ f.segments, 0 < sg.quant_step_Q) ∧
    (∀ p ∈ f.segments.zip f.q_resid_segments,
      p.2.length = p.1.end_idx + 1 - p.1.start_idx ∧
      p.1.start_idx ≤ p.1.end_idx ∧ p.1.end_idx < f.n_points) ∧
    (f.coding_type = 0 ∨ f.coding_type = 1) ∧
    f.ctx = build_context_json ts.dt ts.t0 ts.unit := by
  obtain ⟨ha, hb, hc, hd, he⟩ := encodeStruct_assemble ts.values o.predictor o.C_Q o.Q_MIN
    ranges pairs hP hT
  rw [← hf]
  exact ⟨rfl, ha, hb, hc, hd, he, hcode, rfl⟩

/-- Invariants of every successfully encoded `FileStruct`: point count,
table/blocks alignment, exact tiling of `[0, n_points)`, valid predictor
types, positive `Q` (for positive `Q_MIN`), per-block length consistency,
and a defined coding type. -/
theorem encodeStruct_spec (ts : TimeSeries) (o : EncOpts) (f : FileStruct)
    (h : encodeStruct ts o = .ok f) :
    f.n_points = ts.values.length ∧
    f.segments.length = f.q_resid_segments.length ∧
    tiles (f.segments.map (fun sg => (sg.start_idx, sg.end_idx))) f.n_points = true ∧
    (∀ sg ∈ f.segments, sg.predictor_type < 3) ∧
    (0 < o.Q_MIN → ∀ sg ∈ f.segments, 0 < sg.quant_step_Q) ∧
    (∀ p ∈ f.segments.zip f.q_resid_segments,
      p.2.length = p.1.end_idx + 1 - p.1.start_idx ∧
      p.1.start_idx ≤ p.1.end_idx ∧ p.1.end_idx < f.n_points) ∧
    (f.coding_type = 0 ∨ f.coding_type = 1) ∧
    f.ctx = build_context_json ts.dt ts.t0 ts.unit := by
  unfold encodeStruct at h
  dsimp only at h
  by_cases hn : ts.values.length = 0
  · rw [if_pos hn] at h
    exact absurd h (by
      simp [throw, throwThe, MonadExceptOf.throw, bind, Except.bind, pure, Except.pure])
  rw [if_neg hn] at h
  split at h
  · exact absurd h (by
      simp [throw, throwThe, MonadExceptOf.throw, bind, Except.bind, pure, Except.pure])
  rename_i hpredok
  simp only [bind, Except.bind, pure, Except.pure] at h
  split at h
  · -- fixed mode
    rename_i hmode
    rcases hR : segment_series_fixed_length ts.values.length o.segment_length with msg | ranges
    · rw [hR] at h
      exact absurd h (by simp)
    rw [hR] at h
    have hT : tiles ranges ts.values.length = true :=
      segment_series_fixed_length_tiles _ _ _ hR
    dsimp only at h
    rcases hP : ranges.mapM (processSegment ts.values o.predictor o.C_Q o.Q_MIN)
        with msg | pairs
    · rw [hP] at h
      exact absurd h (by simp)
    rw [hP] at h
    dsimp only at h
    split at h
    · simp only [Except.ok.injEq] at h
      exact encodeStruct_conclude ts o f ranges pairs 0 hT hP (Or.inl rfl) h
    split at h
    · simp only [Except.ok.injEq] at h
      exact encodeStruct_conclude ts o f ranges pairs 1 hT hP (Or.inr rfl) h
    · exact absurd h (by
        simp [throw, throwThe, MonadExceptOf.throw, bind, Except.bind, pure, Except.pure])
  split at h
  · -- adaptive mode
    rename_i hmode1 hmode2
    rcases hR : segment_series_adaptive ts.values
        (if o.predictor = "auto" then 1 else predMap o.predictor)
        o.min_segment_length o.max_segment_length o.mse_threshold with msg | ranges
    · rw [hR] at h
      exact absurd h (by simp)
    rw [hR] at h
    have hT : tiles ranges ts.values.length = true :=
      segment_series_adaptive_tiles _ _ _ _ _ _ hR
    dsimp only at h
    rcases hP : ranges.mapM (processSegment ts.values o.predictor o.C_Q o.Q_MIN)
        with msg | pairs
    · rw [hP] at h
      exact absurd h (by simp)
    rw [hP] at h
    dsimp only at h
    split at h
    · simp only [Except.ok.injEq] at h
      exact encodeStruct_conclude ts o f ranges pairs 0 hT hP (Or.inl rfl) h
    split at h
    · simp only [Except.ok.injEq] at h
      exact encodeStruct_conclude ts o f ranges pairs 1 hT hP (Or.inr rfl) h
    · exact absurd h (by
        simp [throw, throwThe, MonadExceptOf.throw, bind, Except.bind, pure, Except.pure])
  · exact absurd h (by
      simp [throw, throwThe, MonadExceptOf.throw, bind, Except.bind, pure, Except.pure])

/-! ## Reconstruction lemmas -/

theorem setChecked_ok (xs : List ℚ) (i : ℕ) (v : ℚ) (h : i < xs.length) :
    setChecked xs i v = .ok (xs.set i v) := by
  unfold setChecked
  rw [if_pos h]

theorem writeSeq_ok (vals : List ℚ) : ∀ (x_hat : List ℚ) (start : ℕ),
    start + vals.length ≤ x_hat.length →
    ∃ x', writeSeq x_hat start vals = .ok x' ∧ x'.length = x_hat.length ∧
      ∀ j, (j < start ∨ start + vals.length ≤ j) → x'[j]? = x_hat[j]? := by
  induction vals with
  | nil =>
    intro x_hat start _
    exact ⟨x_hat, rfl, rfl, fun j _ => rfl⟩
  | cons v rest ih =>
    intro x_hat start hlen
    have hstart : start < x_hat.length := by
      simp only [List.length_cons] at hlen
      omega
    obtain ⟨x', hx', hlen', hpres⟩ := ih (x_hat.set start v) (start + 1) (by
      rw [List.length_set]
      simp only [List.length_cons] at hlen
      omega)
    refine ⟨x', ?_, ?_, ?_⟩
    · unfold writeSeq
      rw [setChecked_ok x_hat start v hstart]
      simp only [bind, Except.bind]
      exact hx'
    · rw [hlen', List.length_set]
    · intro j hj
      simp only [List.length_cons] at hj
      have h1 : x'[j]? = (x_hat.set start v)[j]? := hpres j (by omega)
      rw [h1, List.getElem?_set_ne (by omega)]

theorem rwLoop_ok (Q : ℚ) (qs : List ℤ) : ∀ (x_hat : List ℚ) (idx : ℕ),
    1 ≤ idx → idx + qs.length ≤ x_hat.length →
    ∃ x', rwLoop Q x_hat idx qs = .ok x' ∧ x'.length = x_hat.length ∧
      ∀ j, (j < idx ∨ idx + qs.length ≤ j) → x'[j]? = x_hat[j]? := by
  induction qs with
  | nil =>
    intro x_hat idx _ _
    exact ⟨x_hat, rfl, rfl, fun j _ => rfl⟩
  | cons q rest ih =>
    intro x_hat idx hidx hlen
    have hidxlt : idx < x_hat.length := by
      simp only [List.length_cons] at hlen
      omega
    have hprev : idx - 1 < x_hat.length := by omega
    obtain ⟨x', hx', hlen', hpres⟩ := ih
      (x_hat.set idx (x_hat.get ⟨idx - 1, hprev⟩ + (q : ℚ) * Q)) (idx + 1)
      (by omega)
      (by
        rw [List.length_set]
        simp only [List.length_cons] at hlen
        omega)
    refine ⟨x', ?_, ?_, ?_⟩
    · unfold rwLoop getChecked
      rw [dif_pos hprev]
      simp only [bind, Except.bind]
      rw [setChecked_ok _ _ _ hidxlt]
      exact hx'
    · rw [hlen', List.length_set]
    · intro j hj
      simp only [List.length_cons] at hj
      have h1 := hpres j (by omega)
      rw [h1, List.getElem?_set_ne (by omega)]

theorem rwWrites_ok (Q seed : ℚ) (qs : List ℤ) (x_hat : List ℚ) (start : ℕ)
    (hlen : start + qs.length ≤ x_hat.length) :
    ∃ x', rwWrites x_hat start Q seed qs = .ok x' ∧ x'.length = x_hat.length ∧
      ∀ j, (j < start ∨ start + qs.length ≤ j) → x'[j]? = x_hat[j]? := by
  cases qs with
  | nil => exact ⟨x_hat, rfl, rfl, fun j _ => rfl⟩
  | cons q rest =>
    have hstart : start < x_hat.length := by
      simp only [List.length_cons] at hlen
      omega
    obtain ⟨x', hx', hlen', hpres⟩ := rwLoop_ok Q rest
      (x_hat.set start (seed + (q : ℚ) * Q)) (start + 1) (by omega)
      (by
        rw [List.length_set]
        simp only [List.length_cons] at hlen
        omega)
    refine ⟨x', ?_, ?_, ?_⟩
    · unfold rwWrites
      dsimp only
      rw [setChecked_ok _ _ _ hstart]
      simp only [bind, Except.bind]
      exact hx'
    · rw [hlen', List.length_set]
    · intro j hj
      simp only [List.length_cons] at hj
      have h1 := hpres j (by omega)
      rw [h1, List.getElem?_set_ne (by omega)]

/-- A structurally consistent segment reconstructs successfully, preserves
the output length, and touches only its own index range. -/
theorem reconstructSeg_ok (x_hat : List ℚ) (seg : SegmentEntry) (q_res : List ℤ)
    (hmatch : (seg.end_idx : ℤ) - seg.start_idx + 1 = q_res.length)
    (hpt : seg.predictor_type < 3)
    (hbound : seg.start_idx + q_res.length ≤ x_hat.length) :
    ∃ x', reconstructSeg x_hat seg q_res = .ok x' ∧ x'.length = x_hat.length ∧
      ∀ j, (j < seg.start_idx ∨ seg.start_idx + q_res.length ≤ j) →
        x'[j]? = x_hat[j]? := by
  unfold reconstructSeg
  rw [if_neg (by omega)]
  by_cases h0 : seg.predictor_type = 0
  · rw [if_pos h0]
    have hl : ((predict_mean_const q_res.length seg.mean).zip
        (q_res.map fun (q : ℤ) => (q : ℚ) * seg.quant_step_Q)).length = q_res.length := by
      rw [List.length_zip, predict_mean_const_length, List.length_map, min_self]
    obtain ⟨x', hx', hlen', hpres⟩ := writeSeq_ok
      (((predict_mean_const q_res.length seg.mean).zip
        (q_res.map fun (q : ℤ) => (q : ℚ) * seg.quant_step_Q)).map fun p => p.1 + p.2)
      x_hat seg.start_idx (by rw [List.length_map, hl]; exact hbound)
    refine ⟨x', hx', hlen', ?_⟩
    intro j hj
    exact hpres j (by rw [List.length_map, hl]; omega)
  rw [if_neg h0]
  by_cases h1 : seg.predictor_type = 1
  · rw [if_pos h1]
    have hl : ((predict_linear q_res.length seg.slope seg.intercept).zip
        (q_res.map fun (q : ℤ) => (q : ℚ) * seg.quant_step_Q)).length = q_res.length := by
      rw [List.length_zip, predict_linear_length, List.length_map, min_self]
    obtain ⟨x', hx', hlen', hpres⟩ := writeSeq_ok
      (((predict_linear q_res.length seg.slope seg.intercept).zip
        (q_res.map fun (q : ℤ) => (q : ℚ) * seg.quant_step_Q)).map fun p => p.1 + p.2)
      x_hat seg.start_idx (by rw [List.length_map, hl]; exact hbound)
    refine ⟨x', hx', hlen', ?_⟩
    intro j hj
    exact hpres j (by rw [List.length_map, hl]; omega)
  rw [if_neg h1]
  have h2 : seg.predictor_type = 2 := by omega
  rw [if_pos h2]
  exact rwWrites_ok seg.quant_step_Q seg.seed_value q_res x_hat seg.start_idx hbound

/-- The reconstruction loop succeeds whenever every pair is structurally
consistent; the result has the original length, and any index covered by no
pair keeps its initial value. -/
theorem reconstructAll_ok (pairs : List (SegmentEntry × List ℤ)) :
    ∀ (x_hat : List ℚ),
    (∀ p ∈ pairs, ((p.1.end_idx : ℤ) - p.1.start_idx + 1 = p.2.length) ∧
      p.1.predictor_type < 3 ∧ p.1.start_idx + p.2.length ≤ x_hat.length) →
    ∃ x', reconstructAll x_hat pairs = .ok x' ∧ x'.length = x_hat.length ∧
      ∀ j, (∀ p ∈ pairs, j < p.1.start_idx ∨ p.1.start_idx + p.2.length ≤ j) →
        x'[j]? = x_hat[j]? := by
  induction pairs with
  | nil =>
    intro x_hat _
    exact ⟨x_hat, rfl, rfl, fun j _ => rfl⟩
  | cons p rest ih =>
    intro x_hat hall
    obtain ⟨hm, hpt, hb⟩ := hall p (by simp)
    obtain ⟨x1, hx1, hlen1, hpres1⟩ := reconstructSeg_ok x_hat p.1 p.2 hm hpt hb
    obtain ⟨x', hx', hlen', hpres'⟩ := ih x1 (by
      intro pp hpp
      obtain ⟨a, b, c⟩ := hall pp (by simp [hpp])
      exact ⟨a, b, by rw [hlen1]; exact c⟩)
    refine ⟨x', ?_, by rw [hlen', hlen1], ?_⟩
    · unfold reconstructAll
      rw [hx1]
      simp only [bind, Except.bind]
      exact hx'
    · intro j hj
      have ha := hpres' j (fun pp hpp => hj pp (by simp [hpp]))
      have hbj := hpres1 j (hj p (by simp))
      rw [ha, hbj]

/-- An unknown predictor type can never reconstruct: the segment either
fails its length check or reaches the `Unknown predictor_type` branch. -/
theorem reconstructSeg_unknown (x_hat : List ℚ) (seg : SegmentEntry) (q_res : List ℤ)
    (hpt : 3 ≤ seg.predictor_type) :
    ∃ msg, reconstructSeg x_hat seg q_res = .error msg := by
  unfold reconstructSeg
  by_cases hm : ((seg.end_idx : ℤ) - seg.start_idx + 1 = q_res.length)
  · rw [if_neg (by omega)]
    rw [if_neg (by omega), if_neg (by omega), if_neg (by omega)]
    exact ⟨_, rfl⟩
  · rw [if_pos (by omega)]
    exact ⟨_, rfl⟩

/-- If any segment in the table carries an unknown predictor type, the whole
reconstruction fails (no time series is returned). -/
theorem reconstructAll_unknown (pairs : List (SegmentEntry × List ℤ)) :
    ∀ (x_hat : List ℚ),
    (∃ p ∈ pairs, 3 ≤ p.1.predictor_type) →
    ∃ msg, reconstructAll x_hat pairs = .error msg := by
  induction pairs with
  | nil =>
    intro x_hat h
    obtain ⟨p, hp, _⟩ := h
    exact absurd hp (by simp)
  | cons hd rest ih =>
    intro x_hat h
    obtain ⟨p, hp, h3⟩ := h
    simp only [List.mem_cons] at hp
    rcases hp with hp | hp
    · obtain ⟨msg, hmsg⟩ := reconstructSeg_unknown x_hat hd.1 hd.2 (hp ▸ h3)
      refine ⟨msg, ?_⟩
      unfold reconstructAll
      rw [hmsg]
      rfl
    · rcases hseg : reconstructSeg x_hat hd.1 hd.2 with msg | x1
      · refine ⟨msg, ?_⟩
        unfold reconstructAll
        rw [hseg]
        rfl
      · obtain ⟨msg, hmsg⟩ := ih x1 ⟨p, hp, h3⟩
        refine ⟨msg, ?_⟩
        unfold reconstructAll
        rw [hseg]
        simp only [bind, Except.bind]
        exact hmsg

/-! ## Serializer / parser inversion -/

theorem packU16_ok (v : ℕ) (h : v < 2 ^ 16) : packU16 v = .ok (leBytes 2 v) := by
  unfold packU16
  rw [if_pos h]

theorem packU32_ok (v : ℕ) (h : v < 2 ^ 32) : packU32 v = .ok (leBytes 4 v) := by
  unfold packU32
  rw [if_pos h]

theorem packF64_length (q : ℚ) : (packF64 q).length = 8 := leBytes_length 8 _

/-- Dropping a known-length prefix plus `n` more. -/
theorem drop_app (k : ℕ) (a r : List ℕ) (ha : a.length = k) (n : ℕ) :
    (a ++ r).drop (k + n) = r.drop n := by
  subst ha
  rw [← List.drop_drop, List.drop_left]

/-- `leValue ∘ leBytes` keeps exactly the low `w` bytes. -/
theorem leValue_leBytes_mod (w v : ℕ) : leValue (leBytes w v) = v % 256 ^ w := by
  induction w generalizing v with
  | zero => simp [leBytes, leValue, Nat.mod_one]
  | succ w ih =>
    simp only [leBytes, leValue, ih (v / 256)]
    rw [pow_succ, mul_comm (256 ^ w) 256, Nat.mod_mul]

theorem leValue_packF64 (q : ℚ) : leValue (packF64 q) = f64bits q % 2 ^ 64 := by
  unfold packF64
  rw [leValue_leBytes_mod]
  norm_num

theorem packSegmentEntry_ok (seg : SegmentEntry)
    (hs : seg.start_idx < 2 ^ 32) (he : seg.end_idx < 2 ^ 32)
    (hp : seg.predictor_type < 2 ^ 32) :
    packSegmentEntry seg = .ok (leBytes 4 seg.start_idx ++
      (leBytes 4 seg.end_idx ++ (leBytes 4 seg.predictor_type ++ (leBytes 4 0 ++
      (leBytes 4 0 ++ (leBytes 4 0 ++ (packF64 seg.mean ++ (packF64 seg.slope ++
      (packF64 seg.intercept ++ (packF64 seg.quant_step_Q ++
       packF64 seg.seed_value)))))))))) := by
  unfold packSegmentEntry
  rw [packU32_ok _ hs, packU32_ok _ he, packU32_ok _ hp, packU32_ok 0 (by norm_num)]
  simp only [bind, Except.bind, pure, Except.pure, Except.ok.injEq]
  simp [List.append_assoc]

theorem packSegmentEntry_bytes_length (seg : SegmentEntry) (bs : List ℕ)
    (h : packSegmentEntry seg = .ok bs) : bs.length = 64 := by
  unfold packSegmentEntry at h
  rcases h1 : packU32 seg.start_idx with m | a
  · rw [h1] at h
    exact absurd h (by simp [bind, Except.bind])
  rcases h2 : packU32 seg.end_idx with m | b
  · rw [h1, h2] at h
    exact absurd h (by simp [bind, Except.bind])
  rcases h3 : packU32 seg.predictor_type with m | c
  · rw [h1, h2, h3] at h
    exact absurd h (by simp [bind, Except.bind])
  rcases h4 : packU32 0 with m | z
  · rw [h1, h2, h3, h4] at h
    exact absurd h (by simp [bind, Except.bind])
  rw [h1, h2, h3, h4] at h
  simp only [bind, Except.bind, pure, Except.pure, Except.ok.injEq] at h
  have la : a.length = 4 := by
    unfold packU32 at h1
    split at h1
    · simp only [Except.ok.injEq] at h1
      rw [← h1, leBytes_length]
    · exact absurd h1 (by simp)
  have lb : b.length = 4 := by
    unfold packU32 at h2
    split at h2
    · simp only [Except.ok.injEq] at h2
      rw [← h2, leBytes_length]
    · exact absurd h2 (by simp)
  have lc : c.length = 4 := by
    unfold packU32 at h3
    split at h3
    · simp only [Except.ok.injEq] at h3
      rw [← h3, leBytes_length]
    · exact absurd h3 (by simp)
  have lz : z.length = 4 := by
    unfold packU32 at h4
    split at h4
    · simp only [Except.ok.injEq] at h4
      rw [← h4, leBytes_length]
    · exact absurd h4 (by simp)
  rw [← h]
  simp [la, lb, lc, lz, packF64_length]

set_option maxHeartbeats 1000000 in
/-- Parsing back one packed segment entry recovers the integer fields
exactly and the float fields through the binary64 round-trip. -/
theorem parseSegEntry_spec (seg : SegmentEntry) (rest : List ℕ)
    (hs : seg.start_idx < 2 ^ 32) (he : seg.end_idx < 2 ^ 32)
    (hp : seg.predictor_type < 2 ^ 32) :
    parseSegEntry ((leBytes 4 seg.start_idx ++
      (leBytes 4 seg.end_idx ++ (leBytes 4 seg.predictor_type ++ (leBytes 4 0 ++
      (leBytes 4 0 ++ (leBytes 4 0 ++ (packF64 seg.mean ++ (packF64 seg.slope ++
      (packF64 seg.intercept ++ (packF64 seg.quant_step_Q ++
       packF64 seg.seed_value)))))))))) ++ rest) = f64rt seg := by
  unfold f64rt
  have l1 : (leBytes 4 seg.start_idx).length = 4 := leBytes_length 4 _
  have l2 : (leBytes 4 seg.end_idx).length = 4 := leBytes_length 4 _
  have l3 : (leBytes 4 seg.predictor_type).length = 4 := leBytes_length 4 _
  have lz : (leBytes 4 0).length = 4 := leBytes_length 4 _
  have lm : (packF64 seg.mean).length = 8 := packF64_length _
  have lsl : (packF64 seg.slope).length = 8 := packF64_length _
  have lic : (packF64 seg.intercept).length = 8 := packF64_length _
  have lq : (packF64 seg.quant_step_Q).length = 8 := packF64_length _
  have h256 : (256 : ℕ) ^ 4 = 2 ^ 32 := by norm_num
  unfold parseSegEntry
  simp only [List.append_assoc, SegmentEntry.mk.injEq]
  refine ⟨?_, ?_, ?_, ?_, ?_, ?_, ?_, ?_⟩
  -- start_idx
  · rw [List.take_left' l1, leValue_leBytes_mod, Nat.mod_eq_of_lt (by omega)]
  -- end_idx
  · rw [List.drop_left' l1, List.take_left' l2, leValue_leBytes_mod,
      Nat.mod_eq_of_lt (by omega)]
  -- predictor_type
  · rw [show (8 : ℕ) = 4 + 4 from rfl, drop_app 4 _ _ l1, List.drop_left' l2,
      List.take_left' l3, leValue_leBytes_mod, Nat.mod_eq_of_lt (by omega)]
  -- mean at offset 24
  · rw [show (24 : ℕ) = 4 + 20 from rfl, drop_app 4 _ _ l1,
      show (20 : ℕ) = 4 + 16 from rfl, drop_app 4 _ _ l2,
      show (16 : ℕ) = 4 + 12 from rfl, drop_app 4 _ _ l3,
      show (12 : ℕ) = 4 + 8 from rfl, drop_app 4 _ _ lz,
      show (8 : ℕ) = 4 + 4 from rfl, drop_app 4 _ _ lz, List.drop_left' lz,
      List.take_left' lm, leValue_packF64]
  -- slope at offset 32
  · rw [show (32 : ℕ) = 4 + 28 from rfl, drop_app 4 _ _ l1,
      show (28 : ℕ) = 4 + 24 from rfl, drop_app 4 _ _ l2,
      show (24 : ℕ) = 4 + 20 from rfl, drop_app 4 _ _ l3,
      show (20 : ℕ) = 4 + 16 from rfl, drop_app 4 _ _ lz,
      show (16 : ℕ) = 4 + 12 from rfl, drop_app 4 _ _ lz,
      show (12 : ℕ) = 4 + 8 from rfl, drop_app 4 _ _ lz,
      show (8 : ℕ) = 8 + 0 from rfl, drop_app 8 _ _ lm, List.drop_zero,
      List.take_left' lsl, leValue_packF64]
  -- intercept at offset 40
  · rw [show (40 : ℕ) = 4 + 36 from rfl, drop_app 4 _ _ l1,
      show (36 : ℕ) = 4 + 32 from rfl, drop_app 4 _ _ l2,
      show (32 : ℕ) = 4 + 28 from rfl, drop_app 4 _ _ l3,
      show (28 : ℕ) = 4 + 24 from rfl, drop_app 4 _ _ lz,
      show (24 : ℕ) = 4 + 20 from rfl, drop_app 4 _ _ lz,
      show (20 : ℕ) = 4 + 16 from rfl, drop_app 4 _ _ lz,
      show (16 : ℕ) = 8 + 8 from rfl, drop_app 8 _ _ lm,
      show (8 : ℕ) = 8 + 0 from rfl, drop_app 8 _ _ lsl, List.drop_zero,
      List.take_left' lic, leValue_packF64]
  -- Q at offset 48
  · rw [show (48 : ℕ) = 4 + 44 from rfl, drop_app 4 _ _ l1,
      show (44 : ℕ) = 4 + 40 from rfl, drop_app 4 _ _ l2,
      show (40 : ℕ) = 4 + 36 from rfl, drop_app 4 _ _ l3,
      show (36 : ℕ) = 4 + 32 from rfl, drop_app 4 _ _ lz,
      show (32 : ℕ) = 4 + 28 from rfl, drop_app 4 _ _ lz,
      show (28 : ℕ) = 4 + 24 from rfl, drop_app 4 _ _ lz,
      show (24 : ℕ) = 8 + 16 from rfl, drop_app 8 _ _ lm,
      show (16 : ℕ) = 8 + 8 from rfl, drop_app 8 _ _ lsl,
      show (8 : ℕ) = 8 + 0 from rfl, drop_app 8 _ _ lic, List.drop_zero,
      List.take_left' lq, leValue_packF64]
  -- seed at offset 56
  · rw [show (56 : ℕ) = 4 + 52 from rfl, drop_app 4 _ _ l1,
      show (52 : ℕ) = 4 + 48 from rfl, drop_app 4 _ _ l2,
      show (48 : ℕ) = 4 + 44 from rfl, drop_app 4 _ _ l3,
      show (44 : ℕ) = 4 + 40 from rfl, drop_app 4 _ _ lz,
      show (40 : ℕ) = 4 + 36 from rfl, drop_app 4 _ _ lz,
      show (36 : ℕ) = 4 + 32 from rfl, drop_app 4 _ _ lz,
      show (32 : ℕ) = 8 + 24 from rfl, drop_app 8 _ _ lm,
      show (24 : ℕ) = 8 + 16 from rfl, drop_app 8 _ _ lsl,
      show (16 : ℕ) = 8 + 8 from rfl, drop_app 8 _ _ lic,
      show (8 : ℕ) = 8 + 0 from rfl, drop_app 8 _ _ lq, List.drop_zero,
      List.take_left' (packF64_length _), leValue_packF64]

theorem packU32_inv (v : ℕ) (bs : List ℕ) (h : packU32 v = .ok bs) :
    v < 2 ^ 32 ∧ bs = leBytes 4 v := by
  unfold packU32 at h
  split at h
  · simp only [Except.ok.injEq] at h
    exact ⟨by assumption, h.symm⟩
  · exact absurd h (by simp)

theorem packU16_inv (v : ℕ) (bs : List ℕ) (h : packU16 v = .ok bs) :
    v < 2 ^ 16 ∧ bs = leBytes 2 v := by
  unfold packU16 at h
  split at h
  · simp only [Except.ok.injEq] at h
    exact ⟨by assumption, h.symm⟩
  · exact absurd h (by simp)

/-- A successfully packed segment entry: the field bounds hold and the bytes
are the canonical 64-byte layout. -/
theorem packSegmentEntry_inv (seg : SegmentEntry) (bs : List ℕ)
    (h : packSegmentEntry seg = .ok bs) :
    seg.start_idx < 2 ^ 32 ∧ seg.end_idx < 2 ^ 32 ∧ seg.predictor_type < 2 ^ 32 ∧
    bs = leBytes 4 seg.start_idx ++
      (leBytes 4 seg.end_idx ++ (leBytes 4 seg.predictor_type ++ (leBytes 4 0 ++
      (leBytes 4 0 ++ (leBytes 4 0 ++ (packF64 seg.mean ++ (packF64 seg.slope ++
      (packF64 seg.intercept ++ (packF64 seg.quant_step_Q ++
       packF64 seg.seed_value))))))))) := by
  have hcopy := h
  unfold packSegmentEntry at hcopy
  rcases h1 : packU32 seg.start_idx with m | a
  · rw [h1] at hcopy
    exact absurd hcopy (by simp [bind, Except.bind])
  rcases h2 : packU32 seg.end_idx with m | b
  · rw [h1, h2] at hcopy
    exact absurd hcopy (by simp [bind, Except.bind])
  rcases h3 : packU32 seg.predictor_type with m | c
  · rw [h1, h2, h3] at hcopy
    exact absurd hcopy (by simp [bind, Except.bind])
  obtain ⟨hs, -⟩ := packU32_inv _ _ h1
  obtain ⟨he, -⟩ := packU32_inv _ _ h2
  obtain ⟨hp, -⟩ := packU32_inv _ _ h3
  have hok := packSegmentEntry_ok seg hs he hp
  rw [h] at hok
  exact ⟨hs, he, hp, Except.ok.inj hok⟩

/-- Parsing the head of a buffer that starts with a packed entry. -/
theorem parseSegEntry_of_pack (seg : SegmentEntry) (bs rest : List ℕ)
    (h : packSegmentEntry seg = .ok bs) :
    parseSegEntry (bs ++ rest) = f64rt seg ∧ bs.length = 64 := by
  obtain ⟨hs, he, hp, hbs⟩ := packSegmentEntry_inv seg bs h
  constructor
  · rw [hbs]
    exact parseSegEntry_spec seg rest hs he hp
  · exact packSegmentEntry_bytes_length seg bs h

/-- The segment-table parser inverts `mapM packSegmentEntry`: it consumes
exactly the packed table and returns the entries after the per-field
binary64 round-trip, leaving the rest untouched. -/
theorem parseSegTable_spec (segs : List SegmentEntry) :
    ∀ (tbl : List (List ℕ)) (rest : List ℕ),
    segs.mapM packSegmentEntry = .ok tbl →
    parseSegTable segs.length (tbl.flatten ++ rest) = .ok (segs.map f64rt, rest) := by
  induction segs with
  | nil =>
    intro tbl rest h
    have : tbl = [] := by
      simp only [List.mapM_nil, pure, Except.pure, Except.ok.injEq] at h
      exact h.symm
    subst this
    rfl
  | cons seg tail ih =>
    intro tbl rest h
    rw [List.mapM_cons] at h
    rcases h1 : packSegmentEntry seg with m | b
    · rw [h1] at h
      exact absurd h (by simp [bind, Except.bind])
    rcases h2 : tail.mapM packSegmentEntry with m | tb
    · rw [h1, h2] at h
      exact absurd h (by simp [bind, Except.bind])
    rw [h1, h2] at h
    simp only [bind, Except.bind, pure, Except.pure, Except.ok.injEq] at h
    subst h
    obtain ⟨hparse, hlen⟩ := parseSegEntry_of_pack seg b (tb.flatten ++ rest) h1
    have hflat : ((b :: tb).flatten : List ℕ) = b ++ (tb.flatten ++ rest) → True := fun _ => trivial
    show parseSegTable (tail.length + 1) ((b :: tb).flatten ++ rest) = _
    have hshape : ((b :: tb).flatten ++ rest : List ℕ) = b ++ (tb.flatten ++ rest) := by
      simp
    rw [hshape, parseSegTable]
    rw [if_neg (by simp [hlen])]
    rw [hparse]
    have hdrop : (b ++ (tb.flatten ++ rest)).drop 64 = tb.flatten ++ rest :=
      drop_append_of_length _ _ 64 hlen
    simp only [bind, Except.bind, pure, Except.pure]
    rw [hdrop, ih tb rest h2]
    rfl

/-- Sequential assignment rewrites the written window and keeps the rest. -/
theorem writeAll_eq (qss : List (List ℤ)) :
    ∀ (table : List (List ℤ)) (i : ℕ), i + qss.length ≤ table.length →
    writeAll table i qss = table.take i ++ qss ++ table.drop (i + qss.length) := by
  induction qss with
  | nil =>
    intro table i _
    simp [writeAll]
  | cons q rest ih =>
    intro table i hlen
    have hi : i < table.length := by simp at hlen; omega
    show writeAll (table.set i q) (i + 1) rest = _
    rw [ih (table.set i q) (i + 1) (by simp at hlen ⊢; omega)]
    have htake : (table.set i q).take (i + 1) = table.take i ++ [q] := by
      rw [List.set_eq_take_append_cons_drop, if_pos hi, List.take_append_eq_append_take]
      have h1 : (List.take i table).length = i := List.length_take_of_le (Nat.le_of_lt hi)
      rw [List.take_take, h1]
      simp [Nat.min_def]
    have hdrop : (table.set i q).drop (i + 1 + rest.length) = table.drop (i + 1 + rest.length) :=
      List.drop_set_of_lt q table (by omega)
    rw [htake, hdrop]
    simp only [List.append_assoc, List.cons_append, List.nil_append, List.length_cons]
    rw [show i + (rest.length + 1) = i + 1 + rest.length by omega]

/-- Writing `n` lists from position 0 over an `n`-slot table yields exactly
those lists (the decoder table after `n` in-order blocks). -/
theorem writeAll_replicate (n : ℕ) (qss : List (List ℤ)) (h : qss.length = n) :
    writeAll (List.replicate n ([] : List ℤ)) 0 qss = qss := by
  rw [writeAll_eq qss _ 0 (by simp [h])]
  simp [h]

/-- `struct.pack("<i", ·)` succeeds only on int32-range values. -/
theorem mapM_packI32_int32 (qs : List ℤ) :
    ∀ (ps : List (List ℕ)), qs.mapM packI32 = .ok ps → ∀ q ∈ qs, int32Rng q := by
  induction qs with
  | nil =>
    intro ps _ q hq
    exact absurd hq (by simp)
  | cons a tl ih =>
    intro ps h q hq
    rw [List.mapM_cons] at h
    rcases ha : packI32 a with m | pa
    · rw [ha] at h
      exact absurd h (by simp [bind, Except.bind])
    rcases htl : tl.mapM packI32 with m | ptl
    · rw [ha, htl] at h
      exact absurd h (by simp [bind, Except.bind])
    rcases List.mem_cons.mp hq with rfl | hmem
    · unfold packI32 at ha
      split at ha
      · rename_i hrng
        exact ⟨hrng.1, hrng.2⟩
      · exact absurd ha (by simp)
    · exact ih ptl htl q hmem

theorem flatten_map_leBytes_length (qs : List ℤ) :
    ((qs.map (fun (q : ℤ) => leBytes 4 (q % 2 ^ 32).toNat)).flatten).length
      = qs.length * 4 := by
  induction qs with
  | nil => rfl
  | cons a tl ih =>
    simp only [List.map_cons, List.flatten_cons, List.length_append, leBytes_length,
      List.length_cons, ih]
    omega

/-- A successfully packed residual block: the 12-byte header carries the
`seg_id`, count, and payload length, followed by the payload itself. -/
theorem packBlock_inv (ct i : ℕ) (qs : List ℤ) (b : List ℕ)
    (h : packBlock ct i qs = .ok b) :
    i < 2 ^ 32 ∧ qs.length < 2 ^ 32 ∧
    ∃ payload : List ℕ, payload.length < 2 ^ 32 ∧
      b = leBytes 4 i ++ (leBytes 4 qs.length ++ (leBytes 4 payload.length ++ payload)) ∧
      ((ct = 0 ∧ qs.mapM packI32 =
          .ok (qs.map (fun (q : ℤ) => leBytes 4 (q % 2 ^ 32).toNat)) ∧
        payload = (qs.map (fun (q : ℤ) => leBytes 4 (q % 2 ^ 32).toNat)).flatten ∧
        payload.length = qs.length * 4) ∨
       (ct ≠ 0 ∧ encode_int_list_varint qs = .ok payload)) := by
  unfold packBlock at h
  dsimp only at h
  by_cases hc : ct = 0
  · rw [if_pos hc] at h
    rcases h1 : packU32 i with m | sid
    · rw [h1] at h
      exact absurd h (by simp [bind, Except.bind])
    rcases h2 : packU32 qs.length with m | sl
    · rw [h1, h2] at h
      exact absurd h (by simp [bind, Except.bind])
    rcases h3 : packU32 (qs.length * 4) with m | bl
    · rw [h1, h2, h3] at h
      exact absurd h (by simp [bind, Except.bind])
    rcases h4 : qs.mapM packI32 with m | payloads
    · rw [h1, h2, h3, h4] at h
      exact absurd h (by simp [bind, Except.bind])
    rw [h1, h2, h3, h4] at h
    simp only [bind, Except.bind, pure, Except.pure, Except.ok.injEq] at h
    obtain ⟨hi, rfl⟩ := packU32_inv _ _ h1
    obtain ⟨hl, rfl⟩ := packU32_inv _ _ h2
    obtain ⟨hbl, rfl⟩ := packU32_inv _ _ h3
    have hq : ∀ q ∈ qs, int32Rng q := mapM_packI32_int32 qs payloads h4
    have hmap := mapM_packI32 qs hq
    rw [h4] at hmap
    have hpay : payloads = qs.map (fun (q : ℤ) => leBytes 4 (q % 2 ^ 32).toNat) :=
      Except.ok.inj hmap
    subst hpay
    have hflatlen := flatten_map_leBytes_length qs
    refine ⟨hi, hl, (qs.map (fun (q : ℤ) => leBytes 4 (q % 2 ^ 32).toNat)).flatten,
      by omega, ?_, ?_⟩
    · rw [← h, hflatlen]
      simp [List.append_assoc]
    · exact Or.inl ⟨hc, rfl, rfl, hflatlen⟩
  · rw [if_neg hc] at h
    rcases h0 : encode_int_list_varint qs with m | data
    · rw [h0] at h
      exact absurd h (by simp [bind, Except.bind])
    rw [h0] at h
    simp only [bind, Except.bind] at h
    rcases h1 : packU32 i with m | sid
    · rw [h1] at h
      exact absurd h (by simp [bind, Except.bind])
    rw [h1] at h
    simp only [bind, Except.bind] at h
    rcases h2 : packU32 qs.length with m | sl
    · rw [h2] at h
      exact absurd h (by simp [bind, Except.bind])
    rw [h2] at h
    simp only [bind, Except.bind] at h
    rcases h3 : packU32 data.length with m | bl
    · rw [h3] at h
      exact absurd h (by simp [bind, Except.bind])
    rw [h3] at h
    simp only [bind, Except.bind, pure, Except.pure, Except.ok.injEq] at h
    obtain ⟨hi, rfl⟩ := packU32_inv _ _ h1
    obtain ⟨hl, rfl⟩ := packU32_inv _ _ h2
    obtain ⟨hbl, rfl⟩ := packU32_inv _ _ h3
    refine ⟨hi, hl, data, hbl, ?_, Or.inr ⟨hc, rfl⟩⟩
    rw [← h]
    simp [List.append_assoc]

/-- The residual-block parser inverts `packBlocks`: reading as many blocks
as were written assigns each decoded list at its `seg_id` and leaves the
trailing bytes untouched. -/
theorem parseBlocks_spec (ct ns : ℕ) (qss : List (List ℤ)) :
    ∀ (i : ℕ) (table : List (List ℤ)) (blocks rest : List ℕ),
    packBlocks ct i qss = .ok blocks →
    (∀ qs ∈ qss, ∀ q ∈ qs, int32Rng q) →
    i + qss.length ≤ ns →
    parseBlocks ct ns qss.length table (blocks ++ rest) =
      .ok (writeAll table i qss, rest) := by
  induction qss with
  | nil =>
    intro i table blocks rest h _ _
    have : blocks = [] := (Except.ok.inj h).symm
    subst this
    rfl
  | cons qs tail ih =>
    intro i table blocks rest h hrng hns
    show parseBlocks ct ns (tail.length + 1) table (blocks ++ rest) = _
    unfold packBlocks at h
    rcases hb : packBlock ct i qs with m | b
    · rw [hb] at h
      exact absurd h (by simp [bind, Except.bind])
    rw [hb] at h
    simp only [bind, Except.bind] at h
    rcases hr : packBlocks ct (i + 1) tail with m | r
    · rw [hr] at h
      exact absurd h (by simp [bind, Except.bind])
    rw [hr] at h
    simp only [bind, Except.bind, pure, Except.pure, Except.ok.injEq] at h
    subst h
    obtain ⟨hi32, hl32, payload, hpl32, hbshape, hcases⟩ := packBlock_inv ct i qs b hb
    subst hbshape
    have hA1 : (leBytes 4 i).length = 4 := leBytes_length 4 _
    have hA2 : (leBytes 4 qs.length).length = 4 := leBytes_length 4 _
    have hA3 : (leBytes 4 payload.length).length = 4 := leBytes_length 4 _
    have hshape : (leBytes 4 i ++ (leBytes 4 qs.length ++ (leBytes 4 payload.length ++
        payload)) ++ r) ++ rest
        = leBytes 4 i ++ (leBytes 4 qs.length ++ (leBytes 4 payload.length ++
          (payload ++ (r ++ rest)))) := by
      simp [List.append_assoc]
    rw [hshape]
    rw [parseBlocks]
    rw [if_neg (by simp [leBytes_length]; omega)]
    dsimp only
    have hid : leValue ((leBytes 4 i ++ (leBytes 4 qs.length ++
        (leBytes 4 payload.length ++ (payload ++ (r ++ rest))))).take 4) = i := by
      rw [List.take_left' hA1, leValue_leBytes_mod, Nat.mod_eq_of_lt (by omega)]
    have hsl : leValue (((leBytes 4 i ++ (leBytes 4 qs.length ++
        (leBytes 4 payload.length ++ (payload ++ (r ++ rest))))).drop 4).take 4)
        = qs.length := by
      rw [List.drop_left' hA1, List.take_left' hA2, leValue_leBytes_mod,
        Nat.mod_eq_of_lt (by omega)]
    have hbl : leValue (((leBytes 4 i ++ (leBytes 4 qs.length ++
        (leBytes 4 payload.length ++ (payload ++ (r ++ rest))))).drop 8).take 4)
        = payload.length := by
      rw [show (8 : ℕ) = 4 + 4 from rfl, drop_app 4 _ _ hA1, List.drop_left' hA2,
        List.take_left' hA3, leValue_leBytes_mod, Nat.mod_eq_of_lt (by omega)]
    have hrem1 : (leBytes 4 i ++ (leBytes 4 qs.length ++
        (leBytes 4 payload.length ++ (payload ++ (r ++ rest))))).drop 12
        = payload ++ (r ++ rest) := by
      rw [show (12 : ℕ) = 4 + 8 from rfl, drop_app 4 _ _ hA1,
        show (8 : ℕ) = 4 + 4 from rfl, drop_app 4 _ _ hA2, List.drop_left' hA3]
    rw [hid, hsl, hbl, hrem1]
    have hc1 : ¬ ns ≤ i := by
      simp only [List.length_cons] at hns
      omega
    have hc2 : ¬ (payload ++ (r ++ rest)).length < payload.length := by simp
    rw [if_neg hc1, if_neg hc2]
    rw [List.take_left' rfl, List.drop_left' rfl]
    have hq : (if ct = 0 then
        if qs.length * 4 ≠ payload.length then
          Except.error "byte_len != seg_len * 4 for raw residuals"
        else Except.ok (parseI32List qs.length payload)
      else decode_int_list_varint payload qs.length) = Except.ok qs := by
      rcases hcases with ⟨hc0, hmapM, hpayload, hplen⟩ | ⟨hc1, henc⟩
      · rw [if_pos hc0, if_neg (by omega)]
        subst hpayload
        have := parseI32List_flatten qs (mapM_packI32_int32 qs _ hmapM) []
        rw [List.append_nil] at this
        rw [this]
      · rw [if_neg hc1]
        have hqrng : ∀ q ∈ qs, int32Rng q := hrng qs (by simp)
        obtain ⟨enc, henc2, hdec⟩ := decode_encode_int_list qs hqrng
        rw [henc] at henc2
        have henceq : payload = enc := Except.ok.inj henc2
        subst henceq
        have := hdec [] []
        rw [List.nil_append, List.append_nil] at this
        unfold decode_int_list_varint
        simpa using this
    rw [hq]
    exact ih (i + 1) (table.set i qs) r rest hr
      (fun x hx => hrng x (by simp [hx])) (by simp at hns; omega)

/-- A successfully serialized file: the component encodings all succeeded,
the header fields fit in their widths, and the bytes are the canonical
layout. -/
theorem serializeFile_inv (f : FileStruct) (data : List ℕ)
    (h : serializeFile f = .ok data) :
    ∃ (tbl : List (List ℕ)) (blocks : List ℕ),
      f.segments.mapM packSegmentEntry = .ok tbl ∧
      packBlocks f.coding_type 0 f.q_resid_segments = .ok blocks ∧
      f.ctx.length < 2 ^ 32 ∧ f.n_points < 2 ^ 32 ∧
      f.segments.length < 2 ^ 32 ∧ f.coding_type < 2 ^ 32 ∧
      data = magicBytes ++ (leBytes 2 1 ++ (leBytes 2 0 ++ (leBytes 4 f.ctx.length ++
        (leBytes 4 f.n_points ++ (leBytes 4 f.segments.length ++ (leBytes 4 0 ++
        (leBytes 4 0 ++ (f.ctx ++ (tbl.flatten ++ (leBytes 4 f.coding_type ++
        (leBytes 4 0 ++ (leBytes 4 0 ++ (leBytes 4 0 ++ blocks))))))))))))) := by
  unfold serializeFile at h
  dsimp only at h
  rw [packU16_ok 1 (by norm_num), packU16_ok 0 (by norm_num)] at h
  simp only [bind, Except.bind] at h
  rcases h1 : packU32 f.ctx.length with m | hlb
  · rw [h1] at h
    exact absurd h (by simp [bind, Except.bind])
  rw [h1] at h
  simp only [bind, Except.bind] at h
  rcases h2 : packU32 f.n_points with m | npb
  · rw [h2] at h
    exact absurd h (by simp [bind, Except.bind])
  rw [h2] at h
  simp only [bind, Except.bind] at h
  rcases h3 : packU32 f.segments.length with m | nsb
  · rw [h3] at h
    exact absurd h (by simp [bind, Except.bind])
  rw [h3] at h
  simp only [bind, Except.bind] at h
  rw [packU32_ok 0 (by norm_num)] at h
  simp only [bind, Except.bind] at h
  rcases h4 : f.segments.mapM packSegmentEntry with m | tbl
  · rw [h4] at h
    exact absurd h (by simp [bind, Except.bind])
  rw [h4] at h
  simp only [bind, Except.bind] at h
  rcases h5 : packU32 f.coding_type with m | ctb
  · rw [h5] at h
    exact absurd h (by simp [bind, Except.bind])
  rw [h5] at h
  simp only [bind, Except.bind] at h
  rcases h6 : packBlocks f.coding_type 0 f.q_resid_segments with m | blocks
  · rw [h6] at h
    exact absurd h (by simp [bind, Except.bind])
  rw [h6] at h
  simp only [bind, Except.bind, pure, Except.pure, Except.ok.injEq] at h
  obtain ⟨b1, rfl⟩ := packU32_inv _ _ h1
  obtain ⟨b2, rfl⟩ := packU32_inv _ _ h2
  obtain ⟨b3, rfl⟩ := packU32_inv _ _ h3
  obtain ⟨b5, rfl⟩ := packU32_inv _ _ h5
  refine ⟨tbl, blocks, rfl, rfl, b1, b2, b3, b5, ?_⟩
  rw [← h]
  simp [List.append_assoc]

set_option maxHeartbeats 1000000 in
/-- Decoding a successfully serialized file, up to the residual stage: the
structural checks pass (under the decoder's sanity bounds) and the result
is the residual-block parse followed by reconstruction on the
round-tripped segment table. -/
theorem decode_serialize_layout (f : FileStruct) (data : List ℕ)
    (h : serializeFile f = .ok data)
    (hnp : f.n_points ≤ 10000000)
    (hns : f.segments.length ≤ 1000000)
    (hctx : ctxWellFormed f.ctx = true)
    (hct : f.coding_type = 0 ∨ f.coding_type = 1) :
    ∃ blocks : List ℕ,
      packBlocks f.coding_type 0 f.q_resid_segments = .ok blocks ∧
      decode_timeseries data =
        match parseBlocks f.coding_type f.segments.length f.segments.length
            (List.replicate f.segments.length []) blocks with
        | .error msg => .error msg
        | .ok qrs =>
          match reconstructAll (List.replicate f.n_points 0)
              ((f.segments.map f64rt).zip qrs.1) with
          | .error msg => .error msg
          | .ok x_hat =>
            .ok { values := x_hat, dt := 1, t0 := defaultT0, unit := defaultUnit } := by
  obtain ⟨tbl, blocks, htbl, hblocks, b1, b2, b3, b4, hdata⟩ := serializeFile_inv f data h
  refine ⟨blocks, hblocks, ?_⟩
  subst hdata
  have hm4 : (magicBytes : List ℕ).length = 4 := rfl
  have hv2 : (leBytes 2 1).length = 2 := leBytes_length 2 _
  have hf2 : (leBytes 2 0).length = 2 := leBytes_length 2 _
  have h44 : ∀ v : ℕ, (leBytes 4 v).length = 4 := fun v => leBytes_length 4 v
  unfold decode_timeseries
  dsimp only
  have hDlen : (magicBytes ++ (leBytes 2 1 ++ (leBytes 2 0 ++ (leBytes 4 f.ctx.length ++
      (leBytes 4 f.n_points ++ (leBytes 4 f.segments.length ++ (leBytes 4 0 ++
      (leBytes 4 0 ++ (f.ctx ++ (tbl.flatten ++ (leBytes 4 f.coding_type ++
      (leBytes 4 0 ++ (leBytes 4 0 ++ (leBytes 4 0 ++
        blocks)))))))))))))).length
      = 28 + f.ctx.length + tbl.flatten.length + 16 + blocks.length := by
    simp only [List.length_append, leBytes_length, hm4]
    omega
  have hmagic : (magicBytes ++ (leBytes 2 1 ++ (leBytes 2 0 ++ (leBytes 4 f.ctx.length ++
      (leBytes 4 f.n_points ++ (leBytes 4 f.segments.length ++ (leBytes 4 0 ++
      (leBytes 4 0 ++ (f.ctx ++ (tbl.flatten ++ (leBytes 4 f.coding_type ++
      (leBytes 4 0 ++ (leBytes 4 0 ++ (leBytes 4 0 ++
        blocks)))))))))))))).take 4 = magicBytes :=
    List.take_left' hm4
  have hver : leValue (((magicBytes ++ (leBytes 2 1 ++ (leBytes 2 0 ++
      (leBytes 4 f.ctx.length ++
      (leBytes 4 f.n_points ++ (leBytes 4 f.segments.length ++ (leBytes 4 0 ++
      (leBytes 4 0 ++ (f.ctx ++ (tbl.flatten ++ (leBytes 4 f.coding_type ++
      (leBytes 4 0 ++ (leBytes 4 0 ++ (leBytes 4 0 ++
        blocks)))))))))))))).drop 4).take 2) = 1 := by
    rw [List.drop_left' hm4, List.take_left' hv2, leValue_leBytes 2 1 (by norm_num)]
  have hhl : leValue (((magicBytes ++ (leBytes 2 1 ++ (leBytes 2 0 ++
      (leBytes 4 f.ctx.length ++
      (leBytes 4 f.n_points ++ (leBytes 4 f.segments.length ++ (leBytes 4 0 ++
      (leBytes 4 0 ++ (f.ctx ++ (tbl.flatten ++ (leBytes 4 f.coding_type ++
      (leBytes 4 0 ++ (leBytes 4 0 ++ (leBytes 4 0 ++
        blocks)))))))))))))).drop 8).take 4) = f.ctx.length := by
    rw [show (8 : ℕ) = 4 + 4 from rfl, drop_app 4 _ _ hm4,
      show (4 : ℕ) = 2 + 2 from rfl, drop_app 2 _ _ hv2, List.drop_left' hf2,
      List.take_left' (h44 _), leValue_leBytes_mod, Nat.mod_eq_of_lt (by omega)]
  have hnp4 : leValue (((magicBytes ++ (leBytes 2 1 ++ (leBytes 2 0 ++
      (leBytes 4 f.ctx.length ++
      (leBytes 4 f.n_points ++ (leBytes 4 f.segments.length ++ (leBytes 4 0 ++
      (leBytes 4 0 ++ (f.ctx ++ (tbl.flatten ++ (leBytes 4 f.coding_type ++
      (leBytes 4 0 ++ (leBytes 4 0 ++ (leBytes 4 0 ++
        blocks)))))))))))))).drop 12).take 4) = f.n_points := by
    rw [show (12 : ℕ) = 4 + 8 from rfl, drop_app 4 _ _ hm4,
      show (8 : ℕ) = 2 + 6 from rfl, drop_app 2 _ _ hv2,
      show (6 : ℕ) = 2 + 4 from rfl, drop_app 2 _ _ hf2, List.drop_left' (h44 _),
      List.take_left' (h44 _), leValue_leBytes_mod, Nat.mod_eq_of_lt (by omega)]
  have hns4 : leValue (((magicBytes ++ (leBytes 2 1 ++ (leBytes 2 0 ++
      (leBytes 4 f.ctx.length ++
      (leBytes 4 f.n_points ++ (leBytes 4 f.segments.length ++ (leBytes 4 0 ++
      (leBytes 4 0 ++ (f.ctx ++ (tbl.flatten ++ (leBytes 4 f.coding_type ++
      (leBytes 4 0 ++ (leBytes 4 0 ++ (leBytes 4 0 ++
        blocks)))))))))))))).drop 16).take 4) = f.segments.length := by
    rw [show (16 : ℕ) = 4 + 12 from rfl, drop_app 4 _ _ hm4,
      show (12 : ℕ) = 2 + 10 from rfl, drop_app 2 _ _ hv2,
      show (10 : ℕ) = 2 + 8 from rfl, drop_app 2 _ _ hf2,
      show (8 : ℕ) = 4 + 4 from rfl, drop_app 4 _ _ (h44 _), List.drop_left' (h44 _),
      List.take_left' (h44 _), leValue_leBytes_mod, Nat.mod_eq_of_lt (by omega)]
  have hrem0 : (magicBytes ++ (leBytes 2 1 ++ (leBytes 2 0 ++
      (leBytes 4 f.ctx.length ++
      (leBytes 4 f.n_points ++ (leBytes 4 f.segments.length ++ (leBytes 4 0 ++
      (leBytes 4 0 ++ (f.ctx ++ (tbl.flatten ++ (leBytes 4 f.coding_type ++
      (leBytes 4 0 ++ (leBytes 4 0 ++ (leBytes 4 0 ++
        blocks)))))))))))))).drop 28
      = f.ctx ++ (tbl.flatten ++ (leBytes 4 f.coding_type ++
        (leBytes 4 0 ++ (leBytes 4 0 ++ (leBytes 4 0 ++ blocks))))) := by
    rw [show (28 : ℕ) = 4 + 24 from rfl, drop_app 4 _ _ hm4,
      show (24 : ℕ) = 2 + 22 from rfl, drop_app 2 _ _ hv2,
      show (22 : ℕ) = 2 + 20 from rfl, drop_app 2 _ _ hf2,
      show (20 : ℕ) = 4 + 16 from rfl, drop_app 4 _ _ (h44 _),
      show (16 : ℕ) = 4 + 12 from rfl, drop_app 4 _ _ (h44 _),
      show (12 : ℕ) = 4 + 8 from rfl, drop_app 4 _ _ (h44 _),
      show (8 : ℕ) = 4 + 4 from rfl, drop_app 4 _ _ (h44 _), List.drop_left' (h44 _)]
  rw [hmagic, hver, hhl, hnp4, hns4, hrem0, hDlen]
  have g1 : ¬ 28 + f.ctx.length + tbl.flatten.length + 16 + blocks.length < 28 := by omega
  rw [if_neg g1]
  rw [if_neg (by simp)]
  rw [if_neg (by simp)]
  rw [if_neg (by omega)]
  rw [if_neg (by omega)]
  rw [if_neg (by omega)]
  rw [if_neg (by simp)]
  rw [List.take_left' rfl, List.drop_left' rfl]
  rw [if_neg (by simp [hctx])]
  rw [parseSegTable_spec f.segments tbl _ htbl]
  simp only [bind, Except.bind]
  have hR2len : (leBytes 4 f.coding_type ++ (leBytes 4 0 ++ (leBytes 4 0 ++
      (leBytes 4 0 ++ blocks)))).length = 16 + blocks.length := by
    simp only [List.length_append, leBytes_length]
    omega
  rw [hR2len]
  rw [if_neg (by omega)]
  have hctread : leValue ((leBytes 4 f.coding_type ++ (leBytes 4 0 ++ (leBytes 4 0 ++
      (leBytes 4 0 ++ blocks)))).take 4) = f.coding_type := by
    rw [List.take_left' (h44 _), leValue_leBytes_mod, Nat.mod_eq_of_lt (by omega)]
  rw [hctread]
  have hrem3 : (leBytes 4 f.coding_type ++ (leBytes 4 0 ++ (leBytes 4 0 ++
      (leBytes 4 0 ++ blocks)))).drop 16 = blocks := by
    rw [show (16 : ℕ) = 4 + 12 from rfl, drop_app 4 _ _ (h44 _),
      show (12 : ℕ) = 4 + 8 from rfl, drop_app 4 _ _ (h44 _),
      show (8 : ℕ) = 4 + 4 from rfl, drop_app 4 _ _ (h44 _), List.drop_left' (h44 _)]
  rw [hrem3]
  rw [if_neg (by rcases hct with hc | hc <;> simp [hc])]
  simp only [bind, Except.bind, pure, Except.pure]
  rcases parseBlocks f.coding_type f.segments.length f.segments.length
      (List.replicate f.segments.length []) blocks with m | qrs
  · rfl
  obtain ⟨qtable, qrem⟩ := qrs
  dsimp only
  rcases reconstructAll (List.replicate f.n_points 0)
      ((f.segments.map f64rt).zip qtable) with m | x
  · rfl
  · rfl

/-- Decoding a successfully serialized file with int32 residuals: the
result is exactly the reconstruction on the round-tripped segment table
paired with the original residual lists. -/
theorem decode_of_serialize (f : FileStruct) (data : List ℕ)
    (h : serializeFile f = .ok data)
    (hnp : f.n_points ≤ 10000000)
    (hns : f.segments.length ≤ 1000000)
    (hctx : ctxWellFormed f.ctx = true)
    (hct : f.coding_type = 0 ∨ f.coding_type = 1)
    (hq : ∀ qs ∈ f.q_resid_segments, ∀ q ∈ qs, int32Rng q)
    (hlen : f.q_resid_segments.length = f.segments.length) :
    decode_timeseries data =
      match reconstructAll (List.replicate f.n_points 0)
          ((f.segments.map f64rt).zip f.q_resid_segments) with
      | .error msg => .error msg
      | .ok x_hat =>
        .ok { values := x_hat, dt := 1, t0 := defaultT0, unit := defaultUnit } := by
  obtain ⟨blocks, hblocks, hdec⟩ := decode_serialize_layout f data h hnp hns hctx hct
  have hpb := parseBlocks_spec f.coding_type f.segments.length f.q_resid_segments 0
    (List.replicate f.segments.length []) blocks [] hblocks hq (by omega)
  rw [List.append_nil] at hpb
  rw [hlen] at hpb
  rw [hpb] at hdec
  have hwr : writeAll (List.replicate f.segments.length ([] : List ℤ)) 0
      f.q_resid_segments = f.q_resid_segments :=
    writeAll_replicate f.segments.length f.q_resid_segments hlen
  rw [hwr] at hdec
  exact hdec

/-- A tiling of `[i, n)` has at most `n - i` ranges (each is nonempty). -/
theorem tilesFrom_length (ranges : List (ℕ × ℕ)) :
    ∀ (i n : ℕ), tilesFrom i ranges n = true → i + ranges.length ≤ n := by
  induction ranges with
  | nil =>
    intro i n h
    simp [tilesFrom] at h
    simp only [List.length_nil]
    omega
  | cons r rest ih =>
    intro i n h
    obtain ⟨s, e⟩ := r
    simp only [tilesFrom, Bool.and_eq_true, decide_eq_true_eq] at h
    have := ih (e + 1) n h.2
    simp only [List.length_cons]
    omega

/-- The encoder's context JSON always passes the decoder's context check. -/
theorem ctxWellFormed_build (dt : ℚ) (t0 unit : List ℕ) :
    ctxWellFormed (build_context_json dt t0 unit) = true := by
  simp only [ctxWellFormed, Bool.or_eq_true]
  right
  rw [List.isPrefixOf_iff_prefix]
  unfold build_context_json
  simp only [List.append_assoc]
  exact List.prefix_append _ _

/-- Raw residual blocks only pack int32-range values. -/
theorem packBlocks_raw_int32 (qss : List (List ℤ)) :
    ∀ (i : ℕ) (blocks : List ℕ), packBlocks 0 i qss = .ok blocks →
    ∀ qs ∈ qss, ∀ q ∈ qs, int32Rng q := by
  induction qss with
  | nil =>
    intro i blocks _ qs hqs
    exact absurd hqs (by simp)
  | cons a tl ih =>
    intro i blocks h qs hqs
    unfold packBlocks at h
    rcases hb : packBlock 0 i a with m | b
    · rw [hb] at h
      exact absurd h (by simp [bind, Except.bind])
    rw [hb] at h
    simp only [bind, Except.bind] at h
    rcases hr : packBlocks 0 (i + 1) tl with m | r
    · rw [hr] at h
      exact absurd h (by simp [bind, Except.bind])
    rcases List.mem_cons.mp hqs with rfl | hmem
    · obtain ⟨-, -, payload, -, -, hcases⟩ := packBlock_inv 0 i qs b hb
      rcases hcases with ⟨-, hmapM, -, -⟩ | ⟨hc1, -⟩
      · exact mapM_packI32_int32 qs _ hmapM
      · exact absurd rfl hc1
    · exact ih (i + 1) r hr qs hmem

/-- With `residual_coding="raw"` the committed coding type is 0. -/
theorem encodeStruct_raw_coding (ts : TimeSeries) (o : EncOpts) (f : FileStruct)
    (h : encodeStruct ts o = .ok f) (hraw : o.residual_coding = "raw") :
    f.coding_type = 0 := by
  unfold encodeStruct at h
  dsimp only at h
  by_cases hn : ts.values.length = 0
  · rw [if_pos hn] at h
    exact absurd h (by
      simp [throw, throwThe, MonadExceptOf.throw, bind, Except.bind, pure, Except.pure])
  rw [if_neg hn] at h
  split at h
  · exact absurd h (by
      simp [throw, throwThe, MonadExceptOf.throw, bind, Except.bind, pure, Except.pure])
  simp only [bind, Except.bind, pure, Except.pure] at h
  split at h
  · rcases hR : segment_series_fixed_length ts.values.length o.segment_length with msg | ranges
    · rw [hR] at h
      exact absurd h (by simp)
    rw [hR] at h
    dsimp only at h
    rcases hP : ranges.mapM (processSegment ts.values o.predictor o.C_Q o.Q_MIN)
        with msg | pairs
    · rw [hP] at h
      exact absurd h (by simp)
    rw [hP] at h
    dsimp only at h
    have hh := Except.ok.inj h
    rw [← hh]
  split at h
  · rcases hR : segment_series_adaptive ts.values
        (if o.predictor = "auto" then 1 else predMap o.predictor)
        o.min_segment_length o.max_segment_length o.mse_threshold with msg | ranges
    · rw [hR] at h
      exact absurd h (by simp)
    rw [hR] at h
    dsimp only at h
    rcases hP : ranges.mapM (processSegment ts.values o.predictor o.C_Q o.Q_MIN)
        with msg | pairs
    · rw [hP] at h
      exact absurd h (by simp)
    rw [hP] at h
    dsimp only at h
    have hh := Except.ok.inj h
    rw [← hh]
  · exact absurd h (by
      simp [throw, throwThe, MonadExceptOf.throw, bind, Except.bind, pure, Except.pure])

/-- Full encode/decode round-trip with `"raw"` residual coding: whenever the
encoder succeeds on a series of at most 10^6 points, the decoder accepts its
output and returns a series of the same length. -/
theorem decode_encode_raw (ts : TimeSeries) (o : EncOpts) (f : FileStruct) (data : List ℕ)
    (hf : encodeStruct ts o = .ok f)
    (henc : encode_timeseries ts o = .ok data)
    (hn : ts.values.length ≤ 10000000)
    (hns : f.segments.length ≤ 1000000)
    (hraw : o.residual_coding = "raw") :
    ∃ ts' : TimeSeries, decode_timeseries data = .ok ts' ∧
      ts'.values.length = ts.values.length := by
  unfold encode_timeseries at henc
  rw [hf] at henc
  simp only [bind, Except.bind] at henc
  obtain ⟨hnp_eq, hlen_eq, htil, hpt, hQ, hpairs, hcode, hctx_eq⟩ := encodeStruct_spec ts o f hf
  have hct0 : f.coding_type = 0 := encodeStruct_raw_coding ts o f hf hraw
  obtain ⟨tbl, blocks, htbl, hblocks, -, -, -, -, -⟩ := serializeFile_inv f data henc
  have hq : ∀ qs ∈ f.q_resid_segments, ∀ q ∈ qs, int32Rng q := by
    rw [hct0] at hblocks
    exact packBlocks_raw_int32 f.q_resid_segments 0 blocks hblocks
  have hdec := decode_of_serialize f data henc (by omega) (by omega)
    (by rw [hctx_eq]; exact ctxWellFormed_build ts.dt ts.t0 ts.unit)
    hcode hq hlen_eq.symm
  have hconds : ∀ p ∈ (f.segments.map f64rt).zip f.q_resid_segments,
      ((p.1.end_idx : ℤ) - p.1.start_idx + 1 = p.2.length) ∧
      p.1.predictor_type < 3 ∧
      p.1.start_idx + p.2.length ≤ (List.replicate f.n_points (0 : ℚ)).length := by
    rw [List.zip_map_left]
    intro p hp
    obtain ⟨p0, hp0, rfl⟩ := List.mem_map.mp hp
    obtain ⟨hl, hse, hend⟩ := hpairs p0 hp0
    have hmem0 : p0.1 ∈ f.segments := (List.of_mem_zip hp0).1
    have hpt3 := hpt p0.1 hmem0
    refine ⟨?_, ?_, ?_⟩
    · show (p0.1.end_idx : ℤ) - p0.1.start_idx + 1 = p0.2.length
      omega
    · show p0.1.predictor_type < 3
      exact hpt3
    · show p0.1.start_idx + p0.2.length ≤ (List.replicate f.n_points (0 : ℚ)).length
      rw [List.length_replicate]
      omega
  obtain ⟨x', hx', hxlen, -⟩ := reconstructAll_ok
    ((f.segments.map f64rt).zip f.q_resid_segments) (List.replicate f.n_points 0) hconds
  rw [hx'] at hdec
  have hdec' : decode_timeseries data =
      .ok { values := x', dt := 1, t0 := defaultT0, unit := defaultUnit } := hdec
  refine ⟨{ values := x', dt := 1, t0 := defaultT0, unit := defaultUnit }, hdec', ?_⟩
  show x'.length = ts.values.length
  rw [hxlen, List.length_replicate, hnp_eq]

theorem fixedSegs1 : segment_series_fixed_length 1 64 = .ok [(0, 0)] := by
  unfold segment_series_fixed_length
  rw [dif_neg (by norm_num)]
  rw [fixedSegsGo]
  norm_num
  rw [fixedSegsGo]
  norm_num

theorem fixedSegs2 : segment_series_fixed_length 2 64 = .ok [(0, 1)] := by
  unfold segment_series_fixed_length
  rw [dif_neg (by norm_num)]
  rw [fixedSegsGo]
  norm_num
  rw [fixedSegsGo]
  norm_num

theorem csW : compute_stats [(0 : ℚ)] = (0, 0, 0, 0) := by
  simp [compute_stats]

theorem qrW : quantize_residuals [(0 : ℚ)] (1/2) (1/1000000) = ([0], 1/1000000) := by
  simp only [quantize_residuals]
  rw [if_neg (by simp)]
  norm_num [sqrtQ, pyRound]

theorem psW : processSegment [(0 : ℚ)] "linear" (1/2) (1/1000000) (0, 0) =
    .ok (segW, [0]) := by
  unfold processSegment
  dsimp only
  rw [show List.take (0 + 1 - 0) (List.drop 0 ([0] : List ℚ)) = [0] from rfl]
  rw [csW]
  dsimp only
  rw [if_neg (by decide)]
  simp only [bind, Except.bind, pure, Except.pure]
  unfold predMap
  rw [if_neg (by decide), if_pos rfl]
  unfold build_preds_for_segmentation
  rw [if_neg (by decide), if_pos rfl]
  simp only [bind, Except.bind, pure, Except.pure]
  norm_num [predict_linear, qrW, segW]

theorem encW : encodeStruct tsW ({} : EncOpts) = .ok fileW := by
  unfold encodeStruct tsW
  dsimp only
  rw [if_neg (by norm_num)]
  rw [if_neg (by decide)]
  simp only [bind, Except.bind, pure, Except.pure]
  simp only [if_true]
  rw [show ([(0 : ℚ)] : List ℚ).length = 1 from rfl, fixedSegs1]
  dsimp only
  rw [show List.mapM (processSegment [(0 : ℚ)] "linear" (1/2) (1/1000000)) [(0, 0)]
      = .ok [(segW, [0])] by
    rw [List.mapM_cons, psW]
    rfl]
  dsimp only
  rfl

theorem ctxlenW : (build_context_json 1 defaultT0 defaultUnit).length = 68 := by
  unfold build_context_json dtRepr ctxOpen defaultT0 defaultUnit
  rw [if_neg (by norm_num)]
  norm_num
  rw [natDigits, natDigits]
  simp

theorem serWex : ∃ d, serializeFile fileW = .ok d := ⟨_, by
  unfold serializeFile fileW
  dsimp only
  rw [packU16_ok 1 (by norm_num), packU16_ok 0 (by norm_num)]
  rw [packU32_ok (build_context_json 1 defaultT0 defaultUnit).length
    (by rw [ctxlenW]; norm_num)]
  rw [packU32_ok 1 (by norm_num), packU32_ok 0 (by norm_num)]
  rw [show List.mapM packSegmentEntry [segW] = .ok [leBytes 4 0 ++
      (leBytes 4 0 ++ (leBytes 4 1 ++ (leBytes 4 0 ++ (leBytes 4 0 ++ (leBytes 4 0 ++
      (packF64 segW.mean ++ (packF64 segW.slope ++ (packF64 segW.intercept ++
      (packF64 segW.quant_step_Q ++ packF64 segW.seed_value)))))))))] by
    rw [List.mapM_cons, packSegmentEntry_ok segW (by norm_num [segW]) (by norm_num [segW])
      (by norm_num [segW])]
    rfl]
  rw [show packBlocks 0 0 [[(0 : ℤ)]] = .ok (leBytes 4 0 ++ leBytes 4 1 ++ leBytes 4 4 ++
      (leBytes 4 ((0 : ℤ) % 2 ^ 32).toNat ++ [])) by
    unfold packBlocks packBlock
    dsimp only
    rw [if_pos rfl, packU32_ok 0 (by norm_num), packU32_ok _ (by norm_num),
      packU32_ok _ (by norm_num)]
    rw [show List.mapM packI32 [(0 : ℤ)] = .ok [leBytes 4 ((0 : ℤ) % 2 ^ 32).toNat] by
      rw [List.mapM_cons, packI32_ok 0 (by norm_num [int32Rng])]
      rfl]
    rfl]
  rfl⟩

/-- Decoding a varint-encoded value of at least `2^70` always fails with
`"Varint too long"`, wherever the bytes sit in the buffer. -/
theorem decode_varintAux_encode_fail (v : ℕ) : ∀ (pre post : List ℕ) (shift result : ℕ),
    7 ∣ shift → shift ≤ 63 → 2 ^ (70 - shift) ≤ v →
    decode_varintAux (pre ++ (encode_varint v ++ post)) pre.length shift result =
      .error "Varint too long" := by
  induction v using Nat.strong_induction_on with
  | _ v ih =>
    intro pre post shift result hdvd hsh hv
    have h128 : ¬ v < 128 := by
      have hle : (2 : ℕ) ^ 7 ≤ 2 ^ (70 - shift) := Nat.pow_le_pow_right (by norm_num) (by omega)
      norm_num at hle
      omega
    rw [encode_varint_step v h128]
    rw [decode_varintAux]
    rw [dif_neg (by simp)]
    have hb : (pre ++ ((v % 128 + 128) :: encode_varint (v / 128) ++ post)).getD pre.length 0
        = v % 128 + 128 := by
      rw [List.getD_append_right _ _ _ _ (le_refl _)]
      simp
    have hmlt : v % 128 < 128 := Nat.mod_lt v (by norm_num)
    have hb128 : ¬ ((v % 128 + 128) &&& 128 = 0) := by
      have h1 : (v % 128 + 128) &&& 2 ^ 7 = ((v % 128 + 128).testBit 7).toNat * 2 ^ 7 :=
        Nat.and_two_pow _ 7
      have h2 : (v % 128 + 128).testBit 7 = true := by
        have he : v % 128 + 128 = 2 ^ 7 + v % 128 := by omega
        rw [he, Nat.testBit_two_pow_add_eq,
          Nat.testBit_lt_two_pow (show v % 128 < 2 ^ 7 by omega)]
        rfl
      rw [h2] at h1
      norm_num at h1
      omega
    simp only [hb, if_neg hb128]
    by_cases hbig : 63 < shift + 7
    · rw [if_pos hbig]
    · rw [if_neg hbig]
      have hvd : 2 ^ (70 - (shift + 7)) ≤ v / 128 := by
        rw [Nat.le_div_iff_mul_le (show 0 < 128 by norm_num)]
        have hexp : 70 - shift = 70 - (shift + 7) + 7 := by omega
        rw [hexp, pow_add] at hv
        calc 2 ^ (70 - (shift + 7)) * 128 = 2 ^ (70 - (shift + 7)) * 2 ^ 7 := by norm_num
          _ ≤ v := hv
      have hrec := ih (v / 128) (Nat.div_lt_self (by omega) (by norm_num))
        (pre ++ [v % 128 + 128]) post (shift + 7)
        (result ||| (v % 128 + 128 &&& 127) <<< shift)
        (by omega) (by omega) hvd
      have hassoc : pre ++ [v % 128 + 128] ++ (encode_varint (v / 128) ++ post)
          = pre ++ ((v % 128 + 128) :: encode_varint (v / 128) ++ post) := by
        simp
      rw [hassoc] at hrec
      have hpre : (pre ++ [v % 128 + 128]).length = pre.length + 1 := by simp
      rw [hpre] at hrec
      exact hrec

theorem pyRound_int (n : ℤ) : pyRound (n : ℚ) = n := by
  unfold pyRound
  rw [Int.floor_intCast]
  norm_num

theorem csBig : compute_stats [-(2 ^ 69 : ℚ), 2 ^ 69] = (0, 2 ^ 70, -(2 ^ 69), 2 ^ 138) := by
  unfold compute_stats
  norm_num [List.enum]

theorem qrBig : quantize_residuals [-(2 ^ 69 : ℚ), 2 ^ 69] (1 / 2 ^ 70) 1
    = ([-(2 ^ 69), 2 ^ 69], 1) := by
  unfold quantize_residuals
  rw [if_neg (by simp)]
  dsimp only
  have hvar : ((([-(2 ^ 69 : ℚ), 2 ^ 69]).map
      (fun r => (r - ([-(2 ^ 69 : ℚ), 2 ^ 69]).sum / (([-(2 ^ 69 : ℚ), 2 ^ 69]).length : ℚ)) ^ 2)).sum /
        (([-(2 ^ 69 : ℚ), 2 ^ 69]).length : ℚ)) = ((2 ^ 69 : ℚ)) ^ 2 := by
    norm_num
  rw [hvar, sqrtQ_sq _ (by norm_num)]
  have h1 : pyRound (-(2 ^ 69 : ℚ) / max (1 / 2 ^ 70 * 2 ^ 69) 1) = -(2 ^ 69) := by
    rw [show max (1 / 2 ^ 70 * (2 ^ 69 : ℚ)) 1 = 1 by norm_num, div_one,
      show (-(2 ^ 69 : ℚ)) = ((-(2 ^ 69) : ℤ) : ℚ) by norm_num, pyRound_int]
  have h2 : pyRound ((2 ^ 69 : ℚ) / max (1 / 2 ^ 70 * 2 ^ 69) 1) = 2 ^ 69 := by
    rw [show max (1 / 2 ^ 70 * (2 ^ 69 : ℚ)) 1 = 1 by norm_num, div_one,
      show ((2 ^ 69 : ℚ)) = (((2 ^ 69) : ℤ) : ℚ) by norm_num, pyRound_int]
  rw [if_neg (by norm_num)]
  simp only [List.map_cons, List.map_nil, h1, h2]
  norm_num

theorem psBig : processSegment [-(2 ^ 69 : ℚ), 2 ^ 69] "mean" (1 / 2 ^ 70) 1 (0, 1) =
    .ok (segBig, [-(2 ^ 69), 2 ^ 69]) := by
  unfold processSegment
  dsimp only
  rw [show List.take (1 + 1 - 0) (List.drop 0 ([-(2 ^ 69 : ℚ), 2 ^ 69] : List ℚ))
    = [-(2 ^ 69 : ℚ), 2 ^ 69] from rfl]
  rw [csBig]
  dsimp only
  rw [if_neg (by decide)]
  simp only [bind, Except.bind, pure, Except.pure]
  unfold predMap
  rw [if_pos rfl]
  unfold build_preds_for_segmentation
  rw [if_pos rfl]
  simp only [bind, Except.bind, pure, Except.pure]
  rw [show ((([-(2 ^ 69 : ℚ), 2 ^ 69] : List ℚ).zip
      (predict_mean_const ([-(2 ^ 69 : ℚ), 2 ^ 69] : List ℚ).length 0)).map
      (fun p => p.1 - p.2)) = [-(2 ^ 69 : ℚ), 2 ^ 69] by
    norm_num [predict_mean_const, List.replicate]]
  rw [qrBig]
  rfl

theorem encBig : encodeStruct tsBig optsBig = .ok fileBig := by
  unfold encodeStruct tsBig optsBig
  dsimp only
  rw [if_neg (by norm_num)]
  rw [if_neg (by decide)]
  simp only [bind, Except.bind, pure, Except.pure]
  simp only [if_true]
  rw [show ([-(2 ^ 69 : ℚ), 2 ^ 69] : List ℚ).length = 2 from rfl, fixedSegs2]
  dsimp only
  rw [show List.mapM (processSegment [-(2 ^ 69 : ℚ), 2 ^ 69] "mean" (1 / 2 ^ 70) 1) [(0, 1)]
      = .ok [(segBig, [-(2 ^ 69), 2 ^ 69])] by
    rw [List.mapM_cons, psBig]
    rfl]
  dsimp only
  rw [if_neg (by decide)]
  rfl

theorem encode_varint_length_le : ∀ (k v : ℕ), 0 < k → v < 128 ^ k →
    (encode_varint v).length ≤ k := by
  intro k
  induction k with
  | zero =>
    intro v h _
    omega
  | succ k ih =>
    intro v _ hv
    by_cases h : v < 128
    · rw [encode_varint_base v h]
      simp
    · rw [encode_varint_step v h]
      simp only [List.length_cons]
      have hk : 0 < k := by
        rcases Nat.eq_zero_or_pos k with h0 | h0
        · rw [h0] at hv
          norm_num at hv
          omega
        · exact h0
      have hd : v / 128 < 128 ^ k := by
        rw [Nat.div_lt_iff_lt_mul (by norm_num)]
        rw [pow_succ] at hv
        exact hv
      have := ih (v / 128) hk hd
      omega

theorem encIntList2 (a b : ℤ) (ha : ¬ zigzag_encode a < 0) (hb : ¬ zigzag_encode b < 0) :
    encode_int_list_varint [a, b] =
    .ok (encode_varint (zigzag_encode a).toNat ++
      (encode_varint (zigzag_encode b).toNat ++ [])) := by
  show (do
      let head ← encode_varint_checked (zigzag_encode a)
      let tail ← encode_int_list_varint [b]
      pure (head ++ tail)) = _
  rw [show encode_varint_checked (zigzag_encode a)
      = .ok (encode_varint (zigzag_encode a).toNat) by
    unfold encode_varint_checked
    rw [if_neg ha]]
  rw [show encode_int_list_varint [b]
      = .ok (encode_varint (zigzag_encode b).toNat ++ []) by
    show (do
        let head ← encode_varint_checked (zigzag_encode b)
        let tail ← encode_int_list_varint ([] : List ℤ)
        pure (head ++ tail)) = _
    rw [show encode_varint_checked (zigzag_encode b)
        = .ok (encode_varint (zigzag_encode b).toNat) by
      unfold encode_varint_checked
      rw [if_neg hb]]
    rfl]
  rfl

theorem zzNegNonneg : ¬ zigzag_encode (-(2 ^ 69 : ℤ)) < 0 := by decide

theorem zzPosNonneg : ¬ zigzag_encode ((2 ^ 69 : ℤ)) < 0 := by decide

theorem zzNegLt : (zigzag_encode (-(2 ^ 69 : ℤ))).toNat < 2 ^ 70 := by decide

theorem zzPosGe : 2 ^ 70 ≤ (zigzag_encode ((2 ^ 69 : ℤ))).toNat := by decide

theorem zzNegLt11 : (zigzag_encode (-(2 ^ 69 : ℤ))).toNat < 128 ^ 11 := by decide

theorem zzPosLt11 : (zigzag_encode ((2 ^ 69 : ℤ))).toNat < 128 ^ 11 := by decide

theorem dataBigLen : (encode_varint (zigzag_encode (-(2 ^ 69 : ℤ))).toNat ++
    (encode_varint (zigzag_encode (2 ^ 69 : ℤ)).toNat ++ [])).length < 2 ^ 32 := by
  have h0 := encode_varint_length_le 11 (zigzag_encode (-(2 ^ 69 : ℤ))).toNat
    (by norm_num) zzNegLt11
  have h1 := encode_varint_length_le 11 (zigzag_encode (2 ^ 69 : ℤ)).toNat
    (by norm_num) zzPosLt11
  calc (encode_varint (zigzag_encode (-(2 ^ 69 : ℤ))).toNat ++
      (encode_varint (zigzag_encode (2 ^ 69 : ℤ)).toNat ++ [])).length
      = (encode_varint (zigzag_encode (-(2 ^ 69 : ℤ))).toNat).length +
        ((encode_varint (zigzag_encode (2 ^ 69 : ℤ)).toNat).length + 0) := by
        rw [List.length_append, List.length_append, List.length_nil]
    _ < 2 ^ 32 := by omega

theorem packBlocksVarint2 (a b : ℤ) (ha : ¬ zigzag_encode a < 0)
    (hb : ¬ zigzag_encode b < 0)
    (hlen : (encode_varint (zigzag_encode a).toNat ++
      (encode_varint (zigzag_encode b).toNat ++ [])).length < 2 ^ 32) :
    packBlocks 1 0 [[a, b]] =
    .ok (leBytes 4 0 ++ (leBytes 4 2 ++
      (leBytes 4 (encode_varint (zigzag_encode a).toNat ++
        (encode_varint (zigzag_encode b).toNat ++ [])).length ++
      (encode_varint (zigzag_encode a).toNat ++
        (encode_varint (zigzag_encode b).toNat ++ []))))) := by
  unfold packBlocks packBlock
  dsimp only
  rw [if_neg (by norm_num)]
  rw [encIntList2 a b ha hb]
  simp only [bind, Except.bind]
  rw [packU32_ok 0 (by norm_num), packU32_ok _ (by norm_num),
    packU32_ok _ hlen]
  simp only [bind, Except.bind, pure, Except.pure]
  rw [show packBlocks 1 1 ([] : List (List ℤ)) = .ok [] from rfl]
  simp only [bind, Except.bind, pure, Except.pure, Except.ok.injEq]
  simp only [List.append_assoc, List.append_nil]
  rw [show ([a, b] : List ℤ).length = 2 from rfl]

theorem packBlocksBig : packBlocks 1 0 [[-(2 ^ 69 : ℤ), 2 ^ 69]] =
    .ok (leBytes 4 0 ++ (leBytes 4 2 ++
      (leBytes 4 (encode_varint (zigzag_encode (-(2 ^ 69))).toNat ++
        (encode_varint (zigzag_encode (2 ^ 69)).toNat ++ [])).length ++
      (encode_varint (zigzag_encode (-(2 ^ 69))).toNat ++
        (encode_varint (zigzag_encode (2 ^ 69)).toNat ++ []))))) :=
  packBlocksVarint2 (-(2 ^ 69)) (2 ^ 69) zzNegNonneg zzPosNonneg dataBigLen

theorem parseBlocksVarintFail (a b : ℤ) (ns : ℕ) (hns : 0 < ns)
    (hv0 : (zigzag_encode a).toNat < 2 ^ 70)
    (hv1 : 2 ^ 70 ≤ (zigzag_encode b).toNat)
    (hlen : (encode_varint (zigzag_encode a).toNat ++
      (encode_varint (zigzag_encode b).toNat ++ [])).length < 2 ^ 32) :
    parseBlocks 1 ns 1 (List.replicate ns ([] : List ℤ))
      (leBytes 4 0 ++ (leBytes 4 2 ++
        (leBytes 4 (encode_varint (zigzag_encode a).toNat ++
          (encode_varint (zigzag_encode b).toNat ++ [])).length ++
        (encode_varint (zigzag_encode a).toNat ++
          (encode_varint (zigzag_encode b).toNat ++ []))))) =
      .error "Varint too long" := by
  have hA : ∀ v : ℕ, (leBytes 4 v).length = 4 := fun v => leBytes_length 4 v
  show parseBlocks 1 ns (0 + 1) _ _ = _
  rw [parseBlocks]
  rw [if_neg (by
    simp only [List.length_append, leBytes_length]
    omega)]
  dsimp only
  rw [List.take_left' (hA _), leValue_leBytes 4 0 (by norm_num)]
  rw [List.drop_left' (hA _), List.take_left' (hA _), leValue_leBytes 4 2 (by norm_num)]
  rw [show (8 : ℕ) = 4 + 4 from rfl, drop_app 4 _ _ (hA _), List.drop_left' (hA _),
    List.take_left' (hA _), leValue_leBytes_mod, Nat.mod_eq_of_lt (by
      have := hlen
      omega)]
  rw [show (12 : ℕ) = 4 + 8 from rfl, drop_app 4 _ _ (hA _),
    show (8 : ℕ) = 4 + 4 from rfl, drop_app 4 _ _ (hA _), List.drop_left' (hA _)]
  rw [if_neg (by omega)]
  rw [if_neg (by omega)]
  rw [List.take_length]
  rw [if_neg (by norm_num)]
  have hdec : decode_int_list_varint (encode_varint (zigzag_encode a).toNat ++
      (encode_varint (zigzag_encode b).toNat ++ [])) 2 = .error "Varint too long" := by
    unfold decode_int_list_varint
    show (do
      let zo ← decode_varint (encode_varint (zigzag_encode a).toNat ++
        (encode_varint (zigzag_encode b).toNat ++ [])) 0
      let rest ← decode_int_list_varintAux (encode_varint (zigzag_encode a).toNat ++
        (encode_varint (zigzag_encode b).toNat ++ [])) 1 zo.2
      pure (zigzag_decode (zo.1 : ℤ) :: rest)) = _
    have h0 := decode_varintAux_encode (zigzag_encode a).toNat []
      (encode_varint (zigzag_encode b).toNat ++ []) 0 0
      (by norm_num) (by norm_num) (by norm_num; exact hv0) (by norm_num)
    simp only [List.nil_append, List.length_nil] at h0
    unfold decode_varint
    rw [h0]
    simp only [bind, Except.bind]
    show (do
      let rest ← (do
        let zo ← decode_varintAux (encode_varint (zigzag_encode a).toNat ++
          (encode_varint (zigzag_encode b).toNat ++ []))
          (0 + (encode_varint (zigzag_encode a).toNat).length) 0 0
        let rest2 ← decode_int_list_varintAux (encode_varint (zigzag_encode a).toNat ++
          (encode_varint (zigzag_encode b).toNat ++ [])) 0 zo.2
        pure (zigzag_decode (zo.1 : ℤ) :: rest2))
      pure (zigzag_decode ((0 + (zigzag_encode a).toNat * 2 ^ 0 : ℕ) : ℤ) :: rest)) = _
    have h1 := decode_varintAux_encode_fail (zigzag_encode b).toNat
      (encode_varint (zigzag_encode a).toNat) [] 0 0
      (by norm_num) (by norm_num) (by norm_num; exact hv1)
    rw [show (0 + (encode_varint (zigzag_encode a).toNat).length)
        = (encode_varint (zigzag_encode a).toNat).length by omega]
    rw [h1]
    rfl
  rw [hdec]

theorem ok_bind {α β : Type} (x : α) (f : α → Except String β) :
    (Except.ok x >>= f : Except String β) = f x := rfl

theorem serBigEx : ∃ d, serializeFile fileBig = .ok d := ⟨_, by
  unfold serializeFile fileBig
  dsimp only
  rw [packU16_ok 1 (by norm_num), packU16_ok 0 (by norm_num)]
  rw [packU32_ok (build_context_json 1 defaultT0 defaultUnit).length
    (by rw [ctxlenW]; norm_num)]
  rw [packU32_ok 2 (by norm_num), packU32_ok 0 (by norm_num)]
  rw [show List.mapM packSegmentEntry [segBig] = .ok [leBytes 4 0 ++
      (leBytes 4 1 ++ (leBytes 4 0 ++ (leBytes 4 0 ++ (leBytes 4 0 ++ (leBytes 4 0 ++
      (packF64 segBig.mean ++ (packF64 segBig.slope ++ (packF64 segBig.intercept ++
      (packF64 segBig.quant_step_Q ++ packF64 segBig.seed_value)))))))))] by
    rw [List.mapM_cons, packSegmentEntry_ok segBig (by norm_num [segBig])
      (by norm_num [segBig]) (by norm_num [segBig])]
    rfl]
  rw [packBlocksBig]
  rfl⟩

theorem encBigEx : ∃ d, encode_timeseries tsBig optsBig = .ok d := by
  obtain ⟨d, hd⟩ := serBigEx
  refine ⟨d, ?_⟩
  unfold encode_timeseries
  rw [encBig, ok_bind]
  exact hd

theorem C3cexCore : ∃ data, encode_timeseries tsBig optsBig = .ok data ∧
    ∃ msg, decode_timeseries data = .error msg := by
  obtain ⟨data, hser⟩ := serBigEx
  have henc : encode_timeseries tsBig optsBig = .ok data := by
    unfold encode_timeseries
    rw [encBig, ok_bind]
    exact hser
  obtain ⟨blocks, hblocks, hdec⟩ := decode_serialize_layout fileBig data hser
    (by norm_num [fileBig]) (by norm_num [fileBig])
    (ctxWellFormed_build 1 defaultT0 defaultUnit) (Or.inr rfl)
  have hb2 := packBlocksBig
  rw [show packBlocks fileBig.coding_type 0 fileBig.q_resid_segments
      = packBlocks 1 0 [[-(2 ^ 69 : ℤ), 2 ^ 69]] from rfl] at hblocks
  rw [hblocks] at hb2
  have hbeq := Except.ok.inj hb2
  rw [hbeq] at hdec
  rw [show fileBig.coding_type = 1 from rfl,
    show fileBig.segments.length = 1 from rfl] at hdec
  rw [parseBlocksVarintFail (-(2 ^ 69)) (2 ^ 69) 1 (by norm_num)
    zzNegLt zzPosGe dataBigLen] at hdec
  have hfin : decode_timeseries data = .error "Varint too long" := hdec
  exact ⟨data, henc, "Varint too long", hfin⟩

/-- Top-level varint decode failure for any value of at least `2^70`. -/
theorem decode_varint_encode_fail (v : ℕ) (hv : 2 ^ 70 ≤ v) :
    decode_varint (encode_varint v) 0 = .error "Varint too long" := by
  have h := decode_varintAux_encode_fail v [] [] 0 0 (by norm_num) (by norm_num)
    (by norm_num; exact hv)
  rw [List.nil_append, List.append_nil] at h
  unfold decode_varint
  simpa using h

theorem csRW : compute_stats [(0 : ℚ), 1, 2, 6] = (9/4, 19/10, -(3/5), 83/16) := by
  unfold compute_stats
  norm_num [List.enum]

theorem predsRW : predict_random_walk [(0 : ℚ), 1, 2, 6] 0 = [0, 0, 1, 2] := by
  unfold predict_random_walk
  norm_num
  rfl

theorem qrRW : quantize_residuals [(0 : ℚ), 1, 1, 4] (1/2) (1/1000000)
    = ([0, 1, 1, 5], 3/4) := by
  unfold quantize_residuals
  rw [if_neg (by simp)]
  dsimp only
  have hvar : ((([(0 : ℚ), 1, 1, 4]).map
      (fun r => (r - ([(0 : ℚ), 1, 1, 4]).sum / (([(0 : ℚ), 1, 1, 4]).length : ℚ)) ^ 2)).sum /
        (([(0 : ℚ), 1, 1, 4]).length : ℚ)) = ((3/2 : ℚ)) ^ 2 := by
    norm_num
  rw [hvar, sqrtQ_sq _ (by norm_num)]
  rw [if_neg (by norm_num)]
  rw [show max ((1/2 : ℚ) * (3/2)) (1/1000000) = 3/4 by norm_num]
  have e0 : pyRound ((0 : ℚ) / (3/4)) = 0 := by
    unfold pyRound
    norm_num
  have e1 : pyRound ((1 : ℚ) / (3/4)) = 1 := by
    unfold pyRound
    rw [show ⌊(1 : ℚ) / (3/4)⌋ = 1 by norm_num]
    norm_num
  have e4 : pyRound ((4 : ℚ) / (3/4)) = 5 := by
    unfold pyRound
    rw [show ⌊(4 : ℚ) / (3/4)⌋ = 5 by norm_num]
    norm_num
  simp only [List.map_cons, List.map_nil, e0, e1, e4]

theorem psRW : processSegment [(0 : ℚ), 1, 2, 6] "rw" (1/2) (1/1000000) (0, 3) =
    .ok (segRW, [0, 1, 1, 5]) := by
  unfold processSegment
  dsimp only
  rw [show List.take (3 + 1 - 0) (List.drop 0 ([(0 : ℚ), 1, 2, 6] : List ℚ))
    = [(0 : ℚ), 1, 2, 6] from rfl]
  rw [csRW]
  dsimp only
  rw [if_neg (by decide)]
  simp only [bind, Except.bind, pure, Except.pure]
  unfold predMap
  rw [if_neg (by decide), if_neg (by decide)]
  unfold build_preds_for_segmentation
  rw [if_neg (by decide), if_neg (by decide), if_pos rfl]
  simp only [bind, Except.bind, pure, Except.pure]
  rw [show ([(0 : ℚ), 1, 2, 6] : List ℚ).headD 0 = 0 from rfl]
  rw [predsRW]
  rw [show ((([(0 : ℚ), 1, 2, 6] : List ℚ).zip ([0, 0, 1, 2] : List ℚ)).map
      (fun p => p.1 - p.2)) = [(0 : ℚ), 1, 1, 4] by norm_num]
  rw [qrRW]
  rfl

theorem rwLocalRW : rwLocalDecode 0 (3/4) [(0 : ℤ), 1, 1, 5] = [0, 3/4, 3/2, 21/4] := by
  unfold rwLocalDecode
  norm_num
  unfold rwLocalDecode
  norm_num
  unfold rwLocalDecode
  norm_num
  unfold rwLocalDecode
  norm_num
  unfold rwLocalDecode
  norm_num

theorem serGapEx : ∃ d, serializeFile fileGap = .ok d := ⟨_, by
  unfold serializeFile fileGap
  dsimp only
  rw [packU16_ok 1 (by norm_num), packU16_ok 0 (by norm_num)]
  rw [packU32_ok ([123, 125] : List ℕ).length (by norm_num)]
  rw [packU32_ok 2 (by norm_num), packU32_ok 0 (by norm_num)]
  rw [show List.mapM packSegmentEntry [segGap] = .ok [leBytes 4 0 ++
      (leBytes 4 0 ++ (leBytes 4 0 ++ (leBytes 4 0 ++ (leBytes 4 0 ++ (leBytes 4 0 ++
      (packF64 segGap.mean ++ (packF64 segGap.slope ++ (packF64 segGap.intercept ++
      (packF64 segGap.quant_step_Q ++ packF64 segGap.seed_value)))))))))] by
    rw [List.mapM_cons, packSegmentEntry_ok segGap (by norm_num [segGap])
      (by norm_num [segGap]) (by norm_num [segGap])]
    rfl]
  rw [show packBlocks 0 0 [[(0 : ℤ)]] = .ok (leBytes 4 0 ++ leBytes 4 1 ++ leBytes 4 4 ++
      (leBytes 4 ((0 : ℤ) % 2 ^ 32).toNat ++ [])) by
    unfold packBlocks packBlock
    dsimp only
    rw [if_pos rfl, packU32_ok 0 (by norm_num), packU32_ok _ (by norm_num),
      packU32_ok _ (by norm_num)]
    rw [show List.mapM packI32 [(0 : ℤ)] = .ok [leBytes 4 ((0 : ℤ) % 2 ^ 32).toNat] by
      rw [List.mapM_cons, packI32_ok 0 (by norm_num [int32Rng])]
      rfl]
    rfl]
  rfl⟩

theorem serPt3Ex : ∃ d, serializeFile filePt3 = .ok d := ⟨_, by
  unfold serializeFile filePt3
  dsimp only
  rw [packU16_ok 1 (by norm_num), packU16_ok 0 (by norm_num)]
  rw [packU32_ok ([123, 125] : List ℕ).length (by norm_num)]
  rw [packU32_ok 1 (by norm_num), packU32_ok 0 (by norm_num)]
  rw [show List.mapM packSegmentEntry [segPt3] = .ok [leBytes 4 0 ++
      (leBytes 4 0 ++ (leBytes 4 3 ++ (leBytes 4 0 ++ (leBytes 4 0 ++ (leBytes 4 0 ++
      (packF64 segPt3.mean ++ (packF64 segPt3.slope ++ (packF64 segPt3.intercept ++
      (packF64 segPt3.quant_step_Q ++ packF64 segPt3.seed_value)))))))))] by
    rw [List.mapM_cons, packSegmentEntry_ok segPt3 (by norm_num [segPt3])
      (by norm_num [segPt3]) (by norm_num [segPt3])]
    rfl]
  rw [show packBlocks 0 0 [[(0 : ℤ)]] = .ok (leBytes 4 0 ++ leBytes 4 1 ++ leBytes 4 4 ++
      (leBytes 4 ((0 : ℤ) % 2 ^ 32).toNat ++ [])) by
    unfold packBlocks packBlock
    dsimp only
    rw [if_pos rfl, packU32_ok 0 (by norm_num), packU32_ok _ (by norm_num),
      packU32_ok _ (by norm_num)]
    rw [show List.mapM packI32 [(0 : ℤ)] = .ok [leBytes 4 ((0 : ℤ) % 2 ^ 32).toNat] by
      rw [List.mapM_cons, packI32_ok 0 (by norm_num [int32Rng])]
      rfl]
    rfl]
  rfl⟩

theorem gapDecodes : ∃ (data : List ℕ) (ts' : TimeSeries),
    serializeFile fileGap = .ok data ∧ decode_timeseries data = .ok ts' ∧
    ts'.values.length = 2 ∧ ts'.values.getD 1 0 = 0 := by
  obtain ⟨data, hser⟩ := serGapEx
  have hdec := decode_of_serialize fileGap data hser (by norm_num [fileGap])
    (by norm_num [fileGap]) (by rfl) (Or.inl rfl)
    (by
      intro qs hqs q hq
      simp only [show fileGap.q_resid_segments = [[0]] from rfl, List.mem_singleton] at hqs
      subst hqs
      simp only [List.mem_singleton] at hq
      subst hq
      exact ⟨by norm_num, by norm_num⟩)
    rfl
  obtain ⟨x', hx', hlen', hpres⟩ := reconstructAll_ok
    ((fileGap.segments.map f64rt).zip fileGap.q_resid_segments)
    (List.replicate fileGap.n_points 0)
    (by
      intro p hp
      rw [show (fileGap.segments.map f64rt).zip fileGap.q_resid_segments
        = [(f64rt segGap, [0])] from rfl] at hp
      simp only [List.mem_singleton] at hp
      subst hp
      refine ⟨by decide, by decide, by decide⟩)
  rw [hx'] at hdec
  have hfin : decode_timeseries data =
      .ok { values := x', dt := 1, t0 := defaultT0, unit := defaultUnit } := hdec
  refine ⟨data, _, hser, hfin, ?_, ?_⟩
  · rw [show ({ values := x', dt := 1, t0 := defaultT0, unit := defaultUnit }
      : TimeSeries).values = x' from rfl, hlen']
    rfl
  · have h1 := hpres 1 (by
      intro p hp
      rw [show (fileGap.segments.map f64rt).zip fileGap.q_resid_segments
        = [(f64rt segGap, [0])] from rfl] at hp
      simp only [List.mem_singleton] at hp
      subst hp
      right
      decide)
    rw [show ({ values := x', dt := 1, t0 := defaultT0, unit := defaultUnit }
      : TimeSeries).values = x' from rfl]
    rw [List.getD_eq_getElem?_getD, h1]
    rfl

theorem pt3Rejects : ∃ data : List ℕ, serializeFile filePt3 = .ok data ∧
    ∃ msg, decode_timeseries data = .error msg := by
  obtain ⟨data, hser⟩ := serPt3Ex
  have hdec := decode_of_serialize filePt3 data hser (by norm_num [filePt3])
    (by norm_num [filePt3]) (by rfl) (Or.inl rfl)
    (by
      intro qs hqs q hq
      simp only [show filePt3.q_resid_segments = [[0]] from rfl, List.mem_singleton] at hqs
      subst hqs
      simp only [List.mem_singleton] at hq
      subst hq
      exact ⟨by norm_num, by norm_num⟩)
    rfl
  obtain ⟨msg, hmsg⟩ := reconstructAll_unknown
    ((filePt3.segments.map f64rt).zip filePt3.q_resid_segments)
    (List.replicate filePt3.n_points 0)
    ⟨(f64rt segPt3, [0]), by
      rw [show (filePt3.segments.map f64rt).zip filePt3.q_resid_segments
        = [(f64rt segPt3, [0])] from rfl]
      simp, by decide⟩
  rw [hmsg] at hdec
  exact ⟨data, hser, msg, hdec⟩

/-- Any buffer whose header field `n_points` (offset 12) exceeds 10^7 or
whose `n_segments` (offset 16) exceeds 10^6 is rejected by the decoder. -/
theorem decode_hostile_header (data : List ℕ)
    (h : 10000000 < leValue ((data.drop 12).take 4) ∨
      1000000 < leValue ((data.drop 16).take 4)) :
    ∃ msg, decode_timeseries data = .error msg := by
  unfold decode_timeseries
  dsimp only
  by_cases h1 : data.length < 28
  · rw [if_pos h1]
    exact ⟨_, rfl⟩
  rw [if_neg h1]
  by_cases h2 : data.take 4 ≠ magicBytes
  · rw [if_pos h2]
    exact ⟨_, rfl⟩
  rw [if_neg h2]
  by_cases h3 : leValue ((data.drop 4).take 2) ≠ 1
  · rw [if_pos h3]
    exact ⟨_, rfl⟩
  rw [if_neg h3]
  by_cases h4 : 10000000 < leValue ((data.drop 12).take 4)
  · rw [if_pos h4]
    exact ⟨_, rfl⟩
  rw [if_neg h4]
  have h5 : 1000000 < leValue ((data.drop 16).take 4) := by
    rcases h with h | h
    · exact absurd h h4
    · exact h
  rw [if_pos h5]
  exact ⟨_, rfl⟩

/-- The CLI metadata reader applies the same hostile-header rejection. -/
theorem reader_hostile_header (data : List ℕ)
    (h : 10000000 < leValue ((data.drop 12).take 4) ∨
      1000000 < leValue ((data.drop 16).take 4)) :
    ∃ msg, read_lsg2_metadata_and_segments data = .error msg := by
  unfold read_lsg2_metadata_and_segments
  dsimp only
  by_cases h1 : data.length < 28
  · rw [if_pos h1]
    exact ⟨_, rfl⟩
  rw [if_neg h1]
  by_cases h2 : data.take 4 ≠ magicBytes
  · rw [if_pos h2]
    exact ⟨_, rfl⟩
  rw [if_neg h2]
  by_cases h3 : leValue ((data.drop 4).take 2) ≠ 1
  · rw [if_pos h3]
    exact ⟨_, rfl⟩
  rw [if_neg h3]
  by_cases h4 : 10000000 < leValue ((data.drop 12).take 4)
  · rw [if_pos h4]
    exact ⟨_, rfl⟩
  rw [if_neg h4]
  have h5 : 1000000 < leValue ((data.drop 16).take 4) := by
    rcases h with h | h
    · exact absurd h h4
    · exact h
  rw [if_pos h5]
  exact ⟨_, rfl⟩

/-- The MSE probe always succeeds for a known predictor type. -/
theorem adaptiveProbeMse_ok (values : List ℚ) (pt : ℕ) (hpt : pt < 3) (start e : ℕ) :
    ∃ m, adaptiveProbeMse values pt start e = .ok m := by
  unfold adaptiveProbeMse
  dsimp only
  rcases hst : compute_stats ((values.drop start).take (e + 1 - start)) with ⟨m, sl, ic, vv⟩
  dsimp only
  obtain ⟨preds, hp⟩ := build_preds_ok_of_lt ((values.drop start).take (e + 1 - start))
    pt m sl ic (((values.drop start).take (e + 1 - start)).headD 0) hpt
  rw [hp, ok_bind]
  exact ⟨_, rfl⟩

/-- The inner extension loop never fails for a known predictor type. -/
theorem adaptiveExtend_ok (values : List ℚ) (pt maxL : ℕ) (thr : ℚ) (start : ℕ)
    (hpt : pt < 3) :
    ∀ (k best e : ℕ) (hbe : best ≤ e), values.length - e ≤ k →
      ∃ r, adaptiveExtend values pt maxL thr start best e hbe = .ok r := by
  intro k
  induction k with
  | zero =>
    intro best e hbe hk
    obtain ⟨m, hm⟩ := adaptiveProbeMse_ok values pt hpt start e
    rw [adaptiveExtend, hm]
    dsimp only
    by_cases hmse : m ≤ thr
    · rw [if_pos hmse, dif_neg (by omega)]
      exact ⟨_, rfl⟩
    · rw [if_neg hmse]
      exact ⟨_, rfl⟩
  | succ k ih =>
    intro best e hbe hk
    obtain ⟨m, hm⟩ := adaptiveProbeMse_ok values pt hpt start e
    rw [adaptiveExtend, hm]
    dsimp only
    by_cases hmse : m ≤ thr
    · rw [if_pos hmse]
      by_cases hext : e + 1 < values.length ∧ e - start + 1 < maxL
      · rw [dif_pos hext]
        obtain ⟨r2, hr2⟩ := ih e (e + 1) (by omega) (by omega)
        rw [hr2]
        exact ⟨_, rfl⟩
      · rw [dif_neg hext]
        exact ⟨_, rfl⟩
    · rw [if_neg hmse]
      exact ⟨_, rfl⟩

/-- What the inner extension loop returns: either the very first probe fails
and the incoming `best` is kept, or every probe from `e` up to the result
passes and the loop stopped for one of the three loop-exit reasons. -/
theorem adaptiveExtend_char (values : List ℚ) (pt maxL : ℕ) (thr : ℚ) (start : ℕ) :
    ∀ (k best e : ℕ) (hbe : best ≤ e) (r : { b : ℕ // best ≤ b }),
      values.length - e ≤ k → e < values.length →
      adaptiveExtend values pt maxL thr start best e hbe = .ok r →
      (r.1 = best ∧ probeOk values pt thr start e = false) ∨
      (e ≤ r.1 ∧
        (∀ e', e ≤ e' → e' ≤ r.1 → probeOk values pt thr start e' = true) ∧
        (¬ (r.1 + 1 < values.length ∧ r.1 - start + 1 < maxL) ∨
          probeOk values pt thr start (r.1 + 1) = false)) := by
  intro k
  induction k with
  | zero =>
    intro best e hbe r hk he hr
    omega
  | succ k ih =>
    intro best e hbe r hk he hr
    rw [adaptiveExtend] at hr
    rcases hprobe : adaptiveProbeMse values pt start e with msg | mse
    · rw [hprobe] at hr
      exact absurd hr (by simp)
    rw [hprobe] at hr
    dsimp only at hr
    have hpOk : probeOk values pt thr start e = decide (mse ≤ thr) := by
      unfold probeOk
      rw [hprobe]
    by_cases hmse : mse ≤ thr
    · rw [if_pos hmse] at hr
      by_cases hext : e + 1 < values.length ∧ e - start + 1 < maxL
      · rw [dif_pos hext] at hr
        rcases hrec : adaptiveExtend values pt maxL thr start e (e + 1) (by omega)
          with msg | b2
        · rw [hrec] at hr
          exact absurd hr (by simp)
        rw [hrec] at hr
        obtain ⟨b, hb⟩ := b2
        simp only [Except.ok.injEq] at hr
        have hrc := ih e (e + 1) (by omega) ⟨b, hb⟩ (by omega) hext.1 hrec
        rw [← hr]
        dsimp only at hrc ⊢
        rcases hrc with ⟨hbeq, hpf⟩ | ⟨hle, hall, hstop⟩
        · right
          refine ⟨by omega, ?_, ?_⟩
          · intro e' h1 h2
            have : e' = e := by omega
            subst this
            rw [hpOk]
            simp [hmse]
          · right
            rw [hbeq]
            exact hpf
        · right
          refine ⟨by omega, ?_, hstop⟩
          intro e' h1 h2
          by_cases he' : e' = e
          · subst he'
            rw [hpOk]
            simp [hmse]
          · exact hall e' (by omega) h2
      · rw [dif_neg hext] at hr
        simp only [Except.ok.injEq] at hr
        rw [← hr]
        dsimp only
        right
        refine ⟨le_refl e, ?_, Or.inl hext⟩
        intro e' h1 h2
        have : e' = e := by omega
        subst this
        rw [hpOk]
        simp [hmse]
    · rw [if_neg hmse] at hr
      simp only [Except.ok.injEq] at hr
      rw [← hr]
      dsimp only
      left
      refine ⟨rfl, ?_⟩
      rw [hpOk]
      simp [hmse]

/-- The outer loop never fails for a known predictor type. -/
theorem adaptiveGo_ok (values : List ℚ) (pt minL maxL : ℕ) (thr : ℚ)
    (hmin : 0 < minL) (hpt : pt < 3) :
    ∀ (k i : ℕ), values.length - i ≤ k →
      ∃ ranges, adaptiveGo values pt minL maxL thr hmin i = .ok ranges := by
  intro k
  induction k with
  | zero =>
    intro i hk
    rw [adaptiveGo, dif_neg (by omega)]
    exact ⟨_, rfl⟩
  | succ k ih =>
    intro i hk
    by_cases hi : i < values.length
    · rw [adaptiveGo, dif_pos hi]
      dsimp only
      split
      · rename_i msg hext
        obtain ⟨r, hr⟩ := adaptiveExtend_ok values pt maxL thr i hpt values.length
          (min (i + minL) values.length - 1) (min (i + minL) values.length - 1)
          (le_refl _) (by omega)
        exact absurd (hr.symm.trans hext) (by simp)
      rename_i bb hext
      have hblt : bb.1 < values.length := adaptiveExtend_lt values pt maxL thr i
        values.length _ _ _ bb (by omega) (by omega) hext
      have hbge : min (i + minL) values.length - 1 ≤ bb.1 := bb.2
      obtain ⟨rest, hrest⟩ := ih (bb.1 + 1) (by omega)
      rw [hrest]
      exact ⟨_, rfl⟩
    · rw [adaptiveGo, dif_neg hi]
      exact ⟨_, rfl⟩

/-- Every emitted range obeys the greedy per-segment contract: initial end
`min(start + min_len, n) - 1`, extension exactly while probes pass, and a
loop-exit reason at the final end. -/
theorem adaptiveGo_char (values : List ℚ) (pt minL maxL : ℕ) (thr : ℚ)
    (hmin : 0 < minL) :
    ∀ (k i : ℕ) (ranges : List (ℕ × ℕ)), values.length - i ≤ k →
      adaptiveGo values pt minL maxL thr hmin i = .ok ranges →
      ∀ sb ∈ ranges,
        ((sb.2 = min (sb.1 + minL) values.length - 1 ∧
          probeOk values pt thr sb.1 (min (sb.1 + minL) values.length - 1) = false) ∨
         (min (sb.1 + minL) values.length - 1 ≤ sb.2 ∧
          (∀ e', min (sb.1 + minL) values.length - 1 ≤ e' → e' ≤ sb.2 →
            probeOk values pt thr sb.1 e' = true) ∧
          (¬ (sb.2 + 1 < values.length ∧ sb.2 - sb.1 + 1 < maxL) ∨
            probeOk values pt thr sb.1 (sb.2 + 1) = false))) := by
  intro k
  induction k with
  | zero =>
    intro i ranges hk hr sb hsb
    rw [adaptiveGo, dif_neg (by omega)] at hr
    simp only [Except.ok.injEq] at hr
    rw [← hr] at hsb
    exact absurd hsb (by simp)
  | succ k ih =>
    intro i ranges hk hr sb hsb
    by_cases hi : i < values.length
    · rw [adaptiveGo, dif_pos hi] at hr
      have he0 : i ≤ min (i + minL) values.length - 1 := by omega
      have he0lt : min (i + minL) values.length - 1 < values.length := by omega
      dsimp only at hr
      split at hr
      · exact absurd hr (by simp)
      rename_i b2 hext
      have hblt : b2.1 < values.length :=
        adaptiveExtend_lt values pt maxL thr i values.length _ _ (le_refl _)
          b2 (by omega) he0lt hext
      have hbge : i ≤ b2.1 := le_trans he0 b2.2
      split at hr
      · exact absurd hr (by simp)
      rename_i rest hrec
      simp only [Except.ok.injEq] at hr
      rw [← hr] at hsb
      have hchar := adaptiveExtend_char values pt maxL thr i values.length _ _
        (le_refl _) b2 (by omega) he0lt hext
      rcases List.mem_cons.mp hsb with rfl | hmem
      · dsimp only
        rcases hchar with ⟨hbq, hpf⟩ | ⟨hle, hall, hstop⟩
        · left
          exact ⟨hbq, hpf⟩
        · right
          exact ⟨hle, hall, hstop⟩
      · exact ih (b2.1 + 1) rest (by omega) hrec sb hmem
    · rw [adaptiveGo, dif_neg hi] at hr
      simp only [Except.ok.injEq] at hr
      rw [← hr] at hsb
      exact absurd hsb (by simp)

/-- The adaptive segmenter fails exactly on invalid parameters (for a
non-empty input and a known predictor type). -/
theorem adaptive_error_iff (values : List ℚ) (pt : ℕ) (minL maxL : ℤ) (thr : ℚ)
    (hvals : values ≠ []) (hpt : pt < 3) :
    (∃ msg, segment_series_adaptive values pt minL maxL thr = .error msg) ↔
      (minL ≤ 0 ∨ maxL < minL) := by
  unfold segment_series_adaptive
  rw [if_neg (by simpa using hvals)]
  constructor
  · intro hmsg
    obtain ⟨msg, hmsg⟩ := hmsg
    by_contra hpar
    rw [dif_neg hpar] at hmsg
    obtain ⟨ranges, hr⟩ := adaptiveGo_ok values pt minL.toNat maxL.toNat thr
      (by omega) hpt values.length 0 (by omega)
    exact absurd (hr.symm.trans hmsg) (by simp)
  · intro hpar
    rw [dif_pos hpar]
    exact ⟨_, rfl⟩

theorem encWex : ∃ d, encode_timeseries tsW ({} : EncOpts) = .ok d := by
  obtain ⟨d, hd⟩ := serWex
  refine ⟨d, ?_⟩
  unfold encode_timeseries
  rw [encW, ok_bind]
  exact hd

/-- A successful encode splits into a successful struct build and a
successful serialization of it. -/
theorem encode_split (ts : TimeSeries) (o : EncOpts) (data : List ℕ)
    (henc : encode_timeseries ts o = .ok data) :
    ∃ f, encodeStruct ts o = .ok f ∧ serializeFile f = .ok data := by
  unfold encode_timeseries at henc
  rcases hf : encodeStruct ts o with m | f
  · rw [hf] at henc
    exact absurd henc (by simp [bind, Except.bind])
  rw [hf] at henc
  simp only [bind, Except.bind] at henc
  exact ⟨f, rfl, henc⟩

/-- The open-loop shape of `predict_random_walk`: seed first, then the
ORIGINAL previous samples. -/
theorem predict_random_walk_getD (x : List ℚ) (seed : ℚ) (hx : x ≠ []) :
    (predict_random_walk x seed).length = x.length ∧
    (predict_random_walk x seed).getD 0 0 = seed ∧
    (∀ i, 1 ≤ i → i < x.length →
      (predict_random_walk x seed).getD i 0 = x.getD (i - 1) 0) := by
  have hlen : x.length ≠ 0 := by simpa using hx
  unfold predict_random_walk
  rw [if_neg hlen]
  refine ⟨by simp; omega, rfl, ?_⟩
  intro i h1 h2
  have hi1 : i - 1 < x.length - 1 := by omega
  rw [List.getD_eq_getElem?_getD]
  rw [show (seed :: (List.range (x.length - 1)).map (fun i => x.getD i 0))[i]?
      = ((List.range (x.length - 1)).map (fun i => x.getD i 0))[i - 1]? by
    rcases i with _ | j
    · omega
    · simp]
  rw [List.getElem?_map, List.getElem?_range hi1]
  rfl

/-! # Claim theorems -/

/-- C1 (counterexample): on the segment `[0, 1, 2, 6]` encoded with the
random-walk predictor, the encoder's prediction for position 3 is the
ORIGINAL previous sample `x[2] = 2`, while the reconstructed previous
sample (decoder parity) is `3/2`; the spec's closed-loop contract
("prediction for i equals the reconstructed x̂(i-1)") is violated by the
code. -/
theorem C1_counterexample :
    processSegment [(0 : ℚ), 1, 2, 6] "rw" (1/2) (1/1000000) (0, 3)
      = .ok (segRW, [0, 1, 1, 5]) ∧
    (predict_random_walk [(0 : ℚ), 1, 2, 6] 0).getD 3 0 = 2 ∧
    (rwLocalDecode segRW.seed_value segRW.quant_step_Q [0, 1, 1, 5]).getD 2 0 = 3/2 ∧
    (predict_random_walk [(0 : ℚ), 1, 2, 6] 0).getD 3 0
      ≠ (rwLocalDecode segRW.seed_value segRW.quant_step_Q [0, 1, 1, 5]).getD 2 0 := by
  refine ⟨psRW, ?_, ?_, ?_⟩
  · rw [predsRW]
    rfl
  · rw [show segRW.seed_value = 0 from rfl, show segRW.quant_step_Q = 3/4 from rfl,
      rwLocalRW]
    rfl
  · rw [predsRW, show segRW.seed_value = 0 from rfl,
      show segRW.quant_step_Q = 3/4 from rfl, rwLocalRW]
    norm_num

/-- C1 (amended): the encoder's random-walk prediction is OPEN-LOOP — for
every nonempty input, `preds[0]` is the seed and `preds[i] = x[i-1]`, the
original (not reconstructed) previous sample; hence the committed residual
for position `i ≥ 1` is `x[i] - x[i-1]`. -/
theorem C1_amended (x : List ℚ) (seed : ℚ) (hx : x ≠ []) :
    (predict_random_walk x seed).length = x.length ∧
    (predict_random_walk x seed).getD 0 0 = seed ∧
    (∀ i, 1 ≤ i → i < x.length →
      (predict_random_walk x seed).getD i 0 = x.getD (i - 1) 0) :=
  predict_random_walk_getD x seed hx

/-- C1 (witness): the amended statement at `x = [5, 7, 9]`, `seed = 5`. -/
theorem C1_amended_witness :
    (predict_random_walk [(5 : ℚ), 7, 9] 5).length = ([(5 : ℚ), 7, 9] : List ℚ).length ∧
    (predict_random_walk [(5 : ℚ), 7, 9] 5).getD 0 0 = 5 ∧
    (∀ i, 1 ≤ i → i < ([(5 : ℚ), 7, 9] : List ℚ).length →
      (predict_random_walk [(5 : ℚ), 7, 9] 5).getD i 0
        = ([(5 : ℚ), 7, 9] : List ℚ).getD (i - 1) 0) :=
  C1_amended [(5 : ℚ), 7, 9] 5 (by simp)

/-- C2 (counterexample): a structurally valid LSG2 byte buffer whose single
segment covers only index 0 of `n_points = 2` decodes SUCCESSFULLY — the
uncovered index 1 silently keeps the initial value 0 and no gap/overlap
error is raised, contradicting the claimed malformed-file rejection. -/
theorem C2_counterexample : ∃ (data : List ℕ) (ts' : TimeSeries),
    serializeFile fileGap = .ok data ∧
    decode_timeseries data = .ok ts' ∧
    tiles (fileGap.segments.map (fun sg => (sg.start_idx, sg.end_idx)))
      fileGap.n_points = false ∧
    ts'.values.length = 2 ∧ ts'.values.getD 1 0 = 0 := by
  obtain ⟨data, ts', h1, h2, h3, h4⟩ := gapDecodes
  exact ⟨data, ts', h1, h2, by decide, h3, h4⟩

/-- C2 (amended): the decoder performs NO tiling check — reconstruction
succeeds for every segment table that merely satisfies the per-segment
consistency checks (declared length matches the residual count, known
predictor type, writes in bounds), regardless of gaps or overlaps, and any
index covered by no segment keeps its initial value. -/
theorem C2_amended (pairs : List (SegmentEntry × List ℤ)) (x_hat : List ℚ)
    (h : ∀ p ∈ pairs, ((p.1.end_idx : ℤ) - p.1.start_idx + 1 = p.2.length) ∧
      p.1.predictor_type < 3 ∧ p.1.start_idx + p.2.length ≤ x_hat.length) :
    ∃ x', reconstructAll x_hat pairs = .ok x' ∧ x'.length = x_hat.length ∧
      ∀ j, (∀ p ∈ pairs, j < p.1.start_idx ∨ p.1.start_idx + p.2.length ≤ j) →
        x'[j]? = x_hat[j]? :=
  reconstructAll_ok pairs x_hat h

/-- C2 (witness): the amended statement at the one-segment gap table. -/
theorem C2_amended_witness :
    ∃ x', reconstructAll [(0 : ℚ), 0] [(segGap, [0])] = .ok x' ∧
      x'.length = ([(0 : ℚ), 0] : List ℚ).length ∧
      ∀ j, (∀ p ∈ [(segGap, [(0 : ℤ)])], j < p.1.start_idx ∨
          p.1.start_idx + p.2.length ≤ j) →
        x'[j]? = ([(0 : ℚ), 0] : List ℚ)[j]? :=
  C2_amended [(segGap, [0])] [(0 : ℚ), 0] (by
    intro p hp
    simp only [List.mem_singleton] at hp
    subst hp
    refine ⟨by decide, by decide, by decide⟩)

/-- C3 (counterexample): a concrete 2-point series and valid option
combination (`"mean"` predictor, `"varint"` residual coding,
`C_Q = 2^-70`, `Q_MIN = 1`) on which `encode_timeseries` succeeds but
`decode_timeseries` rejects the encoder's own output (the quantized
residual `2^69` ZigZag-encodes to a value of at least `2^70`, which the
varint decoder's 10-byte guard refuses), refuting the universal round-trip
claim. -/
theorem C3_counterexample : ∃ data, encode_timeseries tsBig optsBig = .ok data ∧
    ∃ msg, decode_timeseries data = .error msg :=
  C3cexCore

/-- C3 (amended): the round-trip law holds for `"raw"` residual coding
whenever the decoder's two hostility guards pass on the encoder's own
output — the series has at most 10^7 points and the segment table the
encoder built has at most 10^6 entries: decoding then succeeds and
returns exactly as many values as were encoded. (Both guards bite:
varint coding fails outright per the counterexample, and past 10^6
segments the decoder rejects its own output with "Suspicious
n_segments".) -/
theorem C3_amended (ts : TimeSeries) (o : EncOpts) (f : FileStruct) (data : List ℕ)
    (hf : encodeStruct ts o = .ok f)
    (henc : encode_timeseries ts o = .ok data)
    (hn : ts.values.length ≤ 10000000)
    (hns : f.segments.length ≤ 1000000)
    (hraw : o.residual_coding = "raw") :
    ∃ ts' : TimeSeries, decode_timeseries data = .ok ts' ∧
      ts'.values.length = ts.values.length :=
  decode_encode_raw ts o f data hf henc hn hns hraw

/-- C3 (witness): the amended round-trip at the one-point series with all
default options. -/
theorem C3_amended_witness : ∃ (data : List ℕ) (ts' : TimeSeries),
    encode_timeseries tsW ({} : EncOpts) = .ok data ∧
    decode_timeseries data = .ok ts' ∧ ts'.values.length = tsW.values.length := by
  obtain ⟨d, hd⟩ := encWex
  obtain ⟨ts', h1, h2⟩ := C3_amended tsW {} fileW d encW hd (by norm_num [tsW])
    (by norm_num [fileW]) rfl
  exact ⟨d, ts', hd, h1, h2⟩

/-- C4 (counterexample): the varint round-trip law fails at `u = 2^70` —
encoding succeeds but the decoder's `shift > 63` guard rejects the bytes,
so "for all non-negative u" is false. -/
theorem C4_counterexample :
    decode_varint (encode_varint (2 ^ 70)) 0 = .error "Varint too long" :=
  decode_varint_encode_fail (2 ^ 70) (le_refl _)

/-- C4 (amended): ZigZag round-trips on the signed 32-bit range, and the
varint round-trip holds for every value BELOW `2^70` (the widest value the
decoder's 10-byte guard admits), consuming exactly the encoded bytes. -/
theorem C4_amended :
    (∀ n : ℤ, int32Rng n → zigzag_decode (zigzag_encode n) = n) ∧
    (∀ u : ℕ, u < 2 ^ 70 → ∀ post : List ℕ,
      decode_varint (encode_varint u ++ post) 0 = .ok (u, (encode_varint u).length)) :=
  ⟨fun n hn => zigzag_decode_encode n hn,
   fun u hu post => decode_varint_encode u post hu⟩

/-- C4 (witness): the amended laws at `n = -5` and `u = 300`. -/
theorem C4_amended_witness :
    zigzag_decode (zigzag_encode (-5)) = -5 ∧
    decode_varint (encode_varint 300 ++ []) 0 = .ok (300, (encode_varint 300).length) :=
  ⟨C4_amended.1 (-5) (by norm_num [int32Rng]), C4_amended.2 300 (by norm_num) []⟩

/-- C5: the quantizer commits `Q = max(C_Q·σ, Q_MIN)` (population standard
deviation, divisor `L`) with the `Q = 0 → Q_MIN` substitution, returns
`([], Q_MIN)` on an empty residual list, and under `0 < Q_MIN` the
committed `Q` — and hence every committed segment `quant_step_Q` — is
strictly positive. -/
theorem C5_theorem (rs : List ℚ) (C_Q Q_MIN : ℚ) :
    quantize_residuals [] C_Q Q_MIN = ([], Q_MIN) ∧
    (rs ≠ [] → quantize_residuals rs C_Q Q_MIN =
      (let sigma := sqrtQ ((rs.map (fun r => (r - rs.sum / rs.length) ^ 2)).sum / rs.length)
       let Q0 := max (C_Q * sigma) Q_MIN
       let Q := if Q0 = 0 then Q_MIN else Q0
       (rs.map (fun r => pyRound (r / Q)), Q))) ∧
    (0 < Q_MIN → 0 < (quantize_residuals rs C_Q Q_MIN).2) ∧
    (∀ (ts : TimeSeries) (o : EncOpts) (f : FileStruct), encodeStruct ts o = .ok f →
      0 < o.Q_MIN → ∀ sg ∈ f.segments, 0 < sg.quant_step_Q) :=
  ⟨quantize_residuals_empty C_Q Q_MIN,
   fun h => quantize_residuals_spec rs C_Q Q_MIN h,
   fun h => quantize_residuals_Q_pos rs C_Q Q_MIN h,
   fun ts o f hf hq => (encodeStruct_spec ts o f hf).2.2.2.2.1 hq⟩

/-- C5 (witness): the quantizer law at `rs = [0, 1, 1, 4]`, `C_Q = 1/2`,
`Q_MIN = 10^-6`, discharging the nonemptiness and positivity hypotheses. -/
theorem C5_witness :
    quantize_residuals [(0 : ℚ), 1, 1, 4] (1/2) (1/1000000) =
      (let sigma := sqrtQ ((([(0 : ℚ), 1, 1, 4]).map
        (fun r => (r - ([(0 : ℚ), 1, 1, 4]).sum / (([(0 : ℚ), 1, 1, 4]).length : ℚ)) ^ 2)).sum
          / (([(0 : ℚ), 1, 1, 4]).length : ℚ))
       let Q0 := max ((1/2 : ℚ) * sigma) (1/1000000)
       let Q := if Q0 = 0 then (1/1000000 : ℚ) else Q0
       (([(0 : ℚ), 1, 1, 4]).map (fun r => pyRound (r / Q)), Q)) ∧
    0 < (quantize_residuals [(0 : ℚ), 1, 1, 4] (1/2) (1/1000000)).2 :=
  ⟨(C5_theorem [(0 : ℚ), 1, 1, 4] (1/2) (1/1000000)).2.1 (by simp),
   (C5_theorem [(0 : ℚ), 1, 1, 4] (1/2) (1/1000000)).2.2.1 (by norm_num)⟩

/-- C6: the segment table of every successfully encoded file tiles
`[0, n_points)` exactly — first start 0, inclusive nonempty ranges, each
start one past the previous end, last end `n_points - 1` — in both
segmentation modes, with `n_points` the input length. -/
theorem C6_theorem (ts : TimeSeries) (o : EncOpts) (data : List ℕ)
    (henc : encode_timeseries ts o = .ok data) :
    ∃ f, encodeStruct ts o = .ok f ∧
      tiles (f.segments.map (fun sg => (sg.start_idx, sg.end_idx))) f.n_points = true ∧
      f.n_points = ts.values.length := by
  obtain ⟨f, hf, -⟩ := encode_split ts o data henc
  obtain ⟨h1, -, h3, -⟩ := encodeStruct_spec ts o f hf
  exact ⟨f, hf, h3, h1⟩

/-- C6 (witness): the tiling invariant on the encoded one-point series. -/
theorem C6_witness : ∃ f, encodeStruct tsW ({} : EncOpts) = .ok f ∧
    tiles (f.segments.map (fun sg => (sg.start_idx, sg.end_idx))) f.n_points = true ∧
    f.n_points = tsW.values.length := by
  obtain ⟨d, hd⟩ := encWex
  exact C6_theorem tsW {} d hd

/-- C7 (counterexample): with the valid options `C_Q = 2^-70`, `Q_MIN = 1`
the encoder commits the quantized residual `2^69`, which is NOT
representable as a signed 32-bit integer — the claim fails for
user-supplied positive `C_Q`/`Q_MIN`. -/
theorem C7_counterexample : ∃ f, encodeStruct tsBig optsBig = .ok f ∧
    ∃ qs ∈ f.q_resid_segments, ∃ q ∈ qs, ¬ int32Rng q := by
  refine ⟨fileBig, encBig, [-(2 ^ 69), 2 ^ 69], by simp [fileBig], 2 ^ 69, by simp, ?_⟩
  intro h
  obtain ⟨-, h2⟩ := h
  norm_num at h2

/-- C7 (amended): with `"raw"` residual coding the property holds — a
successful encode forces every committed quantized residual into the
signed 32-bit range (`struct.pack("<i", ·)` raises on anything else rather
than wrapping), and `packI32` rejects every out-of-range value. -/
theorem C7_amended (ts : TimeSeries) (o : EncOpts) (data : List ℕ)
    (henc : encode_timeseries ts o = .ok data)
    (hraw : o.residual_coding = "raw") :
    (∀ f, encodeStruct ts o = .ok f →
      ∀ qs ∈ f.q_resid_segments, ∀ q ∈ qs, int32Rng q) ∧
    (∀ q : ℤ, ¬ int32Rng q → packI32 q = .error "argument out of range") := by
  constructor
  · intro f hf
    obtain ⟨f0, hf0, hser⟩ := encode_split ts o data henc
    rw [hf0] at hf
    have hfe : f0 = f := Except.ok.inj hf
    subst hfe
    have hct0 : f0.coding_type = 0 := encodeStruct_raw_coding ts o f0 hf0 hraw
    obtain ⟨tbl, blocks, -, hblocks, -, -, -, -, -⟩ := serializeFile_inv f0 data hser
    rw [hct0] at hblocks
    exact packBlocks_raw_int32 f0.q_resid_segments 0 blocks hblocks
  · intro q hq
    unfold packI32
    rw [if_neg (show ¬ (-(2 : ℤ) ^ 31 ≤ q ∧ q < 2 ^ 31) from hq)]

/-- C7 (witness): the amended statement on the encoded one-point series. -/
theorem C7_amended_witness :
    (∀ f, encodeStruct tsW ({} : EncOpts) = .ok f →
      ∀ qs ∈ f.q_resid_segments, ∀ q ∈ qs, int32Rng q) ∧
    (∀ q : ℤ, ¬ int32Rng q → packI32 q = .error "argument out of range") := by
  obtain ⟨d, hd⟩ := encWex
  exact C7_amended tsW {} d hd rfl

/-- C8: any buffer whose header declares `n_points > 10^7` or
`n_segments > 10^6` is rejected with an error by both `decode_timeseries`
and the CLI metadata reader.  (The "no proportional allocation" half of
the claim is about Python memory behaviour and is outside this model; the
check does run before the segment table or residual data is touched.) -/
theorem C8_theorem (data : List ℕ)
    (h : 10000000 < leValue ((data.drop 12).take 4) ∨
      1000000 < leValue ((data.drop 16).take 4)) :
    (∃ msg, decode_timeseries data = .error msg) ∧
    (∃ msg, read_lsg2_metadata_and_segments data = .error msg) :=
  ⟨decode_hostile_header data h, reader_hostile_header data h⟩

/-- C8 (witness): a 16-byte buffer declaring `n_points = 20,000,000` is
rejected by both paths. -/
theorem C8_witness :
    (∃ msg, decode_timeseries (List.replicate 12 0 ++ [0, 45, 49, 1]) = .error msg) ∧
    (∃ msg, read_lsg2_metadata_and_segments
      (List.replicate 12 0 ++ [0, 45, 49, 1]) = .error msg) :=
  C8_theorem (List.replicate 12 0 ++ [0, 45, 49, 1]) (Or.inl (by decide))

/-- C9: for a non-empty input and a known predictor type, the adaptive
segmenter fails exactly when `min_len < 1` or `max_len < min_len`; and on
success every emitted segment `(s, b)` starts from the initial end
`min(s + min_len, n) - 1`, is extended one index at a time exactly while
the probe MSE stays within the threshold with `e + 1 < n` and length
`< max_len`, and the emitted ranges are contiguous (each next segment
resumes at the previous best end plus one). -/
theorem C9_theorem (values : List ℚ) (pt : ℕ) (minL maxL : ℤ) (thr : ℚ)
    (hvals : values ≠ []) (hpt : pt < 3) :
    ((∃ msg, segment_series_adaptive values pt minL maxL thr = .error msg) ↔
      (minL ≤ 0 ∨ maxL < minL)) ∧
    (∀ ranges, segment_series_adaptive values pt minL maxL thr = .ok ranges →
      tiles ranges values.length = true ∧
      ∀ sb ∈ ranges,
        ((sb.2 = min (sb.1 + minL.toNat) values.length - 1 ∧
          probeOk values pt thr sb.1 (min (sb.1 + minL.toNat) values.length - 1)
            = false) ∨
         (min (sb.1 + minL.toNat) values.length - 1 ≤ sb.2 ∧
          (∀ e', min (sb.1 + minL.toNat) values.length - 1 ≤ e' → e' ≤ sb.2 →
            probeOk values pt thr sb.1 e' = true) ∧
          (¬ (sb.2 + 1 < values.length ∧ sb.2 - sb.1 + 1 < maxL.toNat) ∨
            probeOk values pt thr sb.1 (sb.2 + 1) = false)))) := by
  refine ⟨adaptive_error_iff values pt minL maxL thr hvals hpt, ?_⟩
  intro ranges hr
  refine ⟨segment_series_adaptive_tiles values pt minL maxL thr ranges hr, ?_⟩
  unfold segment_series_adaptive at hr
  rw [if_neg (by simpa using hvals)] at hr
  by_cases hpar : minL ≤ 0 ∨ maxL < minL
  · rw [dif_pos hpar] at hr
    exact absurd hr (by simp)
  · rw [dif_neg hpar] at hr
    exact adaptiveGo_char values pt minL.toNat maxL.toNat thr (by omega)
      values.length 0 ranges (by omega) hr

/-- C9 (witness): the characterization at `values = [0, 1]`, linear probe
predictor, `min_len = 1`, `max_len = 2`, threshold `1/2`. -/
theorem C9_witness :
    ((∃ msg, segment_series_adaptive [(0 : ℚ), 1] 1 1 2 (1/2) = .error msg) ↔
      ((1 : ℤ) ≤ 0 ∨ (2 : ℤ) < 1)) ∧
    (∀ ranges, segment_series_adaptive [(0 : ℚ), 1] 1 1 2 (1/2) = .ok ranges →
      tiles ranges ([(0 : ℚ), 1] : List ℚ).length = true ∧
      ∀ sb ∈ ranges,
        ((sb.2 = min (sb.1 + (1 : ℤ).toNat) ([(0 : ℚ), 1] : List ℚ).length - 1 ∧
          probeOk [(0 : ℚ), 1] 1 (1/2) sb.1
            (min (sb.1 + (1 : ℤ).toNat) ([(0 : ℚ), 1] : List ℚ).length - 1) = false) ∨
         (min (sb.1 + (1 : ℤ).toNat) ([(0 : ℚ), 1] : List ℚ).length - 1 ≤ sb.2 ∧
          (∀ e', min (sb.1 + (1 : ℤ).toNat) ([(0 : ℚ), 1] : List ℚ).length - 1 ≤ e' →
            e' ≤ sb.2 → probeOk [(0 : ℚ), 1] 1 (1/2) sb.1 e' = true) ∧
          (¬ (sb.2 + 1 < ([(0 : ℚ), 1] : List ℚ).length ∧
              sb.2 - sb.1 + 1 < (2 : ℤ).toNat) ∨
            probeOk [(0 : ℚ), 1] 1 (1/2) sb.1 (sb.2 + 1) = false)))) :=
  C9_theorem [(0 : ℚ), 1] 1 1 2 (1/2) (by simp) (by norm_num)

/-- C10: an unknown predictor type always aborts reconstruction — no pair
with `predictor_type ∉ {0, 1, 2}` is skipped or reinterpreted — and a
concrete structurally valid LSG2 buffer whose segment declares
`predictor_type = 3` is rejected by `decode_timeseries`. -/
theorem C10_theorem :
    (∀ (pairs : List (SegmentEntry × List ℤ)) (x_hat : List ℚ),
      (∃ p ∈ pairs, 3 ≤ p.1.predictor_type) →
      ∃ msg, reconstructAll x_hat pairs = .error msg) ∧
    (∃ data : List ℕ, serializeFile filePt3 = .ok data ∧
      ∃ msg, decode_timeseries data = .error msg) :=
  ⟨fun pairs x_hat h => reconstructAll_unknown pairs x_hat h, pt3Rejects⟩

/-- C10 (witness): reconstruction of a single `predictor_type = 3` segment
fails. -/
theorem C10_witness : ∃ msg, reconstructAll [(0 : ℚ)] [(segPt3, [0])] = .error msg :=
  C10_theorem.1 [(segPt3, [0])] [(0 : ℚ)] ⟨(segPt3, [0]), by simp, by decide⟩

end Lasagna

